import Mathlib

/-!
Verification of the sudoku backtracking solver library.

The Rust source (src/lib.rs) is embedded shallowly:
strings become lists of characters, arrays become lists,
the fallible constructors return `Except`, and the stateful
iterator `Solver::next` becomes an explicit step function on a
`Solver` state together with fueled drivers `nextF` / `enumF`.
-/

namespace Sudoku

/-! ## Setup constants (src/lib.rs SETUP section) -/

def ROW_PER_BLOCK : Nat := 3

def COL_PER_BLOCK : Nat := 3

def SIZE : Nat := ROW_PER_BLOCK * COL_PER_BLOCK

def SYMBOLS : List (List Char) :=
  [[Char.ofNat 49], [Char.ofNat 50], [Char.ofNat 51], [Char.ofNat 52], [Char.ofNat 53],
   [Char.ofNat 54], [Char.ofNat 55], [Char.ofNat 56], [Char.ofNat 57]]

def PLACEHOLDER : List Char := [Char.ofNat 95]

def SEPARATOR : Char := Char.ofNat 44

/-- `from_symbol` from the source: position of a token in `SYMBOLS`. -/
def from_symbol (symbol : List Char) : Option Nat :=
  SYMBOLS.findIdx? (fun s => s == symbol)

/-- `from_index` from the source: the symbol at an index. -/
def from_index (index : Nat) : List Char :=
  SYMBOLS.getD index []

/-! ## Digit -/

/-- The `Digit` enum: an empty cell, or a filled cell carrying a
`given` flag and a value index in `0..9`. -/
inductive Digit where
  | none : Digit
  | some (given : Bool) (index : Nat) : Digit
deriving DecidableEq, Repr

inductive ParseDigitError where
  | Unknown : ParseDigitError
deriving DecidableEq, Repr

/-- `impl str::FromStr for Digit`. -/
def Digit.fromStr (slice : List Char) : Except ParseDigitError Digit :=
  if slice == PLACEHOLDER then Except.ok Digit.none
  else
    match from_symbol slice with
    | Option.some index => Except.ok (Digit.some true index)
    | Option.none => Except.error ParseDigitError.Unknown

/-- `impl fmt::Display for Digit`. -/
def Digit.display (d : Digit) : List Char :=
  match d with
  | Digit.none => PLACEHOLDER
  | Digit.some _ index => from_index index

/-- `impl cmp::PartialEq for Digit`: value-only equality, the
`given` flag is ignored. -/
def Digit.valEq : Digit → Digit → Bool
  | Digit.none, Digit.none => true
  | Digit.some _ a, Digit.some _ b => a == b
  | _, _ => false

/-! ## BitSet -/

/-- The `BitSet` over domain `0..9`, backed by a boolean array. -/
structure BitSet where
  bits : List Bool
deriving DecidableEq, Repr

def BitSet.default : BitSet := ⟨List.replicate 9 false⟩

def BitSet.set (b : BitSet) (index : Nat) : BitSet := ⟨b.bits.set index true⟩

def BitSet.reset (b : BitSet) (index : Nat) : BitSet := ⟨b.bits.set index false⟩

def BitSet.contains (b : BitSet) (index : Nat) : Bool := b.bits.getD index false

/-- `impl ops::BitOr for BitSet`: build a fresh set, copying every
index contained in either operand. -/
def BitSet.bitor (a b : BitSet) : BitSet :=
  (List.range 9).foldl
    (fun r index => if a.contains index || b.contains index then r.set index else r)
    BitSet.default

/-! ## Grid -/

/-- The `Grid`: 81 digits in row-major order (the `[[Digit; 9]; 9]`
matrix flattened, exactly as `iter_mut().flatten()` traverses it). -/
structure Grid where
  cells : List Digit
deriving DecidableEq, Repr

def Grid.default : Grid := ⟨List.replicate 81 Digit.none⟩

def Grid.getCell (g : Grid) (i : Nat) : Digit := g.cells.getD i Digit.none

inductive ParseGridError where
  | ParseDigit (e : ParseDigitError) : ParseGridError
  | InvalidDigitCount : ParseGridError
deriving DecidableEq, Repr

/-- The lockstep loop of `impl str::FromStr for Grid`: `n` cells
remain to fill; token and cell iterators advance together, a length
mismatch in either direction is `InvalidDigitCount`, and digit parse
errors are wrapped in `ParseDigit`. -/
def parseCells : List (List Char) → Nat → Except ParseGridError (List Digit)
  | [], 0 => Except.ok []
  | [], _ + 1 => Except.error ParseGridError.InvalidDigitCount
  | _ :: _, 0 => Except.error ParseGridError.InvalidDigitCount
  | t :: ts, n + 1 =>
    match Digit.fromStr t with
    | Except.error e => Except.error (ParseGridError.ParseDigit e)
    | Except.ok d =>
      match parseCells ts n with
      | Except.error e => Except.error e
      | Except.ok ds => Except.ok (d :: ds)

/-- Rust `str::split(sep)`: splits into the (always nonempty) list of
maximal separator-free chunks; the empty string yields one empty chunk. -/
def splitSep (sep : Char) : List Char → List (List Char)
  | [] => [[]]
  | c :: rest =>
    if c = sep then [] :: splitSep sep rest
    else
      match splitSep sep rest with
      | [] => [[c]]
      | t :: ts => (c :: t) :: ts

/-- `impl str::FromStr for Grid`: split on the separator, then fill
the 81 cells in lockstep. -/
def Grid.fromStr (value : List Char) : Except ParseGridError Grid :=
  match parseCells (splitSep SEPARATOR value) 81 with
  | Except.error e => Except.error e
  | Except.ok ds => Except.ok ⟨ds⟩

/-- One row of `impl fmt::Display for Grid`: every digit followed by
the separator. -/
def Grid.renderRow (g : Grid) (r : Nat) : List Char :=
  ((List.range 9).map (fun c => (g.getCell (r * 9 + c)).display ++ [SEPARATOR])).flatten

/-- `impl fmt::Display for Grid`: for every row, a newline then the
row's cells. -/
def Grid.render (g : Grid) : List Char :=
  ((List.range 9).map (fun r => Char.ofNat 10 :: g.renderRow r)).flatten

/-- Value-only grid equality (`Grid` derives `PartialEq`, which
compares cells with the value-only `Digit` equality). -/
def Grid.valEq (a b : Grid) : Bool :=
  a.cells.length == b.cells.length &&
    (List.range a.cells.length).all (fun i => (a.getCell i).valEq (b.getCell i))

/-! ## Cursor -/

structure Cursor where
  index : Nat
  forward : Bool
deriving DecidableEq, Repr

inductive CursorError where
  | BeforeBegin : CursorError
  | AfterEnd : CursorError
deriving DecidableEq, Repr

def Cursor.init : Cursor := { index := 0, forward := true }

/-- `Cursor::item`: the row, column and block of the current index. -/
def Cursor.item (c : Cursor) : Nat × Nat × Nat :=
  let row := c.index / SIZE
  let col := c.index % SIZE
  (row, col, (row / ROW_PER_BLOCK) * ROW_PER_BLOCK + col / COL_PER_BLOCK)

/-- `Cursor::next`: fails with `AfterEnd` at the last cell (setting
`forward := false`), otherwise advances forward. -/
def Cursor.next (c : Cursor) : Cursor × Option CursorError :=
  if c.index = SIZE * SIZE - 1 then
    ({ c with forward := false }, Option.some CursorError.AfterEnd)
  else
    ({ index := c.index + 1, forward := true }, Option.none)

/-- `Cursor::prev`: fails with `BeforeBegin` at the first cell
(setting `forward := true`), otherwise retreats backward. -/
def Cursor.prev (c : Cursor) : Cursor × Option CursorError :=
  if c.index = 0 then
    ({ c with forward := true }, Option.some CursorError.BeforeBegin)
  else
    ({ index := c.index - 1, forward := false }, Option.none)

/-- `Cursor::skip`: step in the current direction. -/
def Cursor.skip (c : Cursor) : Cursor × Option CursorError :=
  match c.forward with
  | true => c.next
  | false => c.prev

/-! ## Solver -/

structure Solver where
  grid : Grid
  cursor : Cursor
  row_states : List BitSet
  col_states : List BitSet
  blk_states : List BitSet
deriving DecidableEq, Repr

inductive SolverError where
  | InvalidGrid : SolverError
deriving DecidableEq, Repr

/-- `Solver::new`: fresh cursor and empty house bitsets. -/
def Solver.new (grid : Grid) : Solver :=
  { grid := grid, cursor := Cursor.init,
    row_states := List.replicate 9 BitSet.default,
    col_states := List.replicate 9 BitSet.default,
    blk_states := List.replicate 9 BitSet.default }

/-- The house union at a position - `row_states[row] | col_states[col]
| blk_states[blk]`. -/
def Solver.takenAt (s : Solver) (row col blk : Nat) : BitSet :=
  ((s.row_states.getD row BitSet.default).bitor
    (s.col_states.getD col BitSet.default)).bitor
    (s.blk_states.getD blk BitSet.default)

/-- One iteration of the validation loop in `impl TryFrom<Grid> for
Solver`, at absolute cell index `i`. -/
def Solver.seedCell (s : Solver) (i : Nat) : Except SolverError Solver :=
  let rcb := Cursor.item { index := i, forward := true }
  let row := rcb.1
  let col := rcb.2.1
  let blk := rcb.2.2
  match s.grid.getCell (row * 9 + col) with
  | Digit.none => Except.ok s
  | Digit.some _ index =>
    let taken := s.takenAt row col blk
    if taken.contains index then Except.error SolverError.InvalidGrid
    else
      Except.ok { s with
        row_states := s.row_states.set row ((s.row_states.getD row BitSet.default).set index),
        col_states := s.col_states.set col ((s.col_states.getD col BitSet.default).set index),
        blk_states := s.blk_states.set blk ((s.blk_states.getD blk BitSet.default).set index) }

def tryFromAux (s : Solver) : List Nat → Except SolverError Solver
  | [] => Except.ok s
  | i :: rest =>
    match s.seedCell i with
    | Except.error e => Except.error e
    | Except.ok s2 => tryFromAux s2 rest

/-- `impl TryFrom<Grid> for Solver`: one forward pass over cells
0..80, validating and seeding the house bitsets. -/
def Solver.tryFrom (value : Grid) : Except SolverError Solver :=
  tryFromAux (Solver.new value) (List.range 81)

/-- `Grid::solve`. -/
def Grid.solve (g : Grid) : Except SolverError Solver := Solver.tryFrom g

/-- `next_index`: first value in ascending order that is not taken
and, for a filled digit, is strictly above the digit's value. -/
def next_index (digit : Digit) (taken : BitSet) : Option Nat :=
  (List.range 9).find? (fun available =>
    !taken.contains available &&
      (match digit with
       | Digit.some _ index => decide (index < available)
       | Digit.none => true))

/-- Removal of a guessed value during backtracking: clear the value
from the three house bitsets and empty the cell. -/
def Solver.removeDigit (s : Solver) (row col blk index : Nat) : Solver :=
  { s with
    row_states := s.row_states.set row ((s.row_states.getD row BitSet.default).reset index),
    col_states := s.col_states.set col ((s.col_states.getD col BitSet.default).reset index),
    blk_states := s.blk_states.set blk ((s.blk_states.getD blk BitSet.default).reset index),
    grid := ⟨s.grid.cells.set (row * 9 + col) Digit.none⟩ }

/-- Commit of a candidate value: mark it in the three house bitsets
and write the cell as a non-given digit. -/
def Solver.placeDigit (s : Solver) (row col blk index : Nat) : Solver :=
  { s with
    row_states := s.row_states.set row ((s.row_states.getD row BitSet.default).set index),
    col_states := s.col_states.set col ((s.col_states.getD col BitSet.default).set index),
    blk_states := s.blk_states.set blk ((s.blk_states.getD blk BitSet.default).set index),
    grid := ⟨s.grid.cells.set (row * 9 + col) (Digit.some false index)⟩ }

/-- Outcome of one iteration of the loop in `Iterator::next`. -/
inductive StepRes where
  | cont (s : Solver) : StepRes
  | emit (s : Solver) (g : Grid) : StepRes
  | done (s : Solver) : StepRes
deriving DecidableEq, Repr

/-- One iteration of the loop body of `impl Iterator for Solver`:
skip a given digit, or retract the current guess and try the next
candidate, moving the cursor and returning on the boundaries. -/
def Solver.step (s : Solver) : StepRes :=
  let rcb := s.cursor.item
  let row := rcb.1
  let col := rcb.2.1
  let blk := rcb.2.2
  let digit := s.grid.getCell (row * 9 + col)
  match digit with
  | Digit.some true _ =>
    match s.cursor.skip with
    | (c2, Option.some CursorError.BeforeBegin) => StepRes.done { s with cursor := c2 }
    | (c2, Option.some CursorError.AfterEnd) => StepRes.emit { s with cursor := c2 } s.grid
    | (c2, Option.none) => StepRes.cont { s with cursor := c2 }
  | _ =>
    let taken := s.takenAt row col blk
    let s1 :=
      match digit with
      | Digit.some _ index => s.removeDigit row col blk index
      | Digit.none => s
    match next_index digit taken with
    | Option.none =>
      match s1.cursor.prev with
      | (c2, Option.some _) => StepRes.done { s1 with cursor := c2 }
      | (c2, Option.none) => StepRes.cont { s1 with cursor := c2 }
    | Option.some index =>
      let s2 := s1.placeDigit row col blk index
      match s2.cursor.next with
      | (c2, Option.some _) => StepRes.emit { s2 with cursor := c2 } s2.grid
      | (c2, Option.none) => StepRes.cont { s2 with cursor := c2 }

/-- Fueled driver for one call of `Solver::next`: iterate `step`
until an emission (`some (some g, s)`), an exhaustion
(`some (none, s)`), or fuel runs out (`none`). -/
def nextF : Nat → Solver → Option (Option Grid × Solver)
  | 0, _ => Option.none
  | f + 1, s =>
    match s.step with
    | StepRes.cont s2 => nextF f s2
    | StepRes.emit s2 g => Option.some (Option.some g, s2)
    | StepRes.done s2 => Option.some (Option.none, s2)

/-- Fueled driver for the whole enumeration: collect every emitted
grid until `Solver::next` returns `None` for the first time. -/
def enumF : Nat → Solver → Option (List Grid)
  | 0, _ => Option.none
  | f + 1, s =>
    match s.step with
    | StepRes.cont s2 => enumF f s2
    | StepRes.emit s2 g =>
      match enumF f s2 with
      | Option.none => Option.none
      | Option.some gs => Option.some (g :: gs)
    | StepRes.done _ => Option.some []

/-- The successor state of one loop iteration, whatever its outcome. -/
def Solver.advance (s : Solver) : Solver :=
  match s.step with
  | StepRes.cont s2 => s2
  | StepRes.emit s2 _ => s2
  | StepRes.done s2 => s2

def advanceN : Nat → Solver → Solver
  | 0, s => s
  | n + 1, s => advanceN n s.advance

/-- States of the solver reachable from a starting state over any
number of loop iterations (spanning successive `next` calls). -/
def SReach (s0 s : Solver) : Prop := ∃ n, advanceN n s0 = s

/-! ## Specification predicates -/

/-- The `Digit` invariant stated in the spec: a filled value is in
range (in Rust, out-of-range indices make symbol/bitset array
accesses panic, so no API-reachable digit violates this). -/
def Digit.wfB (d : Digit) : Bool :=
  match d with
  | Digit.none => true
  | Digit.some _ index => decide (index < 9)

/-- The `Grid` invariant: exactly 81 cells (the Rust type is a fixed
9 by 9 array), every filled value in range. -/
def Grid.wfB (g : Grid) : Bool :=
  g.cells.length == 81 && g.cells.all Digit.wfB

/-- The value of a digit, discarding the `given` flag. -/
def valOf (d : Digit) : Option Nat :=
  match d with
  | Digit.none => Option.none
  | Digit.some _ index => Option.some index

/-- The value of a digit when it is a given, else nothing. -/
def givenValOf (d : Digit) : Option Nat :=
  match d with
  | Digit.some true index => Option.some index
  | _ => Option.none

def rowOf (i : Nat) : Nat := i / 9

def colOf (i : Nat) : Nat := i % 9

def blkOf (i : Nat) : Nat := (i / 9 / 3) * 3 + i % 9 / 3

/-- Two cell indices share a house: same row, column or block. -/
def sameHouse (i j : Nat) : Bool :=
  rowOf i == rowOf j || colOf i == colOf j || blkOf i == blkOf j

/-- Every cell of the grid is filled. -/
def Grid.complete (g : Grid) : Bool :=
  (List.range 81).all (fun i => (valOf (g.getCell i)).isSome)

/-- Every row, column and block contains each of the nine values
exactly once. -/
def Grid.houseExact (g : Grid) : Bool :=
  ((List.range 9).all fun r => (List.range 9).all fun v =>
    ((List.range 9).filter fun c => valOf (g.getCell (r * 9 + c)) == Option.some v).length == 1) &&
  ((List.range 9).all fun c => (List.range 9).all fun v =>
    ((List.range 9).filter fun r => valOf (g.getCell (r * 9 + c)) == Option.some v).length == 1) &&
  ((List.range 9).all fun b => (List.range 9).all fun v =>
    (((List.range 81).filter fun i => blkOf i == b).filter fun i =>
      valOf (g.getCell i) == Option.some v).length == 1)

/-- No two distinct filled cells of one house hold the same value. -/
def Grid.housesOk (g : Grid) : Prop :=
  ∀ i j, i < 81 → j < 81 → i ≠ j → sameHouse i j = true →
    ∀ v, valOf (g.getCell i) = Option.some v → valOf (g.getCell j) ≠ Option.some v

/-- `h` is a complete valid completion of the starting grid `start`:
81 in-range values, each value once per house, and every filled cell
of `start` kept (value-wise). -/
def IsSolutionOf (start h : Grid) : Prop :=
  h.wfB = true ∧ h.complete = true ∧ h.housesOk ∧
    ∀ i, i < 81 → valOf (start.getCell i) ≠ Option.none →
      valOf (h.getCell i) = valOf (start.getCell i)

/-- The three public operations of the `Cursor` state machine. -/
inductive CursorOp where
  | opNext : CursorOp
  | opPrev : CursorOp
  | opSkip : CursorOp
deriving DecidableEq, Repr

def Cursor.apply (c : Cursor) (op : CursorOp) : Cursor :=
  match op with
  | CursorOp.opNext => c.next.1
  | CursorOp.opPrev => c.prev.1
  | CursorOp.opSkip => c.skip.1

def Cursor.applyOps (c : Cursor) : List CursorOp → Cursor
  | [] => c
  | op :: ops => (c.apply op).applyOps ops

/-- Cursor states reachable from the initial state `(0, forward)` by
any sequence of `next` / `prev` / `skip` calls. -/
def CReach (c : Cursor) : Prop := ∃ ops, Cursor.applyOps Cursor.init ops = c

/-- A value is a legal candidate for a cell: in range, not taken in
the house union, and strictly above the value currently recorded in
the digit (any value if the digit is empty). -/
def isCandidate (digit : Digit) (taken : BitSet) (v : Nat) : Bool :=
  decide (v < 9) && !taken.contains v &&
    (match digit with
     | Digit.some _ index => decide (index < v)
     | Digit.none => true)

/-- Well-formedness of a solver's bitset arrays: three arrays of
nine bitsets of nine bits (the fixed array shapes of the Rust type). -/
def Solver.statesWF (s : Solver) : Prop :=
  s.row_states.length = 9 ∧ s.col_states.length = 9 ∧ s.blk_states.length = 9 ∧
    (∀ b ∈ s.row_states, b.bits.length = 9) ∧
    (∀ b ∈ s.col_states, b.bits.length = 9) ∧
    (∀ b ∈ s.blk_states, b.bits.length = 9)

/-- A bitset array marks exactly the values of the filled cells with
index below `upTo` of each house, for a given house mapping. -/
def houseCorrespond (states : List BitSet) (g : Grid) (houseOf : Nat → Nat) (upTo : Nat) : Prop :=
  ∀ a v, a < 9 → v < 9 →
    ((states.getD a BitSet.default).contains v = true ↔
      ∃ i, i < upTo ∧ houseOf i = a ∧ valOf (g.getCell i) = Option.some v)

/-- Each house bitset marks exactly the values of the filled cells
with index below `upTo` of its house. -/
def corresponds (s : Solver) (upTo : Nat) : Prop :=
  houseCorrespond s.row_states s.grid rowOf upTo ∧
    houseCorrespond s.col_states s.grid colOf upTo ∧
    houseCorrespond s.blk_states s.grid blkOf upTo

/-- No two distinct filled cells with index below `upTo` in one house
hold the same value. -/
def prefixOk (g : Grid) (upTo : Nat) : Prop :=
  ∀ i j, i < upTo → j < upTo → i ≠ j → sameHouse i j = true →
    ∀ v, valOf (g.getCell i) = Option.some v → valOf (g.getCell j) ≠ Option.some v

/-- Every cell of the grid is a given digit. -/
def Grid.allGivenB (g : Grid) : Bool :=
  (List.range 81).all (fun i =>
    match g.getCell i with
    | Digit.some true _ => true
    | _ => false)

/-- The complete solution grid of the classic puzzle used in the
repository tests (values 1..9). -/
def solvedVals : List Nat :=
  [5, 3, 4, 6, 7, 8, 9, 1, 2,
   6, 7, 2, 1, 9, 5, 3, 4, 8,
   1, 9, 8, 3, 4, 2, 5, 6, 7,
   8, 5, 9, 7, 6, 1, 4, 2, 3,
   4, 2, 6, 8, 5, 3, 7, 9, 1,
   7, 1, 3, 9, 2, 4, 8, 5, 6,
   9, 6, 1, 5, 3, 7, 2, 8, 4,
   2, 8, 7, 4, 1, 9, 6, 3, 5,
   3, 4, 5, 2, 8, 6, 1, 7, 9]

/-- The test solution grid with every cell given. -/
def wSolved : Grid := ⟨solvedVals.map (fun v => Digit.some true (v - 1))⟩

/-- The test solution grid with every cell marked as a guess
(a grid obtainable from the public API as an emitted solution of the
empty grid restricted to these values). -/
def wGuessed : Grid := ⟨solvedVals.map (fun v => Digit.some false (v - 1))⟩

def unwrapSolver : Except SolverError Solver → Solver
  | Except.ok s => s
  | Except.error _ => Solver.new Grid.default

def wSolvedSolver : Solver := unwrapSolver (Grid.solve wSolved)

def wGuessedSolver : Solver := unwrapSolver (Grid.solve wGuessed)

/-- The digit is not a given (it is empty or a guess); these are the
cells the search may write to. -/
def isFreeB (d : Digit) : Bool :=
  match d with
  | Digit.some true _ => false
  | _ => true

/-- Numeric code of a cell content: 0 for empty, value plus one for a
filled cell. -/
def code (d : Digit) : Nat :=
  match d with
  | Digit.none => 0
  | Digit.some _ v => v + 1

/-- Cell contribution to the measure ignoring the cursor boost: a
given counts 0, a free cell its code. -/
def gCode (d : Digit) : Nat :=
  match d with
  | Digit.some true _ => 0
  | d => code d

/-- The cursor-independent part of the loop invariant: a well-formed
81-cell grid, well-shaped bitsets that mark exactly the filled values
of each house, and no house conflict among filled cells. -/
def coreInv (s : Solver) : Prop :=
  Grid.wfB s.grid = true ∧ s.statesWF ∧ corresponds s 81 ∧ prefixOk s.grid 81

/-- The master invariant of the enumeration loop: the core invariant,
a cursor in range, and no empty cell strictly below the cursor. -/
def SInv (s : Solver) : Prop :=
  coreInv s ∧ s.cursor.index ≤ 80 ∧
    (∀ i, i < s.cursor.index → s.grid.getCell i ≠ Digit.none)

/-- Weight of cell `i` in the termination measure (base 11, the
leftmost cell most significant). -/
def cellWeight (i : Nat) : Nat := 11 ^ (80 - i)

/-- Contribution of cell `i` to the termination measure: a given
contributes a constant 0; a non-given cell strictly beyond a
backward-moving cursor counts as exhausted (11 > any code);
otherwise the cell counts its code. -/
def eCode (s : Solver) (i : Nat) : Nat :=
  match s.grid.getCell i with
  | Digit.some true _ => 0
  | d =>
    if s.cursor.index < i ∧ s.cursor.forward = false then 10
    else code d

/-- The grid part of the termination measure: the 81 cell
contributions read as one base-11 number. -/
def Lmeasure (s : Solver) : Nat :=
  ((List.range 81).map (fun i => eCode s i * cellWeight i)).sum

def MAXL : Nat := 11 ^ 81 - 1

def flagMeasure (s : Solver) : Nat := if s.cursor.forward = true then 1 else 0

def Tmeasure (s : Solver) : Nat :=
  if s.cursor.forward = true then 80 - s.cursor.index else s.cursor.index

/-- The strictly decreasing measure of the enumeration loop. -/
def nuMeasure (s : Solver) : Nat :=
  (MAXL - Lmeasure s) * 324 + flagMeasure s * 162 + Tmeasure s

/-- A token parses successfully as a digit. -/
def tokOkB (t : List Char) : Bool :=
  match Digit.fromStr t with
  | Except.ok _ => true
  | Except.error _ => false

/-- Witness string: an `x` token followed by 81 empty tokens
(82 tokens in all, the first of them invalid). -/
def wBadLong : List Char := Char.ofNat 120 :: List.replicate 81 SEPARATOR

/-- Witness string: 82 underscore tokens. -/
def wLong : List Char :=
  (List.replicate 81 [Char.ofNat 95, SEPARATOR]).flatten ++ [Char.ofNat 95]

/-- Witness string: 81 underscore tokens then an `x` token. -/
def wLong2 : List Char :=
  (List.replicate 81 [Char.ofNat 95, SEPARATOR]).flatten ++ [Char.ofNat 120]

/-- Witness string: 80 underscore tokens then an `x` token (81 tokens). -/
def wBad81 : List Char :=
  (List.replicate 80 [Char.ofNat 95, SEPARATOR]).flatten ++ [Char.ofNat 120]

/-! ## Completeness predicates (relative to a start grid) -/

/-- No cell of the grid holds a guessed (non-given) digit: the filled
cells are exactly the givens. -/
def Grid.noGuessB (g : Grid) : Bool :=
  (List.range 81).all (fun i =>
    match g.getCell i with
    | Digit.some false _ => false
    | _ => true)

/-- Value-wise equality over the 81 cell positions. -/
def valEqP (a b : Grid) : Prop :=
  ∀ i, i < 81 → valOf (a.getCell i) = valOf (b.getCell i)

/-- Cells before `j` that are free in the start grid `g0` carry the
same values in the working grid `gr` and in the candidate `h`. -/
def agreeBelow (g0 gr h : Grid) (j : Nat) : Prop :=
  ∀ k, k < j → g0.getCell k = Digit.none → valOf (h.getCell k) = valOf (gr.getCell k)

/-- The candidate `h` strictly exceeds the working assignment at the
free cell `j`, matching it on every free cell below. -/
def excessAt (g0 gr h : Grid) (j : Nat) : Prop :=
  g0.getCell j = Digit.none ∧ agreeBelow g0 gr h j ∧
    code (gr.getCell j) < code (h.getCell j)

/-- Cell indices the scan has committed or is about to retry: all
below the cursor, plus the cursor cell itself when moving backward. -/
def pendBound (s : Solver) : Nat :=
  if s.cursor.forward = true then s.cursor.index else s.cursor.index + 1

/-- The candidate `h` is still ahead of the search at state `s`:
either the scan moves forward over a prefix matching `h`, or `h`
exceeds the working assignment at a free cell the scan can still
retry. -/
def pending (g0 : Grid) (s : Solver) (h : Grid) : Prop :=
  (s.cursor.forward = true ∧ agreeBelow g0 s.grid h s.cursor.index) ∨
  (∃ j, j < pendBound s ∧ excessAt g0 s.grid h j)

/-- The extended loop invariant for completeness, relative to the
start grid `g0`: the basic invariant, givens preserved, free cells
never given, free cells the scan has not committed still empty, and a
backward cursor always sitting on a filled cell. -/
def CInv (g0 : Grid) (s : Solver) : Prop :=
  SInv s ∧
  (∀ i, i < 81 → g0.getCell i ≠ Digit.none → s.grid.getCell i = g0.getCell i) ∧
  (∀ i v, i < 81 → g0.getCell i = Digit.none → s.grid.getCell i ≠ Digit.some true v) ∧
  (∀ i, i < 81 → g0.getCell i = Digit.none → pendBound s ≤ i →
    s.grid.getCell i = Digit.none) ∧
  (s.cursor.forward = false → s.grid.getCell s.cursor.index ≠ Digit.none)

/-- Bounded boolean mirror of `housesOk`. -/
def housesOkB (g : Grid) : Bool :=
  (List.range 81).all fun i => (List.range 81).all fun j =>
    !(decide (i ≠ j) && sameHouse i j && (valOf (g.getCell i)).isSome &&
      (valOf (g.getCell i) == valOf (g.getCell j)))

/-! ## Generic helper lemmas -/

theorem find_range_none (p : Nat → Bool) (n : Nat) :
    (List.range n).find? p = Option.none ↔ ∀ u, u < n → p u = false := by
  rw [List.find?_eq_none]
  constructor
  · intro h u hu
    simpa using h u (List.mem_range.mpr hu)
  · intro h u hu
    simpa using h u (List.mem_range.mp hu)

theorem find_range_some (p : Nat → Bool) (n : Nat) : ∀ v,
    ((List.range n).find? p = Option.some v ↔
      (v < n ∧ p v = true ∧ ∀ u, u < v → p u = false)) := by
  induction n with
  | zero => intro v; simp
  | succ n ih =>
    intro v
    rw [List.range_succ, List.find?_append]
    rcases h1 : (List.range n).find? p with _ | w
    · have hall := (find_range_none p n).mp h1
      rw [Option.none_or]
      by_cases hpn : p n = true
      · rw [List.find?_cons_of_pos _ hpn]
        constructor
        · intro h
          have hvn : n = v := by simpa using h
          subst hvn
          exact ⟨Nat.lt_succ_self n, hpn, fun u hu => hall u (by omega)⟩
        · rintro ⟨hv, hpv, hmin⟩
          have hvn : v = n := by
            rcases Nat.lt_succ_iff_lt_or_eq.mp hv with hlt | heq
            · exact absurd hpv (by simp [hall v hlt])
            · exact heq
          subst hvn
          rfl
      · rw [List.find?_cons_of_neg _ hpn]
        simp only [List.find?_nil]
        constructor
        · intro h
          exact absurd h (by simp)
        · rintro ⟨hv, hpv, hmin⟩
          have hvn : v = n := by
            rcases Nat.lt_succ_iff_lt_or_eq.mp hv with hlt | heq
            · exact absurd hpv (by simp [hall v hlt])
            · exact heq
          subst hvn
          exact absurd hpv hpn
    · have hw := (ih w).mp h1
      rw [Option.or_some]
      constructor
      · intro h
        have hwv : w = v := by simpa using h
        subst hwv
        exact ⟨by omega, hw.2.1, hw.2.2⟩
      · rintro ⟨hv, hpv, hmin⟩
        have hvw : v = w := by
          by_contra hne
          rcases Nat.lt_or_ge v w with hlt | hge
          · exact absurd hpv (by simp [hw.2.2 v hlt])
          · have hwlt : w < v := by omega
            exact absurd hw.2.1 (by simp [hmin w hwlt])
        simp [hvw]

theorem find?_congr_mem {α : Type} (p q : α → Bool) :
    ∀ l : List α, (∀ x ∈ l, p x = q x) → l.find? p = l.find? q := by
  intro l
  induction l with
  | nil => intro _; rfl
  | cons a l ih =>
    intro h
    have ha := h a (List.mem_cons_self a l)
    by_cases hpa : p a = true
    · rw [List.find?_cons_of_pos _ hpa, List.find?_cons_of_pos _ (ha ▸ hpa)]
    · have hqa : ¬q a = true := fun hq => hpa (ha ▸ hq)
      rw [List.find?_cons_of_neg _ hpa, List.find?_cons_of_neg _ hqa]
      exact ih fun x hx => h x (List.mem_cons_of_mem a hx)

/-! ## Cursor lemmas (C6) -/

theorem cursor_next_bound (c : Cursor) (h : c.index ≤ 80) : c.next.1.index ≤ 80 := by
  by_cases h80 : c.index = 80 <;>
    simp [Cursor.next, SIZE, ROW_PER_BLOCK, COL_PER_BLOCK, h80] <;> omega

theorem cursor_prev_bound (c : Cursor) (h : c.index ≤ 80) : c.prev.1.index ≤ 80 := by
  by_cases h0 : c.index = 0 <;> simp [Cursor.prev, h0] <;> omega

theorem cursor_apply_bound (op : CursorOp) (c : Cursor) (h : c.index ≤ 80) :
    (c.apply op).index ≤ 80 := by
  rcases op with _ | _ | _
  · exact cursor_next_bound c h
  · exact cursor_prev_bound c h
  · rcases hf : c.forward
    · simpa [Cursor.apply, Cursor.skip, hf] using cursor_prev_bound c h
    · simpa [Cursor.apply, Cursor.skip, hf] using cursor_next_bound c h

theorem cursor_applyOps_bound (ops : List CursorOp) :
    ∀ c : Cursor, c.index ≤ 80 → (c.applyOps ops).index ≤ 80 := by
  induction ops with
  | nil => intro c h; exact h
  | cons op ops ih =>
    intro c h
    exact ih (c.apply op) (cursor_apply_bound op c h)

theorem creach_bound (c : Cursor) (h : CReach c) : c.index ≤ 80 := by
  rcases h with ⟨ops, rfl⟩
  exact cursor_applyOps_bound ops Cursor.init (by simp [Cursor.init])

/-- Claim C6: from every reachable cursor state, `next` at index 80
fails with `AfterEnd` leaving the index unchanged and clearing
`forward`, otherwise it increments the index and sets `forward`;
`prev` at index 0 fails with `BeforeBegin` leaving the index
unchanged and setting `forward`, otherwise it decrements the index
and clears `forward`; and the index always stays in `[0, 81)`. -/
theorem claim_C6_cursor_state_machine (c : Cursor) (h : CReach c) :
    (c.index = 80 →
      c.next.1.index = c.index ∧ c.next.1.forward = false ∧
        c.next.2 = Option.some CursorError.AfterEnd) ∧
    (c.index ≠ 80 →
      c.next.1.index = c.index + 1 ∧ c.next.1.forward = true ∧
        c.next.2 = Option.none) ∧
    (c.index = 0 →
      c.prev.1.index = c.index ∧ c.prev.1.forward = true ∧
        c.prev.2 = Option.some CursorError.BeforeBegin) ∧
    (c.index ≠ 0 →
      c.prev.1.index = c.index - 1 ∧ c.prev.1.forward = false ∧
        c.prev.2 = Option.none) ∧
    c.index < 81 := by
  have hb := creach_bound c h
  refine ⟨?_, ?_, ?_, ?_, by omega⟩ <;>
    intro hi <;>
    simp [Cursor.next, Cursor.prev, SIZE, ROW_PER_BLOCK, COL_PER_BLOCK, hi]

theorem claim_C6_cursor_state_machine_witness :
    (Cursor.init.index = 80 →
      Cursor.init.next.1.index = Cursor.init.index ∧
        Cursor.init.next.1.forward = false ∧
        Cursor.init.next.2 = Option.some CursorError.AfterEnd) ∧
    (Cursor.init.index ≠ 80 →
      Cursor.init.next.1.index = Cursor.init.index + 1 ∧
        Cursor.init.next.1.forward = true ∧
        Cursor.init.next.2 = Option.none) ∧
    (Cursor.init.index = 0 →
      Cursor.init.prev.1.index = Cursor.init.index ∧
        Cursor.init.prev.1.forward = true ∧
        Cursor.init.prev.2 = Option.some CursorError.BeforeBegin) ∧
    (Cursor.init.index ≠ 0 →
      Cursor.init.prev.1.index = Cursor.init.index - 1 ∧
        Cursor.init.prev.1.forward = false ∧
        Cursor.init.prev.2 = Option.none) ∧
    Cursor.init.index < 81 :=
  claim_C6_cursor_state_machine Cursor.init ⟨[], rfl⟩

/-! ## next_index lemmas (C7) -/

theorem isCandidate_big (digit : Digit) (taken : BitSet) (v : Nat) (h : 9 ≤ v) :
    isCandidate digit taken v = false := by
  simp only [isCandidate]
  have : decide (v < 9) = false := by simp; omega
  simp [this]

theorem next_index_eq_find (digit : Digit) (taken : BitSet) :
    next_index digit taken = (List.range 9).find? (isCandidate digit taken) := by
  unfold next_index
  apply find?_congr_mem
  intro v hv
  have hv9 : v < 9 := List.mem_range.mp hv
  simp only [isCandidate, decide_eq_true hv9, Bool.true_and]

/-- Claim C7: `next_index` returns the least in-range value that is
not taken and strictly above the digit's current value (any value
when the digit is empty); it returns `None` exactly when no such
value exists. -/
theorem claim_C7_next_index_least (digit : Digit) (taken : BitSet) :
    (∀ v, next_index digit taken = Option.some v ↔
      (isCandidate digit taken v = true ∧
        ∀ u, u < v → isCandidate digit taken u = false)) ∧
    (next_index digit taken = Option.none ↔
      ∀ v, isCandidate digit taken v = false) := by
  rw [next_index_eq_find]
  constructor
  · intro v
    rw [find_range_some]
    constructor
    · rintro ⟨_, hc, hmin⟩
      exact ⟨hc, hmin⟩
    · rintro ⟨hc, hmin⟩
      have hv9 : v < 9 := by
        by_contra hge
        rw [isCandidate_big digit taken v (by omega)] at hc
        exact Bool.false_ne_true hc
      exact ⟨hv9, hc, hmin⟩
  · rw [find_range_none]
    constructor
    · intro h v
      by_cases hv : v < 9
      · exact h v hv
      · exact isCandidate_big digit taken v (by omega)
    · intro h v _
      exact h v

/-! ## Parsing lemmas (C9, C10) -/

theorem tokOkB_false_eq (t : List Char) (h : tokOkB t = false) :
    Digit.fromStr t = Except.error ParseDigitError.Unknown := by
  unfold tokOkB at h
  rcases he : Digit.fromStr t with e | d
  · cases e
    rfl
  · rw [he] at h
    simp at h

theorem tokOkB_true_eq (t : List Char) (h : tokOkB t = true) :
    ∃ d, Digit.fromStr t = Except.ok d := by
  unfold tokOkB at h
  rcases he : Digit.fromStr t with e | d
  · rw [he] at h
    simp at h
  · exact ⟨d, rfl⟩

theorem parseCells_err_unknown :
    ∀ (ts : List (List Char)) (n j : Nat), j < n → j < ts.length →
      tokOkB (ts.getD j []) = false →
      parseCells ts n = Except.error (ParseGridError.ParseDigit ParseDigitError.Unknown) := by
  intro ts
  induction ts with
  | nil =>
    intro n j _ hjl _
    simp at hjl
  | cons t ts ih =>
    intro n j hjn hjl hbad
    rcases n with _ | n
    · omega
    rcases j with _ | j
    · have ht := tokOkB_false_eq t hbad
      simp [parseCells, ht]
    · rcases ht : Digit.fromStr t with e | d
      · cases e
        simp [parseCells, ht]
      · have hrec := ih n j (by omega) (by simpa using hjl) (by simpa using hbad)
        simp [parseCells, ht, hrec]

theorem parseCells_too_many :
    ∀ (ts : List (List Char)) (n : Nat), n < ts.length →
      (∀ j, j < n → tokOkB (ts.getD j []) = true) →
      parseCells ts n = Except.error ParseGridError.InvalidDigitCount := by
  intro ts
  induction ts with
  | nil =>
    intro n h _
    simp at h
  | cons t ts ih =>
    intro n hlen hok
    rcases n with _ | n
    · rfl
    · have h0 := hok 0 (by omega)
      rcases tokOkB_true_eq t h0 with ⟨d, hd⟩
      have hrec := ih n (by simpa using hlen) (fun j hj => by simpa using hok (j + 1) (by omega))
      simp [parseCells, hd, hrec]

theorem parseCells_congr :
    ∀ (n : Nat) (ts1 ts2 : List (List Char)), n < ts1.length → n < ts2.length →
      ts1.take n = ts2.take n → parseCells ts1 n = parseCells ts2 n := by
  intro n
  induction n with
  | zero =>
    intro ts1 ts2 h1 h2 _
    rcases ts1 with _ | ⟨a, as⟩
    · simp at h1
    rcases ts2 with _ | ⟨b, bs⟩
    · simp at h2
    rfl
  | succ n ih =>
    intro ts1 ts2 h1 h2 htake
    rcases ts1 with _ | ⟨a, as⟩
    · simp at h1
    rcases ts2 with _ | ⟨b, bs⟩
    · simp at h2
    simp only [List.take_succ_cons, List.cons.injEq] at htake
    rcases htake with ⟨rfl, htk⟩
    simp only [parseCells]
    rcases Digit.fromStr a with e | d
    · rfl
    · rw [ih as bs (by simpa using h1) (by simpa using h2) htk]

theorem findIdx?_some_getD (p : List Char → Bool) :
    ∀ (l : List (List Char)) (k i : Nat), l.findIdx? p k = Option.some i →
      k ≤ i ∧ i - k < l.length ∧ p (l.getD (i - k) []) = true := by
  intro l
  induction l with
  | nil =>
    intro k i h
    simp at h
  | cons a l ih =>
    intro k i h
    rw [List.findIdx?_cons] at h
    by_cases hpa : p a = true
    · rw [if_pos hpa] at h
      have hki : k = i := by simpa using h
      subst hki
      simp [hpa]
    · rw [if_neg hpa] at h
      have hrec := ih (k + 1) i h
      refine ⟨by omega, by simp only [List.length_cons]; omega, ?_⟩
      have hik : i - k = (i - (k + 1)) + 1 := by omega
      rw [hik]
      simpa using hrec.2.2

theorem from_symbol_some (t : List Char) (i : Nat) (h : from_symbol t = Option.some i) :
    i < 9 ∧ t = SYMBOLS.getD i [] := by
  unfold from_symbol at h
  have hs := findIdx?_some_getD (fun s => s == t) SYMBOLS 0 i h
  have hlen : SYMBOLS.length = 9 := by rfl
  rw [hlen] at hs
  have heq : SYMBOLS.getD i [] = t := by
    have := hs.2.2
    simp only [Nat.sub_zero] at this
    simpa using this
  exact ⟨by omega, heq.symm⟩

theorem from_symbol_none (t : List Char) (h : from_symbol t = Option.none) :
    ∀ i, i < 9 → t ≠ SYMBOLS.getD i [] := by
  intro i hi hteq
  unfold from_symbol at h
  rw [List.findIdx?_eq_none_iff] at h
  have hl : i < SYMBOLS.length := by
    simp only [SYMBOLS, List.length_cons, List.length_nil]
    omega
  have hmem : SYMBOLS.getD i [] ∈ SYMBOLS := by
    rw [List.getD_eq_getElem?_getD, List.getElem?_eq_getElem hl]
    exact List.getElem_mem hl
  have hx := h (SYMBOLS.getD i []) hmem
  rw [← hteq] at hx
  simp at hx

theorem from_symbol_sym (i : Nat) (hi : i < 9) :
    from_symbol (SYMBOLS.getD i []) = Option.some i := by
  interval_cases i <;> decide

theorem symbol_ne_placeholder (i : Nat) (hi : i < 9) :
    SYMBOLS.getD i [] ≠ PLACEHOLDER := by
  interval_cases i <;> decide

theorem digit_fromStr_none_iff (t : List Char) :
    Digit.fromStr t = Except.ok Digit.none ↔ t = PLACEHOLDER := by
  unfold Digit.fromStr
  by_cases h : t = PLACEHOLDER
  · simp [h]
  · have hb : (t == PLACEHOLDER) = false := by simp [h]
    simp only [hb, Bool.false_eq_true, if_false]
    rcases hs : from_symbol t with _ | i <;> simp [h]

theorem digit_fromStr_some_iff (t : List Char) (i : Nat) :
    Digit.fromStr t = Except.ok (Digit.some true i) ↔ (i < 9 ∧ t = SYMBOLS.getD i []) := by
  constructor
  · intro h
    unfold Digit.fromStr at h
    by_cases hp : t = PLACEHOLDER
    · simp [hp] at h
    · have hb : (t == PLACEHOLDER) = false := by simp [hp]
      simp only [hb, Bool.false_eq_true, if_false] at h
      rcases hs : from_symbol t with _ | j
      · rw [hs] at h
        simp at h
      · rw [hs] at h
        simp only [Except.ok.injEq, Digit.some.injEq] at h
        rcases h with ⟨-, h2⟩
        subst h2
        exact from_symbol_some t _ hs
  · rintro ⟨hi, rfl⟩
    unfold Digit.fromStr
    rw [if_neg (by simpa using symbol_ne_placeholder i hi)]
    rw [from_symbol_sym i hi]

theorem digit_fromStr_given (t : List Char) (b : Bool) (i : Nat)
    (h : Digit.fromStr t = Except.ok (Digit.some b i)) : b = true := by
  unfold Digit.fromStr at h
  by_cases hp : t = PLACEHOLDER
  · simp [hp] at h
  · have hb : (t == PLACEHOLDER) = false := by simp [hp]
    simp only [hb, Bool.false_eq_true, if_false] at h
    rcases hs : from_symbol t with _ | j <;> rw [hs] at h
    · simp at h
    · simp only [Except.ok.injEq, Digit.some.injEq] at h
      exact h.1.symm

theorem digit_fromStr_err_iff (t : List Char) :
    Digit.fromStr t = Except.error ParseDigitError.Unknown ↔
      (t ≠ PLACEHOLDER ∧ ∀ i, i < 9 → t ≠ SYMBOLS.getD i []) := by
  constructor
  · intro h
    unfold Digit.fromStr at h
    by_cases hp : t = PLACEHOLDER
    · simp [hp] at h
    · have hb : (t == PLACEHOLDER) = false := by simp [hp]
      simp only [hb, Bool.false_eq_true, if_false] at h
      rcases hs : from_symbol t with _ | j
      · exact ⟨hp, from_symbol_none t hs⟩
      · rw [hs] at h
        simp at h
  · rintro ⟨hp, hall⟩
    unfold Digit.fromStr
    rw [if_neg (by simp [hp])]
    rcases hs : from_symbol t with _ | j
    · rfl
    · have := from_symbol_some t j hs
      exact absurd this.2 (hall j this.1)

theorem mem_tokens_getD (ts : List (List Char)) (t : List Char) (h : t ∈ ts) :
    ∃ j, j < ts.length ∧ ts.getD j [] = t := by
  rcases List.mem_iff_getElem.mp h with ⟨j, hj, hje⟩
  refine ⟨j, hj, ?_⟩
  rw [List.getD_eq_getElem?_getD, List.getElem?_eq_getElem hj]
  exact hje

/-! ## Claims C9 and C10 -/

/-- Counterexample to claim C9 as stated: an encoded grid with 82
tokens whose first token is `x` does not fail with the token-count
error; the unknown-token error is reported instead, because tokens
are examined in lockstep with the cells and the bad token is reached
before the count mismatch. -/
theorem claim_C9_cex :
    (splitSep SEPARATOR wBadLong).length = 82 ∧
    Grid.fromStr wBadLong =
      Except.error (ParseGridError.ParseDigit ParseDigitError.Unknown) := by
  constructor
  · rfl
  · rfl

/-- Claim C9 (amended): an encoded grid with 82 tokens whose first 81
tokens are valid fails with the token-count error; an encoded grid
with exactly 81 tokens containing a token `x` or `0` fails with the
unknown-token error; a single token parses to `Empty` exactly when it
is the placeholder, to a given filled digit exactly when it is one of
the nine value symbols, and to the `Unknown` error otherwise. -/
theorem claim_C9_decode_errors :
    (∀ s : List Char, (splitSep SEPARATOR s).length = 82 →
      (∀ j, j < 81 → tokOkB ((splitSep SEPARATOR s).getD j []) = true) →
      Grid.fromStr s = Except.error ParseGridError.InvalidDigitCount) ∧
    (∀ s : List Char, (splitSep SEPARATOR s).length = 81 →
      (∃ t ∈ splitSep SEPARATOR s, t = [Char.ofNat 120] ∨ t = [Char.ofNat 48]) →
      Grid.fromStr s = Except.error (ParseGridError.ParseDigit ParseDigitError.Unknown)) ∧
    (∀ t : List Char,
      (Digit.fromStr t = Except.ok Digit.none ↔ t = PLACEHOLDER) ∧
      (∀ i, Digit.fromStr t = Except.ok (Digit.some true i) ↔
        (i < 9 ∧ t = SYMBOLS.getD i [])) ∧
      (∀ b i, Digit.fromStr t = Except.ok (Digit.some b i) → b = true) ∧
      (Digit.fromStr t = Except.error ParseDigitError.Unknown ↔
        (t ≠ PLACEHOLDER ∧ ∀ i, i < 9 → t ≠ SYMBOLS.getD i []))) := by
  refine ⟨?_, ?_, ?_⟩
  · intro s h82 hok
    have hpc := parseCells_too_many (splitSep SEPARATOR s) 81 (by rw [h82]; norm_num) hok
    simp [Grid.fromStr, hpc]
  · intro s h81 hbadtok
    rcases hbadtok with ⟨t, htmem, htbad⟩
    rcases mem_tokens_getD _ t htmem with ⟨j, hjl, hjget⟩
    have hbad : tokOkB ((splitSep SEPARATOR s).getD j []) = false := by
      rw [hjget]
      rcases htbad with rfl | rfl <;> decide
    have hj81 : j < 81 := by rw [h81] at hjl; exact hjl
    have hpc := parseCells_err_unknown (splitSep SEPARATOR s) 81 j hj81 hjl hbad
    simp [Grid.fromStr, hpc]
  · intro t
    exact ⟨digit_fromStr_none_iff t, fun i => digit_fromStr_some_iff t i,
      fun b i => digit_fromStr_given t b i, digit_fromStr_err_iff t⟩

theorem claim_C9_decode_errors_witness :
    Grid.fromStr wLong = Except.error ParseGridError.InvalidDigitCount ∧
    Grid.fromStr wBad81 =
      Except.error (ParseGridError.ParseDigit ParseDigitError.Unknown) :=
  ⟨claim_C9_decode_errors.1 wLong (by decide) (by decide),
   claim_C9_decode_errors.2.1 wBad81 (by decide) (by decide)⟩

/-- Claim C10: parsing examines tokens left to right in lockstep with
the 81 cells; an invalid token among the first 81 yields the
unknown-token error whatever the total token count is, a token count
above 81 with 81 valid leading tokens yields the count error, and the
outcome never depends on the content of tokens past the 81st. -/
theorem claim_C10_error_order :
    (∀ s : List Char, ∀ j, j < 81 → j < (splitSep SEPARATOR s).length →
      tokOkB ((splitSep SEPARATOR s).getD j []) = false →
      Grid.fromStr s = Except.error (ParseGridError.ParseDigit ParseDigitError.Unknown)) ∧
    (∀ s : List Char, 81 < (splitSep SEPARATOR s).length →
      (∀ j, j < 81 → tokOkB ((splitSep SEPARATOR s).getD j []) = true) →
      Grid.fromStr s = Except.error ParseGridError.InvalidDigitCount) ∧
    (∀ s1 s2 : List Char, 81 < (splitSep SEPARATOR s1).length →
      81 < (splitSep SEPARATOR s2).length →
      (splitSep SEPARATOR s1).take 81 = (splitSep SEPARATOR s2).take 81 →
      Grid.fromStr s1 = Grid.fromStr s2) := by
  refine ⟨?_, ?_, ?_⟩
  · intro s j hj81 hjl hbad
    have hpc := parseCells_err_unknown (splitSep SEPARATOR s) 81 j hj81 hjl hbad
    simp [Grid.fromStr, hpc]
  · intro s hlen hok
    have hpc := parseCells_too_many (splitSep SEPARATOR s) 81 hlen hok
    simp [Grid.fromStr, hpc]
  · intro s1 s2 h1 h2 htake
    unfold Grid.fromStr
    rw [parseCells_congr 81 _ _ h1 h2 htake]

theorem claim_C10_error_order_witness :
    Grid.fromStr wBadLong =
      Except.error (ParseGridError.ParseDigit ParseDigitError.Unknown) ∧
    Grid.fromStr wLong = Except.error ParseGridError.InvalidDigitCount ∧
    Grid.fromStr wLong = Grid.fromStr wLong2 :=
  ⟨claim_C10_error_order.1 wBadLong 0 (by decide) (by decide) (by decide),
   claim_C10_error_order.2.1 wLong (by decide) (by decide),
   claim_C10_error_order.2.2 wLong wLong2 (by decide) (by decide) (by decide)⟩

/-! ## Claim C3: the render / parse round trip -/

theorem splitSep_ne_nil (sep : Char) : ∀ s : List Char, splitSep sep s ≠ [] := by
  intro s
  cases s with
  | nil => simp [splitSep]
  | cons c rest =>
    by_cases hc : c = sep
    · simp [splitSep, hc]
    · simp only [splitSep, if_neg hc]
      rcases splitSep sep rest with _ | ⟨t, ts⟩ <;> simp

theorem splitSep_cons_ne (sep c : Char) (rest : List Char) (hc : ¬c = sep) :
    ∃ t0 ts, splitSep sep (c :: rest) = (c :: t0) :: ts := by
  simp only [splitSep, if_neg hc]
  rcases h : splitSep sep rest with _ | ⟨t, ts⟩
  · exact absurd h (splitSep_ne_nil sep rest)
  · exact ⟨t, ts, rfl⟩

theorem symbols_head (i : Nat) (hi : i < 9) :
    ∃ c, SYMBOLS.getD i [] = [c] ∧ (c == Char.ofNat 10) = false := by
  interval_cases i <;> exact ⟨_, rfl, by decide⟩

/-- A token that begins with the newline character is never a valid
digit token. -/
theorem fromStr_newline_head (t0 : List Char) :
    Digit.fromStr (Char.ofNat 10 :: t0) = Except.error ParseDigitError.Unknown := by
  rw [digit_fromStr_err_iff]
  constructor
  · intro h
    rw [show PLACEHOLDER = [Char.ofNat 95] from rfl] at h
    injection h with h1 _
    exact absurd h1 (by decide)
  · intro i hi h
    obtain ⟨c, hc, hcne⟩ := symbols_head i hi
    rw [hc] at h
    injection h with h1 _
    rw [← h1] at hcne
    simp at hcne

/-- The rendering of any grid starts with a newline followed by the
first row. -/
theorem render_head (g : Grid) :
    Grid.render g = Char.ofNat 10 ::
      (g.renderRow 0 ++
        ([1, 2, 3, 4, 5, 6, 7, 8].map (fun r => Char.ofNat 10 :: g.renderRow r)).flatten) := by
  unfold Grid.render
  rw [show List.range 9 = 0 :: [1, 2, 3, 4, 5, 6, 7, 8] from rfl]
  simp

/-- Counterexample to claim C3 as stated: already for the empty grid,
feeding the Display output back to from_str does not succeed - it
fails with the unknown-token error. -/
theorem claim_C3_cex :
    Grid.fromStr (Grid.render Grid.default) =
      Except.error (ParseGridError.ParseDigit ParseDigitError.Unknown) := by
  rfl

/-- Claim C3 (amended): for every Grid `g`, parsing the string
produced by rendering `g` fails with the unknown-token error: the
rendering puts a newline before each row, so the first token seen by
the splitter is the newline glued to the first cell's symbol, which
is not a valid digit token (a trailing empty token after the final
separator would additionally break the token count). -/
theorem claim_C3_roundtrip_fails (g : Grid) :
    Grid.fromStr (Grid.render g) =
      Except.error (ParseGridError.ParseDigit ParseDigitError.Unknown) := by
  have h := render_head g
  have hc : ¬(Char.ofNat 10) = SEPARATOR := by decide
  obtain ⟨t0, ts, hsplit⟩ := splitSep_cons_ne SEPARATOR (Char.ofNat 10) _ hc
  have hbad : tokOkB ((splitSep SEPARATOR (Grid.render g)).getD 0 []) = false := by
    rw [h, hsplit]
    show tokOkB (Char.ofNat 10 :: t0) = false
    unfold tokOkB
    rw [fromStr_newline_head t0]
  have hlen : 0 < (splitSep SEPARATOR (Grid.render g)).length := by
    rw [h, hsplit]
    simp
  have hpc := parseCells_err_unknown _ 81 0 (by norm_num) hlen hbad
  simp [Grid.fromStr, hpc]

/-! ## BitSet lemmas -/

theorem beq_comm_nat (a b : Nat) : (a == b) = (b == a) := by
  by_cases h : a = b
  · simp [h]
  · simp [h, Ne.symm h]

theorem sameHouse_symm (i j : Nat) : sameHouse i j = sameHouse j i := by
  unfold sameHouse
  rw [beq_comm_nat (rowOf i), beq_comm_nat (colOf i), beq_comm_nat (blkOf i)]

theorem default_contains (v : Nat) : BitSet.default.contains v = false := by
  unfold BitSet.default BitSet.contains
  rw [List.getD_eq_getElem?_getD, List.getElem?_replicate]
  split <;> rfl

theorem bitset_set_len (b : BitSet) (v : Nat) : (b.set v).bits.length = b.bits.length := by
  simp [BitSet.set]

theorem bitset_reset_len (b : BitSet) (v : Nat) : (b.reset v).bits.length = b.bits.length := by
  simp [BitSet.reset]

theorem contains_set_general (b : BitSet) (hb : b.bits.length = 9) (v j : Nat) (hj : j < 9) :
    (b.set v).contains j = if v = j then true else b.contains j := by
  unfold BitSet.set BitSet.contains
  by_cases hvj : v = j
  · subst hvj
    rw [if_pos rfl]
    rw [List.getD_eq_getElem?_getD, List.getElem?_set_self (by omega)]
    rfl
  · rw [if_neg hvj]
    rw [List.getD_eq_getElem?_getD, List.getElem?_set_ne hvj, ← List.getD_eq_getElem?_getD]

theorem contains_reset_general (b : BitSet) (hb : b.bits.length = 9) (v j : Nat) (hj : j < 9) :
    (b.reset v).contains j = if v = j then false else b.contains j := by
  unfold BitSet.reset BitSet.contains
  by_cases hvj : v = j
  · subst hvj
    rw [if_pos rfl]
    rw [List.getD_eq_getElem?_getD, List.getElem?_set_self (by omega)]
    rfl
  · rw [if_neg hvj]
    rw [List.getD_eq_getElem?_getD, List.getElem?_set_ne hvj, ← List.getD_eq_getElem?_getD]

theorem foldl_setIf_contains (a b : BitSet) :
    ∀ (l : List Nat) (init : BitSet), init.bits.length = 9 → ∀ j, j < 9 →
      ((l.foldl
        (fun r index => if a.contains index || b.contains index then r.set index else r)
        init).contains j) =
        (init.contains j || (decide (j ∈ l) && (a.contains j || b.contains j))) := by
  intro l
  induction l with
  | nil =>
    intro init hlen j hj
    simp
  | cons x l ih =>
    intro init hlen j hj
    rw [List.foldl_cons]
    have hlen2 : (if a.contains x || b.contains x then init.set x else init).bits.length = 9 := by
      split
      · rw [bitset_set_len]
        exact hlen
      · exact hlen
    rw [ih _ hlen2 j hj]
    by_cases hc : (a.contains x || b.contains x) = true
    · rw [if_pos hc, contains_set_general _ hlen _ _ hj]
      by_cases hxj : x = j
      · subst hxj
        simp [hc]
      · simp [hxj, List.mem_cons, Ne.symm hxj]
    · have hc2 : (a.contains x || b.contains x) = false := by
        simpa using hc
      rw [if_neg hc]
      by_cases hxj : x = j
      · subst hxj
        simp [hc2]
      · simp [List.mem_cons, Ne.symm hxj]

theorem contains_bitor (a b : BitSet) (j : Nat) (hj : j < 9) :
    (a.bitor b).contains j = (a.contains j || b.contains j) := by
  unfold BitSet.bitor
  rw [foldl_setIf_contains a b (List.range 9) BitSet.default (by rfl) j hj]
  rw [default_contains]
  simp [List.mem_range, hj]

theorem getD_states_len (l : List BitSet) (hlen : ∀ b ∈ l, b.bits.length = 9) (r : Nat) :
    (l.getD r BitSet.default).bits.length = 9 := by
  by_cases hr : r < l.length
  · rw [List.getD_eq_getElem?_getD, List.getElem?_eq_getElem hr]
    exact hlen _ (List.getElem_mem hr)
  · rw [List.getD_eq_getElem?_getD, List.getElem?_eq_none (by omega)]
    rfl

theorem getD_set_self (l : List BitSet) (r : Nat) (x : BitSet) (hr : r < l.length) :
    (l.set r x).getD r BitSet.default = x := by
  rw [List.getD_eq_getElem?_getD, List.getElem?_set_self hr]
  rfl

theorem getD_set_ne (l : List BitSet) (r q : Nat) (x : BitSet) (hne : r ≠ q) :
    (l.set r x).getD q BitSet.default = l.getD q BitSet.default := by
  rw [List.getD_eq_getElem?_getD, List.getElem?_set_ne hne, ← List.getD_eq_getElem?_getD]

/-! ## Grid well-formedness lemmas -/

theorem grid_wf_len (g : Grid) (hwf : Grid.wfB g = true) : g.cells.length = 81 := by
  unfold Grid.wfB at hwf
  rw [Bool.and_eq_true] at hwf
  simpa using hwf.1

theorem grid_wf_cell (g : Grid) (hwf : Grid.wfB g = true) (i : Nat) :
    Digit.wfB (g.getCell i) = true := by
  unfold Grid.wfB at hwf
  rw [Bool.and_eq_true] at hwf
  have hall := hwf.2
  rw [List.all_eq_true] at hall
  unfold Grid.getCell
  rw [List.getD_eq_getElem?_getD]
  rcases h : g.cells[i]? with _ | d
  · rfl
  · exact hall d (List.getElem?_mem h)

theorem digit_wf_val (d : Digit) (h : Digit.wfB d = true) (v : Nat)
    (hv : valOf d = Option.some v) : v < 9 := by
  cases d with
  | none => simp [valOf] at hv
  | some b i =>
    simp only [Digit.wfB, decide_eq_true_eq] at h
    simp only [valOf, Option.some.injEq] at hv
    omega

theorem houseOf_lt (i : Nat) (hi : i < 81) :
    rowOf i < 9 ∧ colOf i < 9 ∧ blkOf i < 9 := by
  unfold rowOf colOf blkOf
  omega

/-! ## Solver construction lemmas (C5) -/

theorem getD_replicate_default (a : Nat) :
    (List.replicate 9 BitSet.default).getD a BitSet.default = BitSet.default := by
  rw [List.getD_eq_getElem?_getD, List.getElem?_replicate]
  split <;> rfl

theorem new_statesWF (g : Grid) : (Solver.new g).statesWF := by
  unfold Solver.new Solver.statesWF
  refine ⟨by simp, by simp, by simp, ?_, ?_, ?_⟩ <;>
    exact fun b hb => by rw [List.eq_of_mem_replicate hb]; rfl

theorem new_corresponds (g : Grid) : corresponds (Solver.new g) 0 := by
  refine ⟨?_, ?_, ?_⟩ <;>
    · intro a v ha hv
      simp only [Solver.new]
      rw [getD_replicate_default, default_contains]
      constructor
      · intro hcon
        cases hcon
      · rintro ⟨i, hi, _⟩
        omega

theorem houseCorrespond_succ_empty (states : List BitSet) (g : Grid) (houseOf : Nat → Nat)
    (i : Nat) (hc : houseCorrespond states g houseOf i)
    (hcell : valOf (g.getCell i) = Option.none) :
    houseCorrespond states g houseOf (i + 1) := by
  intro a v ha hv
  rw [hc a v ha hv]
  constructor
  · rintro ⟨j, hj, hje, hjv⟩
    exact ⟨j, by omega, hje, hjv⟩
  · rintro ⟨j, hj, hje, hjv⟩
    refine ⟨j, ?_, hje, hjv⟩
    rcases Nat.lt_succ_iff_lt_or_eq.mp hj with h | rfl
    · exact h
    · rw [hcell] at hjv
      cases hjv

theorem houseCorrespond_succ_place (states : List BitSet) (g : Grid) (houseOf : Nat → Nat)
    (i v : Nat) (hlen : states.length = 9) (hblen : ∀ b ∈ states, b.bits.length = 9)
    (hh : houseOf i < 9) (hv : v < 9) (hcell : valOf (g.getCell i) = Option.some v)
    (hc : houseCorrespond states g houseOf i) :
    houseCorrespond (states.set (houseOf i) ((states.getD (houseOf i) BitSet.default).set v))
      g houseOf (i + 1) := by
  intro a u ha hu
  by_cases hah : houseOf i = a
  · subst hah
    rw [getD_set_self _ _ _ (by omega)]
    rw [contains_set_general _ (getD_states_len states hblen _) _ _ hu]
    by_cases hvu : v = u
    · subst hvu
      rw [if_pos rfl]
      constructor
      · exact fun _ => ⟨i, by omega, rfl, hcell⟩
      · exact fun _ => rfl
    · rw [if_neg hvu, hc _ u (by omega) hu]
      constructor
      · rintro ⟨j, hj, hje, hjv⟩
        exact ⟨j, by omega, hje, hjv⟩
      · rintro ⟨j, hj, hje, hjv⟩
        refine ⟨j, ?_, hje, hjv⟩
        rcases Nat.lt_succ_iff_lt_or_eq.mp hj with h | rfl
        · exact h
        · rw [hcell] at hjv
          exact absurd (Option.some.inj hjv) hvu
  · rw [getD_set_ne _ _ _ _ hah, hc a u ha hu]
    constructor
    · rintro ⟨j, hj, hje, hjv⟩
      exact ⟨j, by omega, hje, hjv⟩
    · rintro ⟨j, hj, hje, hjv⟩
      refine ⟨j, ?_, hje, hjv⟩
      rcases Nat.lt_succ_iff_lt_or_eq.mp hj with h | rfl
      · exact h
      · exact absurd hje hah

theorem taken_iff_conflict (s : Solver) (i : Nat) (upTo : Nat) (v : Nat)
    (hi : i < 81) (hv : v < 9)
    (hst : s.statesWF) (hc : corresponds s upTo) :
    ((s.takenAt (rowOf i) (colOf i) (blkOf i)).contains v = true ↔
      ∃ j, j < upTo ∧ sameHouse j i = true ∧ valOf (s.grid.getCell j) = Option.some v) := by
  obtain ⟨hr9, hc9, hb9, hrb, hcb, hbb⟩ := hst
  obtain ⟨hcr, hcc, hcb2⟩ := hc
  obtain ⟨h1, h2, h3⟩ := houseOf_lt i hi
  unfold Solver.takenAt
  rw [contains_bitor _ _ v hv, contains_bitor _ _ v hv]
  rw [Bool.or_eq_true, Bool.or_eq_true]
  rw [hcr _ v h1 hv, hcc _ v h2 hv, hcb2 _ v h3 hv]
  constructor
  · rintro ((⟨j, hj, hje, hjv⟩ | ⟨j, hj, hje, hjv⟩) | ⟨j, hj, hje, hjv⟩) <;>
      exact ⟨j, hj, by simp [sameHouse, hje], hjv⟩
  · rintro ⟨j, hj, hsame, hjv⟩
    rw [sameHouse] at hsame
    simp only [Bool.or_eq_true, beq_iff_eq] at hsame
    rcases hsame with (h | h) | h
    · exact Or.inl (Or.inl ⟨j, hj, h, hjv⟩)
    · exact Or.inl (Or.inr ⟨j, hj, h, hjv⟩)
    · exact Or.inr ⟨j, hj, h, hjv⟩

theorem seedCell_eq (s : Solver) (i : Nat) :
    s.seedCell i =
      (match s.grid.getCell i with
       | Digit.none => Except.ok s
       | Digit.some _ index =>
         if (s.takenAt (rowOf i) (colOf i) (blkOf i)).contains index then
           Except.error SolverError.InvalidGrid
         else
           Except.ok { s with
             row_states := s.row_states.set (rowOf i)
               ((s.row_states.getD (rowOf i) BitSet.default).set index),
             col_states := s.col_states.set (colOf i)
               ((s.col_states.getD (colOf i) BitSet.default).set index),
             blk_states := s.blk_states.set (blkOf i)
               ((s.blk_states.getD (blkOf i) BitSet.default).set index) }) := by
  simp only [Solver.seedCell, Cursor.item, rowOf, colOf, blkOf,
    SIZE, ROW_PER_BLOCK, COL_PER_BLOCK]
  rw [show i / (3 * 3) * 9 + i % (3 * 3) = i from by omega]

/-- `prefixOk` extension: given an admissible prefix, the prefix one
longer is admissible iff the new cell does not conflict with any
earlier filled cell. -/
theorem prefixOk_succ_iff (g : Grid) (i : Nat) (hpre : prefixOk g i) :
    (prefixOk g (i + 1) ↔
      ∀ j v, j < i → sameHouse j i = true → valOf (g.getCell i) = Option.some v →
        valOf (g.getCell j) ≠ Option.some v) := by
  constructor
  · intro hp j v hj hsame hvi hvj
    exact hp i j (by omega) (by omega) (by omega) (by rw [sameHouse_symm]; exact hsame) v hvi hvj
  · intro hnew a b ha hb hne hsame v hva
    intro hvb
    rcases Nat.lt_succ_iff_lt_or_eq.mp ha with ha2 | rfl
    · rcases Nat.lt_succ_iff_lt_or_eq.mp hb with hb2 | rfl
      · exact hpre a b ha2 hb2 hne hsame v hva hvb
      · exact hnew a v ha2 hsame hvb hva
    · rcases Nat.lt_succ_iff_lt_or_eq.mp hb with hb2 | rfl
      · exact hnew b v hb2 (by rw [sameHouse_symm]; exact hsame) hva hvb
      · exact hne rfl

theorem prefixOk_mono (g : Grid) (a b : Nat) (hab : a ≤ b) (h : prefixOk g b) :
    prefixOk g a :=
  fun i j hi hj => h i j (by omega) (by omega)

theorem statesWF_set (l : List BitSet) (hblen : ∀ b ∈ l, b.bits.length = 9)
    (r : Nat) (x : BitSet) (hx : x.bits.length = 9) :
    ∀ b ∈ l.set r x, b.bits.length = 9 := by
  intro b hb
  rcases List.mem_or_eq_of_mem_set hb with h | rfl
  · exact hblen b h
  · exact hx

theorem seedCell_spec (s : Solver) (i : Nat) (hi : i < 81)
    (hwf : Grid.wfB s.grid = true) (hst : s.statesWF) (hc : corresponds s i)
    (hpre : prefixOk s.grid i) :
    (s.seedCell i = Except.error SolverError.InvalidGrid ↔ ¬prefixOk s.grid (i + 1)) ∧
    (∀ s2, s.seedCell i = Except.ok s2 → s2.grid = s.grid ∧ s2.cursor = s.cursor ∧
      s2.statesWF ∧ corresponds s2 (i + 1) ∧ prefixOk s2.grid (i + 1)) := by
  rw [seedCell_eq]
  rcases hcell : s.grid.getCell i with _ | ⟨b, v⟩
  · have hval : valOf (s.grid.getCell i) = Option.none := by rw [hcell]; rfl
    have hp1 : prefixOk s.grid (i + 1) := by
      rw [prefixOk_succ_iff s.grid i hpre]
      intro j u _ _ hvi
      rw [hval] at hvi
      exact absurd hvi (by simp)
    constructor
    · constructor
      · intro h
        exact Except.noConfusion h
      · intro hnp
        exact absurd hp1 hnp
    · intro s2 h
      have hs2 : s2 = s := (Except.ok.inj h).symm
      subst hs2
      refine ⟨rfl, rfl, hst, ?_, hp1⟩
      exact ⟨houseCorrespond_succ_empty _ _ _ _ hc.1 hval,
        houseCorrespond_succ_empty _ _ _ _ hc.2.1 hval,
        houseCorrespond_succ_empty _ _ _ _ hc.2.2 hval⟩
  · dsimp only
    have hval : valOf (s.grid.getCell i) = Option.some v := by rw [hcell]; rfl
    have hv9 : v < 9 := digit_wf_val _ (grid_wf_cell s.grid hwf i) v hval
    have htk := taken_iff_conflict s i i v hi hv9 hst hc
    obtain ⟨hh1, hh2, hh3⟩ := houseOf_lt i hi
    by_cases htaken : (s.takenAt (rowOf i) (colOf i) (blkOf i)).contains v = true
    · rw [if_pos htaken]
      constructor
      · constructor
        · intro _
          obtain ⟨j, hj, hsame, hjv⟩ := htk.mp htaken
          intro hp
          exact hp i j (by omega) (by omega) (by omega)
            (by rw [sameHouse_symm]; exact hsame) v hval hjv
        · intro _
          rfl
      · intro s2 h
        exact Except.noConfusion h
    · rw [if_neg htaken]
      have hnoconf : ∀ j, j < i → sameHouse j i = true →
          valOf (s.grid.getCell j) ≠ Option.some v := by
        intro j hj hsame hjv
        exact htaken (htk.mpr ⟨j, hj, hsame, hjv⟩)
      have hp1 : prefixOk s.grid (i + 1) := by
        rw [prefixOk_succ_iff s.grid i hpre]
        intro j u hj hsame hvi
        rw [hval] at hvi
        have huv : v = u := Option.some.inj hvi
        subst huv
        exact hnoconf j hj hsame
      constructor
      · constructor
        · intro h
          exact Except.noConfusion h
        · intro hnp
          exact absurd hp1 hnp
      · intro s2 h
        have hs2 := Except.ok.inj h
        subst hs2
        obtain ⟨hr9, hc9, hb9, hrb, hcb, hbb⟩ := hst
        refine ⟨rfl, rfl, ?_, ?_, hp1⟩
        · refine ⟨by simpa using hr9, by simpa using hc9, by simpa using hb9, ?_, ?_, ?_⟩
          · exact statesWF_set _ hrb _ _
              (by rw [bitset_set_len]; exact getD_states_len _ hrb _)
          · exact statesWF_set _ hcb _ _
              (by rw [bitset_set_len]; exact getD_states_len _ hcb _)
          · exact statesWF_set _ hbb _ _
              (by rw [bitset_set_len]; exact getD_states_len _ hbb _)
        · exact ⟨houseCorrespond_succ_place _ _ _ _ v hr9 hrb hh1 hv9 hval hc.1,
            houseCorrespond_succ_place _ _ _ _ v hc9 hcb hh2 hv9 hval hc.2.1,
            houseCorrespond_succ_place _ _ _ _ v hb9 hbb hh3 hv9 hval hc.2.2⟩

theorem tryFromAux_spec :
    ∀ (n i : Nat) (s : Solver), i + n = 81 →
      Grid.wfB s.grid = true → s.statesWF → corresponds s i → prefixOk s.grid i →
      ((tryFromAux s (List.range' i n) = Except.error SolverError.InvalidGrid ↔
          ¬prefixOk s.grid 81) ∧
       (∀ s2, tryFromAux s (List.range' i n) = Except.ok s2 →
          s2.grid = s.grid ∧ s2.cursor = s.cursor ∧ s2.statesWF ∧
            corresponds s2 81 ∧ prefixOk s2.grid 81)) := by
  intro n
  induction n with
  | zero =>
    intro i s hin hwf hst hc hpre
    have hi : i = 81 := by omega
    subst hi
    have h0 : tryFromAux s (List.range' 81 0) = Except.ok s := rfl
    rw [h0]
    constructor
    · constructor
      · intro h
        exact Except.noConfusion h
      · intro hnp
        exact absurd hpre hnp
    · intro s2 h
      have hs2 := Except.ok.inj h
      subst hs2
      exact ⟨rfl, rfl, hst, hc, hpre⟩
  | succ n ih =>
    intro i s hin hwf hst hc hpre
    have hi81 : i < 81 := by omega
    rw [List.range'_succ]
    obtain ⟨herr, hok⟩ := seedCell_spec s i hi81 hwf hst hc hpre
    rcases hsc : s.seedCell i with e | s2
    · cases e
      have hnp : ¬prefixOk s.grid (i + 1) := herr.mp hsc
      simp only [tryFromAux, hsc]
      constructor
      · constructor
        · intro _
          intro hp81
          exact hnp (prefixOk_mono s.grid (i + 1) 81 (by omega) hp81)
        · intro _
          trivial
      · intro s3 h
        exact Except.noConfusion h
    · obtain ⟨hg, hcur, hst2, hc2, hp2⟩ := hok s2 hsc
      simp only [tryFromAux, hsc]
      have hwf2 : Grid.wfB s2.grid = true := by rw [hg]; exact hwf
      have hih := ih (i + 1) s2 (by omega) hwf2 hst2 hc2 hp2
      constructor
      · rw [hih.1, hg]
      · intro s3 h
        obtain ⟨hg3, hcur3, hst3, hc3, hp3⟩ := hih.2 s3 h
        exact ⟨by rw [hg3, hg], by rw [hcur3, hcur], hst3, hc3, hp3⟩

/-- Claim C5: Solver construction fails with `InvalidGrid` exactly
when two distinct filled cells of one house hold the same value; on
success the working grid is the unchanged input and the three bitset
arrays mark exactly the values of the filled cells of each row,
column and block. -/
theorem claim_C5_validation (g : Grid) (hwf : Grid.wfB g = true) :
    (Grid.solve g = Except.error SolverError.InvalidGrid ↔
      ∃ i j v, i < 81 ∧ j < 81 ∧ i ≠ j ∧ sameHouse i j = true ∧
        valOf (g.getCell i) = Option.some v ∧ valOf (g.getCell j) = Option.some v) ∧
    (∀ s, Grid.solve g = Except.ok s →
      s.grid = g ∧
      (∀ r v, r < 9 → v < 9 →
        ((s.row_states.getD r BitSet.default).contains v = true ↔
          ∃ c, c < 9 ∧ valOf (g.getCell (r * 9 + c)) = Option.some v)) ∧
      (∀ c v, c < 9 → v < 9 →
        ((s.col_states.getD c BitSet.default).contains v = true ↔
          ∃ r, r < 9 ∧ valOf (g.getCell (r * 9 + c)) = Option.some v)) ∧
      (∀ b v, b < 9 → v < 9 →
        ((s.blk_states.getD b BitSet.default).contains v = true ↔
          ∃ i, i < 81 ∧ blkOf i = b ∧ valOf (g.getCell i) = Option.some v))) := by
  have hspec := tryFromAux_spec 81 0 (Solver.new g) (by omega) hwf (new_statesWF g)
    (new_corresponds g) (fun i j hi => by omega)
  have hrw : Grid.solve g = tryFromAux (Solver.new g) (List.range' 0 81) := by
    unfold Grid.solve Solver.tryFrom
    rw [List.range_eq_range']
  constructor
  · rw [hrw, hspec.1]
    show ¬prefixOk g 81 ↔ _
    constructor
    · intro hnp
      unfold prefixOk at hnp
      push_neg at hnp
      obtain ⟨i, j, hi, hj, hne, hsame, v, hvi, hvj⟩ := hnp
      exact ⟨i, j, v, hi, hj, hne, hsame, hvi, hvj⟩
    · rintro ⟨i, j, v, hi, hj, hne, hsame, hvi, hvj⟩
      intro hp
      exact hp i j hi hj hne hsame v hvi hvj
  · intro s hs
    rw [hrw] at hs
    obtain ⟨hg, _, _, hcorr, _⟩ := hspec.2 s hs
    have hgg : s.grid = g := hg
    refine ⟨hgg, ?_, ?_, ?_⟩
    · intro r v hr hv
      have hch := hcorr.1 r v hr hv
      rw [hgg] at hch
      rw [hch]
      constructor
      · rintro ⟨i, hi, hrow, hvv⟩
        refine ⟨i % 9, by omega, ?_⟩
        rw [show r * 9 + i % 9 = i from by unfold rowOf at hrow; omega]
        exact hvv
      · rintro ⟨c, hc, hvv⟩
        exact ⟨r * 9 + c, by omega, by unfold rowOf; omega, hvv⟩
    · intro c v hcc hv
      have hch := hcorr.2.1 c v hcc hv
      rw [hgg] at hch
      rw [hch]
      constructor
      · rintro ⟨i, hi, hcol, hvv⟩
        refine ⟨i / 9, by omega, ?_⟩
        rw [show i / 9 * 9 + c = i from by unfold colOf at hcol; omega]
        exact hvv
      · rintro ⟨r, hr, hvv⟩
        exact ⟨r * 9 + c, by omega, by unfold colOf; omega, hvv⟩
    · intro b v hb hv
      have hch := hcorr.2.2 b v hb hv
      rw [hgg] at hch
      rw [hch]

/-! ## Step lemmas for given cells, and claim C8 -/

theorem cell_idx_eq9 (i : Nat) : i / 9 * 9 + i % 9 = i := by
  omega

theorem step_given_fwd (g : Grid) (idx : Nat) (rs cs bs : List BitSet) (v : Nat)
    (hcell : g.getCell idx = Digit.some true v) (hlt : idx ≠ 80) :
    Solver.step ⟨g, ⟨idx, true⟩, rs, cs, bs⟩ =
      StepRes.cont ⟨g, ⟨idx + 1, true⟩, rs, cs, bs⟩ := by
  unfold Solver.step Cursor.item Cursor.skip Cursor.next
  simp only [SIZE, ROW_PER_BLOCK, COL_PER_BLOCK, show (3 : Nat) * 3 = 9 from rfl]
  simp only [cell_idx_eq9, hcell]
  simp [hlt]

theorem step_given_fwd80 (g : Grid) (rs cs bs : List BitSet) (v : Nat)
    (hcell : g.getCell 80 = Digit.some true v) :
    Solver.step ⟨g, ⟨80, true⟩, rs, cs, bs⟩ =
      StepRes.emit ⟨g, ⟨80, false⟩, rs, cs, bs⟩ g := by
  unfold Solver.step Cursor.item Cursor.skip Cursor.next
  simp only [SIZE, ROW_PER_BLOCK, COL_PER_BLOCK, show (3 : Nat) * 3 = 9 from rfl]
  simp only [cell_idx_eq9, hcell]
  simp

theorem step_given_bwd (g : Grid) (idx : Nat) (rs cs bs : List BitSet) (v : Nat)
    (hcell : g.getCell idx = Digit.some true v) (hpos : idx ≠ 0) :
    Solver.step ⟨g, ⟨idx, false⟩, rs, cs, bs⟩ =
      StepRes.cont ⟨g, ⟨idx - 1, false⟩, rs, cs, bs⟩ := by
  unfold Solver.step Cursor.item Cursor.skip Cursor.prev
  simp only [SIZE, ROW_PER_BLOCK, COL_PER_BLOCK, show (3 : Nat) * 3 = 9 from rfl]
  simp only [cell_idx_eq9, hcell]
  simp [hpos]

theorem step_given_bwd0 (g : Grid) (rs cs bs : List BitSet) (v : Nat)
    (hcell : g.getCell 0 = Digit.some true v) :
    Solver.step ⟨g, ⟨0, false⟩, rs, cs, bs⟩ =
      StepRes.done ⟨g, ⟨0, true⟩, rs, cs, bs⟩ := by
  unfold Solver.step Cursor.item Cursor.skip Cursor.prev
  simp only [SIZE, ROW_PER_BLOCK, COL_PER_BLOCK, show (3 : Nat) * 3 = 9 from rfl]
  simp only [cell_idx_eq9, hcell]
  simp

theorem nextF_mono :
    ∀ (f1 f2 : Nat) (s : Solver) (r : Option Grid × Solver),
      nextF f1 s = Option.some r → f1 ≤ f2 → nextF f2 s = Option.some r := by
  intro f1
  induction f1 with
  | zero =>
    intro f2 s r h
    simp [nextF] at h
  | succ f1 ih =>
    intro f2 s r h hle
    rcases f2 with _ | f2
    · omega
    unfold nextF at h ⊢
    rcases hst : s.step with s2 | ⟨s2, gg⟩ | s2 <;> rw [hst] at h <;> dsimp only at h ⊢
    · exact ih f2 s2 r h (by omega)
    · exact h
    · exact h

theorem allGivenB_cells (g : Grid) (hall : Grid.allGivenB g = true) :
    ∀ i, i < 81 → ∃ v, g.getCell i = Digit.some true v := by
  intro i hi
  unfold Grid.allGivenB at hall
  rw [List.all_eq_true] at hall
  have hcl := hall i (List.mem_range.mpr hi)
  rcases hcell : g.getCell i with _ | ⟨b, v⟩
  · rw [hcell] at hcl
    simp at hcl
  · rcases b
    · rw [hcell] at hcl
      simp at hcl
    · exact ⟨v, rfl⟩

theorem allgiven_fwd (g : Grid) (rs cs bs : List BitSet)
    (hall : ∀ i, i < 81 → ∃ v, g.getCell i = Digit.some true v) :
    ∀ k, k ≤ 80 → nextF (k + 1) ⟨g, ⟨80 - k, true⟩, rs, cs, bs⟩ =
      Option.some (Option.some g, ⟨g, ⟨80, false⟩, rs, cs, bs⟩) := by
  intro k
  induction k with
  | zero =>
    intro _
    obtain ⟨v, hv⟩ := hall 80 (by omega)
    have hstep := step_given_fwd80 g rs cs bs v hv
    simp [nextF, hstep]
  | succ k ih =>
    intro hk
    obtain ⟨v, hv⟩ := hall (80 - (k + 1)) (by omega)
    have hstep := step_given_fwd g (80 - (k + 1)) rs cs bs v hv (by omega)
    show nextF (k + 1 + 1) _ = _
    unfold nextF
    rw [hstep]
    rw [show 80 - (k + 1) + 1 = 80 - k from by omega]
    exact ih (by omega)

theorem allgiven_bwd (g : Grid) (rs cs bs : List BitSet)
    (hall : ∀ i, i < 81 → ∃ v, g.getCell i = Digit.some true v) :
    ∀ k, k ≤ 80 → nextF (k + 1) ⟨g, ⟨k, false⟩, rs, cs, bs⟩ =
      Option.some (Option.none, ⟨g, ⟨0, true⟩, rs, cs, bs⟩) := by
  intro k
  induction k with
  | zero =>
    intro _
    obtain ⟨v, hv⟩ := hall 0 (by omega)
    have hstep := step_given_bwd0 g rs cs bs v hv
    simp [nextF, hstep]
  | succ k ih =>
    intro hk
    obtain ⟨v, hv⟩ := hall (k + 1) (by omega)
    have hstep := step_given_bwd g (k + 1) rs cs bs v hv (by omega)
    show nextF (k + 1 + 1) _ = _
    unfold nextF
    rw [hstep]
    rw [show k + 1 - 1 = k from by omega]
    exact ih (by omega)

theorem seedCell_grid_cursor (s : Solver) (i : Nat) (s2 : Solver)
    (h : s.seedCell i = Except.ok s2) : s2.grid = s.grid ∧ s2.cursor = s.cursor := by
  rw [seedCell_eq] at h
  rcases hcell : s.grid.getCell i with _ | ⟨b, v⟩ <;> rw [hcell] at h
  · have hs2 := Except.ok.inj h
    subst hs2
    exact ⟨rfl, rfl⟩
  · dsimp only at h
    by_cases htaken : (s.takenAt (rowOf i) (colOf i) (blkOf i)).contains v = true
    · rw [if_pos htaken] at h
      exact Except.noConfusion h
    · rw [if_neg htaken] at h
      have hs2 := Except.ok.inj h
      subst hs2
      exact ⟨rfl, rfl⟩

theorem tryFromAux_grid_cursor :
    ∀ (l : List Nat) (s s2 : Solver), tryFromAux s l = Except.ok s2 →
      s2.grid = s.grid ∧ s2.cursor = s.cursor := by
  intro l
  induction l with
  | nil =>
    intro s s2 h
    have hs2 := Except.ok.inj h
    subst hs2
    exact ⟨rfl, rfl⟩
  | cons i l ih =>
    intro s s2 h
    unfold tryFromAux at h
    rcases hsc : s.seedCell i with e | s3 <;> rw [hsc] at h
    · exact Except.noConfusion h
    · obtain ⟨h1, h2⟩ := ih s3 s2 h
      have hgc := seedCell_grid_cursor s i s3 hsc
      exact ⟨h1.trans hgc.1, h2.trans hgc.2⟩

theorem solve_grid_cursor (g : Grid) (s0 : Solver) (hs : Grid.solve g = Except.ok s0) :
    s0.grid = g ∧ s0.cursor = Cursor.init :=
  tryFromAux_grid_cursor (List.range 81) (Solver.new g) s0 hs

/-- Claim C8: for a validated starting grid whose 81 cells are all
given, the first call to `next` skips forward to the boundary and
emits the input grid unchanged as the sole solution (within 82 loop
iterations), and the second call skips backward and returns `None`. -/
theorem claim_C8_full_given_grid (g : Grid) (s0 : Solver)
    (hall : Grid.allGivenB g = true) (hs : Grid.solve g = Except.ok s0) :
    ∃ s1 s2, nextF 82 s0 = Option.some (Option.some g, s1) ∧
      nextF 82 s1 = Option.some (Option.none, s2) := by
  obtain ⟨hg, hcur⟩ := solve_grid_cursor g s0 hs
  have hcells := allGivenB_cells g hall
  rcases s0 with ⟨g0, c0, rs, cs, bs⟩
  simp only at hg hcur
  subst hg
  subst hcur
  have hfwd := allgiven_fwd g0 rs cs bs hcells 80 (by omega)
  have hbwd := allgiven_bwd g0 rs cs bs hcells 80 (by omega)
  refine ⟨⟨g0, ⟨80, false⟩, rs, cs, bs⟩, ⟨g0, ⟨0, true⟩, rs, cs, bs⟩, ?_, ?_⟩
  · exact nextF_mono 81 82 _ _ (by simpa using hfwd) (by omega)
  · exact nextF_mono 81 82 _ _ (by simpa using hbwd) (by omega)

theorem claim_C8_full_given_grid_witness :
    ∃ s1 s2, nextF 82 wSolvedSolver = Option.some (Option.some wSolved, s1) ∧
      nextF 82 s1 = Option.some (Option.none, s2) :=
  claim_C8_full_given_grid wSolved wSolvedSolver (by rfl) (by rfl)

theorem claim_C5_validation_witness :
    (Grid.solve Grid.default = Except.error SolverError.InvalidGrid ↔
      ∃ i j v, i < 81 ∧ j < 81 ∧ i ≠ j ∧ sameHouse i j = true ∧
        valOf (Grid.default.getCell i) = Option.some v ∧
        valOf (Grid.default.getCell j) = Option.some v) ∧
    (∀ s, Grid.solve Grid.default = Except.ok s →
      s.grid = Grid.default ∧
      (∀ r v, r < 9 → v < 9 →
        ((s.row_states.getD r BitSet.default).contains v = true ↔
          ∃ c, c < 9 ∧ valOf (Grid.default.getCell (r * 9 + c)) = Option.some v)) ∧
      (∀ c v, c < 9 → v < 9 →
        ((s.col_states.getD c BitSet.default).contains v = true ↔
          ∃ r, r < 9 ∧ valOf (Grid.default.getCell (r * 9 + c)) = Option.some v)) ∧
      (∀ b v, b < 9 → v < 9 →
        ((s.blk_states.getD b BitSet.default).contains v = true ↔
          ∃ i, i < 81 ∧ blkOf i = b ∧ valOf (Grid.default.getCell i) = Option.some v))) :=
  claim_C5_validation Grid.default (by rfl)

/-! ## The free-cell step equation -/

/-- Unfolding of one loop iteration at a non-given cell: compute the
house union, retract a guessed value, then either commit the next
候candidate and move forward or move backward. -/
theorem step_free_eq (g : Grid) (p : Nat) (fwd : Bool) (rs cs bs : List BitSet)
    (hfree : isFreeB (g.getCell p) = true) :
    Solver.step ⟨g, ⟨p, fwd⟩, rs, cs, bs⟩ =
      (let s : Solver := ⟨g, ⟨p, fwd⟩, rs, cs, bs⟩
       let digit := g.getCell p
       let taken := s.takenAt (rowOf p) (colOf p) (blkOf p)
       let s1 : Solver :=
         match digit with
         | Digit.some _ v => s.removeDigit (rowOf p) (colOf p) (blkOf p) v
         | Digit.none => s
       match next_index digit taken with
       | Option.none =>
         if p = 0 then StepRes.done { s1 with cursor := ⟨0, true⟩ }
         else StepRes.cont { s1 with cursor := ⟨p - 1, false⟩ }
       | Option.some w =>
         let s2 : Solver := s1.placeDigit (rowOf p) (colOf p) (blkOf p) w
         if p = 80 then StepRes.emit { s2 with cursor := ⟨80, false⟩ } s2.grid
         else StepRes.cont { s2 with cursor := ⟨p + 1, true⟩ }) := by
  unfold Solver.step Cursor.item Cursor.prev Cursor.next
  simp only [SIZE, ROW_PER_BLOCK, COL_PER_BLOCK, show (3 : Nat) * 3 = 9 from rfl]
  simp only [cell_idx_eq9]
  show (match g.getCell p with
    | Digit.some true _ => _
    | _ => _) = _
  rcases hd : g.getCell p with _ | ⟨b, v⟩
  · dsimp only [rowOf, colOf, blkOf]
    rcases hni : next_index Digit.none
        (Solver.takenAt ⟨g, ⟨p, fwd⟩, rs, cs, bs⟩ (p / 9) (p % 9) (p / 9 / 3 * 3 + p % 9 / 3)) with
        _ | w
    · by_cases hp0 : p = 0 <;> simp [hp0, Solver.placeDigit, Solver.removeDigit]
    · by_cases hp80 : p = 80 <;> simp [hp80, Solver.placeDigit, Solver.removeDigit]
  · rcases b
    · dsimp only [rowOf, colOf, blkOf]
      rcases hni : next_index (Digit.some false v)
          (Solver.takenAt ⟨g, ⟨p, fwd⟩, rs, cs, bs⟩ (p / 9) (p % 9) (p / 9 / 3 * 3 + p % 9 / 3)) with
          _ | w
      · by_cases hp0 : p = 0 <;> simp [hp0, Solver.placeDigit, Solver.removeDigit]
      · by_cases hp80 : p = 80 <;> simp [hp80, Solver.placeDigit, Solver.removeDigit]
    · rw [hd] at hfree
      simp [isFreeB] at hfree

/-! ## Effect lemmas for cell updates -/

theorem getCell_set (g : Grid) (hlen : g.cells.length = 81) (p : Nat) (hp : p < 81)
    (x : Digit) (i : Nat) :
    Grid.getCell ⟨g.cells.set p x⟩ i = if i = p then x else g.getCell i := by
  unfold Grid.getCell
  by_cases hip : i = p
  · subst hip
    rw [if_pos rfl, List.getD_eq_getElem?_getD, List.getElem?_set_self (by omega)]
    rfl
  · rw [if_neg hip, List.getD_eq_getElem?_getD,
      List.getElem?_set_ne (fun h => hip h.symm), ← List.getD_eq_getElem?_getD]

theorem wfB_set (g : Grid) (hwf : Grid.wfB g = true) (p : Nat) (x : Digit)
    (hx : Digit.wfB x = true) : Grid.wfB ⟨g.cells.set p x⟩ = true := by
  unfold Grid.wfB at hwf ⊢
  rw [Bool.and_eq_true] at hwf ⊢
  refine ⟨by simpa using hwf.1, ?_⟩
  rw [List.all_eq_true]
  intro d hd
  rcases List.mem_or_eq_of_mem_set hd with h | rfl
  · exact List.all_eq_true.mp hwf.2 d h
  · exact hx

theorem removeDigit_grid (s : Solver) (p v : Nat) :
    (s.removeDigit (rowOf p) (colOf p) (blkOf p) v).grid =
      ⟨s.grid.cells.set p Digit.none⟩ := by
  unfold Solver.removeDigit rowOf colOf
  rw [cell_idx_eq9]

theorem placeDigit_grid (s : Solver) (p v : Nat) :
    (s.placeDigit (rowOf p) (colOf p) (blkOf p) v).grid =
      ⟨s.grid.cells.set p (Digit.some false v)⟩ := by
  unfold Solver.placeDigit rowOf colOf
  rw [cell_idx_eq9]

theorem houseCorrespond_place81 (states : List BitSet) (g : Grid) (houseOf : Nat → Nat)
    (p w : Nat) (hp : p < 81) (hw : w < 9) (hlen : states.length = 9)
    (hblen : ∀ b ∈ states, b.bits.length = 9) (hh : houseOf p < 9)
    (hglen : g.cells.length = 81) (hcell : g.getCell p = Digit.none)
    (hc : houseCorrespond states g houseOf 81) :
    houseCorrespond (states.set (houseOf p) ((states.getD (houseOf p) BitSet.default).set w))
      ⟨g.cells.set p (Digit.some false w)⟩ houseOf 81 := by
  intro a u ha hu
  have hgc := getCell_set g hglen p hp (Digit.some false w)
  by_cases hah : houseOf p = a
  · subst hah
    rw [getD_set_self _ _ _ (by omega)]
    rw [contains_set_general _ (getD_states_len states hblen _) _ _ hu]
    by_cases hwu : w = u
    · subst hwu
      rw [if_pos rfl]
      constructor
      · intro _
        refine ⟨p, hp, rfl, ?_⟩
        rw [hgc p, if_pos rfl]
        rfl
      · intro _
        rfl
    · rw [if_neg hwu, hc _ u (by omega) hu]
      constructor
      · rintro ⟨j, hj, hje, hjv⟩
        refine ⟨j, hj, hje, ?_⟩
        rw [hgc j, if_neg ?_]
        · exact hjv
        · intro hjp
          subst hjp
          rw [hcell] at hjv
          simp [valOf] at hjv
      · rintro ⟨j, hj, hje, hjv⟩
        rw [hgc j] at hjv
        by_cases hjp : j = p
        · rw [if_pos hjp] at hjv
          simp [valOf] at hjv
          exact absurd hjv hwu
        · rw [if_neg hjp] at hjv
          exact ⟨j, hj, hje, hjv⟩
  · rw [getD_set_ne _ _ _ _ hah, hc a u ha hu]
    constructor
    · rintro ⟨j, hj, hje, hjv⟩
      refine ⟨j, hj, hje, ?_⟩
      rw [hgc j, if_neg ?_]
      · exact hjv
      · intro hjp
        subst hjp
        exact hah hje
    · rintro ⟨j, hj, hje, hjv⟩
      rw [hgc j] at hjv
      by_cases hjp : j = p
      · subst hjp
        exact absurd hje hah
      · rw [if_neg hjp] at hjv
        exact ⟨j, hj, hje, hjv⟩

theorem houseCorrespond_remove81 (states : List BitSet) (g : Grid) (houseOf : Nat → Nat)
    (p v : Nat) (b0 : Bool) (hp : p < 81) (hv : v < 9) (hlen : states.length = 9)
    (hblen : ∀ b ∈ states, b.bits.length = 9) (hh : houseOf p < 9)
    (hglen : g.cells.length = 81) (hcell : g.getCell p = Digit.some b0 v)
    (huniq : ∀ j, j < 81 → j ≠ p → houseOf j = houseOf p →
      valOf (g.getCell j) ≠ Option.some v)
    (hc : houseCorrespond states g houseOf 81) :
    houseCorrespond (states.set (houseOf p) ((states.getD (houseOf p) BitSet.default).reset v))
      ⟨g.cells.set p Digit.none⟩ houseOf 81 := by
  intro a u ha hu
  have hgc := getCell_set g hglen p hp Digit.none
  by_cases hah : houseOf p = a
  · subst hah
    rw [getD_set_self _ _ _ (by omega)]
    rw [contains_reset_general _ (getD_states_len states hblen _) _ _ hu]
    by_cases hvu : v = u
    · subst hvu
      rw [if_pos rfl]
      constructor
      · intro hfalse
        exact absurd hfalse (by simp)
      · rintro ⟨j, hj, hje, hjv⟩
        exfalso
        rw [hgc j] at hjv
        by_cases hjp : j = p
        · rw [if_pos hjp] at hjv
          simp [valOf] at hjv
        · rw [if_neg hjp] at hjv
          exact huniq j hj hjp hje hjv
    · rw [if_neg hvu, hc _ u (by omega) hu]
      constructor
      · rintro ⟨j, hj, hje, hjv⟩
        by_cases hjp : j = p
        · subst hjp
          rw [hcell] at hjv
          simp [valOf] at hjv
          exact absurd hjv hvu
        · refine ⟨j, hj, hje, ?_⟩
          rw [hgc j, if_neg hjp]
          exact hjv
      · rintro ⟨j, hj, hje, hjv⟩
        rw [hgc j] at hjv
        by_cases hjp : j = p
        · rw [if_pos hjp] at hjv
          simp [valOf] at hjv
        · rw [if_neg hjp] at hjv
          exact ⟨j, hj, hje, hjv⟩
  · rw [getD_set_ne _ _ _ _ hah, hc a u ha hu]
    constructor
    · rintro ⟨j, hj, hje, hjv⟩
      by_cases hjp : j = p
      · subst hjp
        exact absurd hje hah
      · refine ⟨j, hj, hje, ?_⟩
        rw [hgc j, if_neg hjp]
        exact hjv
    · rintro ⟨j, hj, hje, hjv⟩
      rw [hgc j] at hjv
      by_cases hjp : j = p
      · subst hjp
        exact absurd hje hah
      · rw [if_neg hjp] at hjv
        exact ⟨j, hj, hje, hjv⟩

theorem prefixOk_set_none (g : Grid) (hglen : g.cells.length = 81) (p : Nat) (hp : p < 81)
    (hok : prefixOk g 81) : prefixOk ⟨g.cells.set p Digit.none⟩ 81 := by
  intro i j hi hj hne hsame u hvi hvj
  have hgc := getCell_set g hglen p hp Digit.none
  rw [hgc i] at hvi
  rw [hgc j] at hvj
  by_cases hip : i = p
  · rw [if_pos hip] at hvi
    simp [valOf] at hvi
  · rw [if_neg hip] at hvi
    by_cases hjp : j = p
    · rw [if_pos hjp] at hvj
      simp [valOf] at hvj
    · rw [if_neg hjp] at hvj
      exact hok i j hi hj hne hsame u hvi hvj

theorem prefixOk_set_place (g : Grid) (hglen : g.cells.length = 81) (p w : Nat) (hp : p < 81)
    (hok : prefixOk g 81)
    (hnoconf : ∀ j, j < 81 → j ≠ p → sameHouse j p = true →
      valOf (g.getCell j) ≠ Option.some w) :
    prefixOk ⟨g.cells.set p (Digit.some false w)⟩ 81 := by
  intro i j hi hj hne hsame u hvi hvj
  have hgc := getCell_set g hglen p hp (Digit.some false w)
  rw [hgc i] at hvi
  rw [hgc j] at hvj
  by_cases hip : i = p
  · subst hip
    rw [if_pos rfl] at hvi
    simp only [valOf, Option.some.injEq] at hvi
    subst hvi
    rw [if_neg (fun h => hne h.symm)] at hvj
    exact hnoconf j hj (fun h => hne h.symm)
      (by rw [sameHouse_symm]; exact hsame) hvj
  · rw [if_neg hip] at hvi
    by_cases hjp : j = p
    · subst hjp
      rw [if_pos rfl] at hvj
      simp only [valOf, Option.some.injEq] at hvj
      subst hvj
      exact hnoconf i hi hip hsame hvi
    · rw [if_neg hjp] at hvj
      exact hok i j hi hj hne hsame u hvi hvj

/-! ## Measure lemmas -/

theorem range81_split (p : Nat) (hp : p < 81) :
    List.range 81 = List.range p ++ p :: List.range' (p + 1) (80 - p) := by
  rw [List.range_eq_range', List.range_eq_range']
  have h1 : (81 : Nat) = (81 - p) + p := by omega
  rw [h1, ← List.range'_append]
  have h2 : List.range' (0 + 1 * p) (81 - p) = p :: List.range' (p + 1) (80 - p) := by
    rw [show 0 + 1 * p = p from by omega, show 81 - p = (80 - p) + 1 from by omega,
      List.range'_succ]
  rw [h2]

theorem geom_sum_11 : ∀ (k s : Nat), s + k = 81 →
    ((List.range' s k).map (fun i => 10 * cellWeight i)).sum = 11 ^ (81 - s) - 1 := by
  intro k
  induction k with
  | zero =>
    intro s hs
    have h81 : s = 81 := by omega
    subst h81
    simp
  | succ k ih =>
    intro s hs
    rw [List.range'_succ, List.map_cons, List.sum_cons, ih (s + 1) (by omega)]
    unfold cellWeight
    have h81 : 81 - (s + 1) = 80 - s := by omega
    rw [h81]
    have hpow : 11 ^ (81 - s) = 11 * 11 ^ (80 - s) := by
      rw [show 81 - s = (80 - s) + 1 from by omega, pow_succ]
      ring
    have hge : 1 ≤ 11 ^ (80 - s) := Nat.one_le_pow _ _ (by norm_num)
    omega

theorem eCode_le (s : Solver) (hwf : Grid.wfB s.grid = true) :
    ∀ i, i < 81 → eCode s i ≤ 10 := by
  intro i hi
  have hcwf := grid_wf_cell s.grid hwf i
  unfold eCode
  rcases hd : s.grid.getCell i with _ | ⟨b, v⟩
  · dsimp only
    split
    · omega
    · simp [code]
  · rcases b
    · dsimp only
      split
      · omega
      · rw [hd] at hcwf
        simp only [Digit.wfB, decide_eq_true_eq] at hcwf
        simp [code]
        omega
    · dsimp only
      omega

theorem Lmeasure_le_MAXL (s : Solver) (hb : ∀ i, i < 81 → eCode s i ≤ 10) :
    Lmeasure s ≤ MAXL := by
  unfold Lmeasure MAXL
  have h1 : ((List.range 81).map (fun i => eCode s i * cellWeight i)).sum ≤
      ((List.range 81).map (fun i => 10 * cellWeight i)).sum :=
    List.sum_le_sum fun i hi =>
      Nat.mul_le_mul_right _ (hb i (List.mem_range.mp hi))
  have h2 : ((List.range 81).map (fun i => 10 * cellWeight i)).sum = 11 ^ 81 - 1 := by
    have hg := geom_sum_11 81 0 (by omega)
    rw [List.range_eq_range']
    simpa using hg
  omega

theorem Lmeasure_lt (s s2 : Solver) (p : Nat) (hp : p < 81)
    (hA : ∀ i, i < p → eCode s2 i = eCode s i)
    (hB : eCode s p + 1 ≤ eCode s2 p)
    (hbound : ∀ i, i < 81 → eCode s i ≤ 10) :
    Lmeasure s < Lmeasure s2 := by
  unfold Lmeasure
  rw [range81_split p hp]
  simp only [List.map_append, List.sum_append, List.map_cons, List.sum_cons]
  have hAeq : ((List.range p).map (fun i => eCode s2 i * cellWeight i)).sum =
      ((List.range p).map (fun i => eCode s i * cellWeight i)).sum := by
    rw [List.map_congr_left]
    intro i hi
    rw [hA i (List.mem_range.mp hi)]
  have hCold : ((List.range' (p + 1) (80 - p)).map (fun i => eCode s i * cellWeight i)).sum ≤
      11 ^ (80 - p) - 1 := by
    have hle : ((List.range' (p + 1) (80 - p)).map (fun i => eCode s i * cellWeight i)).sum ≤
        ((List.range' (p + 1) (80 - p)).map (fun i => 10 * cellWeight i)).sum := by
      apply List.sum_le_sum
      intro i hi
      have hir := List.mem_range'_1.mp hi
      exact Nat.mul_le_mul_right _ (hbound i (by omega))
    have hg := geom_sum_11 (80 - p) (p + 1) (by omega)
    rw [show 81 - (p + 1) = 80 - p from by omega] at hg
    omega
  have hWp : cellWeight p = 11 ^ (80 - p) := rfl
  have hge : 1 ≤ 11 ^ (80 - p) := Nat.one_le_pow _ _ (by norm_num)
  have hkey : eCode s p * cellWeight p + (11 ^ (80 - p) - 1) < eCode s2 p * cellWeight p := by
    have hm : (eCode s p + 1) * cellWeight p ≤ eCode s2 p * cellWeight p :=
      Nat.mul_le_mul_right _ hB
    rw [Nat.add_mul, Nat.one_mul] at hm
    rw [hWp] at hm ⊢
    omega
  omega

theorem nu_lt_of_L_lt (s s2 : Solver) (hL : Lmeasure s < Lmeasure s2)
    (hM : Lmeasure s2 ≤ MAXL) (hT2 : Tmeasure s2 ≤ 161) (hF2 : flagMeasure s2 ≤ 1) :
    nuMeasure s2 < nuMeasure s := by
  unfold nuMeasure
  have hsub : MAXL - Lmeasure s2 < MAXL - Lmeasure s := by omega
  omega

theorem Lmeasure_congr (s s2 : Solver) (h : ∀ i, i < 81 → eCode s2 i = eCode s i) :
    Lmeasure s2 = Lmeasure s := by
  unfold Lmeasure
  rw [List.map_congr_left]
  intro i hi
  rw [h i (List.mem_range.mp hi)]

/-! ## next_index facts -/

theorem next_index_some_facts (d : Digit) (t : BitSet) (w : Nat)
    (h : next_index d t = Option.some w) :
    w < 9 ∧ t.contains w = false ∧ (∀ b a, d = Digit.some b a → a < w) := by
  rw [next_index_eq_find] at h
  have hf := (find_range_some (isCandidate d t) 9 w).mp h
  have hc := hf.2.1
  unfold isCandidate at hc
  rw [Bool.and_eq_true, Bool.and_eq_true] at hc
  refine ⟨by simpa using hc.1.1, by simpa using hc.1.2, ?_⟩
  intro b a hd
  subst hd
  simpa using hc.2

theorem next_index_none_facts (d : Digit) (t : BitSet) (h : next_index d t = Option.none) :
    ∀ u, isCandidate d t u = false := by
  rw [next_index_eq_find] at h
  have hf := (find_range_none (isCandidate d t) 9).mp h
  intro u
  by_cases hu : u < 9
  · exact hf u hu
  · exact isCandidate_big d t u (by omega)

theorem complete_of_filled (g : Grid) (h : ∀ i, i < 81 → g.getCell i ≠ Digit.none) :
    Grid.complete g = true := by
  unfold Grid.complete
  rw [List.all_eq_true]
  intro i hi
  have hne := h i (List.mem_range.mp hi)
  rcases hd : g.getCell i with _ | ⟨b, v⟩
  · exact absurd hd hne
  · simp [valOf, hd]

/-! ## Record shapes of the mutating operations -/

theorem remove_then_cursor (s : Solver) (p v : Nat) (c2 : Cursor) :
    { s.removeDigit (rowOf p) (colOf p) (blkOf p) v with cursor := c2 } =
      Solver.mk ⟨s.grid.cells.set p Digit.none⟩ c2
        (s.row_states.set (rowOf p) ((s.row_states.getD (rowOf p) BitSet.default).reset v))
        (s.col_states.set (colOf p) ((s.col_states.getD (colOf p) BitSet.default).reset v))
        (s.blk_states.set (blkOf p) ((s.blk_states.getD (blkOf p) BitSet.default).reset v)) := by
  unfold Solver.removeDigit rowOf colOf
  rw [cell_idx_eq9]

theorem place_then_cursor (s : Solver) (p w : Nat) (c2 : Cursor) :
    { s.placeDigit (rowOf p) (colOf p) (blkOf p) w with cursor := c2 } =
      Solver.mk ⟨s.grid.cells.set p (Digit.some false w)⟩ c2
        (s.row_states.set (rowOf p) ((s.row_states.getD (rowOf p) BitSet.default).set w))
        (s.col_states.set (colOf p) ((s.col_states.getD (colOf p) BitSet.default).set w))
        (s.blk_states.set (blkOf p) ((s.blk_states.getD (blkOf p) BitSet.default).set w)) := by
  unfold Solver.placeDigit rowOf colOf
  rw [cell_idx_eq9]

/-! ## Core invariant preservation -/

theorem coreInv_cursor (s : Solver) (c2 : Cursor) (h : coreInv s) :
    coreInv { s with cursor := c2 } := h

theorem statesWF_retract (s : Solver) (p v : Nat) (hst : s.statesWF) :
    Solver.statesWF (Solver.mk ⟨s.grid.cells.set p Digit.none⟩ c2x
      (s.row_states.set (rowOf p) ((s.row_states.getD (rowOf p) BitSet.default).reset v))
      (s.col_states.set (colOf p) ((s.col_states.getD (colOf p) BitSet.default).reset v))
      (s.blk_states.set (blkOf p) ((s.blk_states.getD (blkOf p) BitSet.default).reset v))) := by
  obtain ⟨hr9, hc9, hb9, hrb, hcb, hbb⟩ := hst
  refine ⟨by simpa using hr9, by simpa using hc9, by simpa using hb9, ?_, ?_, ?_⟩
  · exact statesWF_set _ hrb _ _ (by rw [bitset_reset_len]; exact getD_states_len _ hrb _)
  · exact statesWF_set _ hcb _ _ (by rw [bitset_reset_len]; exact getD_states_len _ hcb _)
  · exact statesWF_set _ hbb _ _ (by rw [bitset_reset_len]; exact getD_states_len _ hbb _)

theorem statesWF_place (s : Solver) (p w : Nat) (hst : s.statesWF) :
    Solver.statesWF (Solver.mk ⟨s.grid.cells.set p (Digit.some false w)⟩ c2x
      (s.row_states.set (rowOf p) ((s.row_states.getD (rowOf p) BitSet.default).set w))
      (s.col_states.set (colOf p) ((s.col_states.getD (colOf p) BitSet.default).set w))
      (s.blk_states.set (blkOf p) ((s.blk_states.getD (blkOf p) BitSet.default).set w))) := by
  obtain ⟨hr9, hc9, hb9, hrb, hcb, hbb⟩ := hst
  refine ⟨by simpa using hr9, by simpa using hc9, by simpa using hb9, ?_, ?_, ?_⟩
  · exact statesWF_set _ hrb _ _ (by rw [bitset_set_len]; exact getD_states_len _ hrb _)
  · exact statesWF_set _ hcb _ _ (by rw [bitset_set_len]; exact getD_states_len _ hcb _)
  · exact statesWF_set _ hbb _ _ (by rw [bitset_set_len]; exact getD_states_len _ hbb _)

/-- Retracting a filled non-conflicting cell preserves the core
invariant. -/
theorem coreInv_retract (s : Solver) (p v : Nat) (b0 : Bool) (c2 : Cursor) (hp : p < 81)
    (hcell : s.grid.getCell p = Digit.some b0 v) (hinv : coreInv s) :
    coreInv (Solver.mk ⟨s.grid.cells.set p Digit.none⟩ c2
      (s.row_states.set (rowOf p) ((s.row_states.getD (rowOf p) BitSet.default).reset v))
      (s.col_states.set (colOf p) ((s.col_states.getD (colOf p) BitSet.default).reset v))
      (s.blk_states.set (blkOf p) ((s.blk_states.getD (blkOf p) BitSet.default).reset v))) := by
  obtain ⟨hwf, hst, hcorr, hok⟩ := hinv
  have hglen : s.grid.cells.length = 81 := grid_wf_len _ hwf
  have hv9 : v < 9 := by
    have hcwf := grid_wf_cell s.grid hwf p
    rw [hcell] at hcwf
    simpa [Digit.wfB] using hcwf
  obtain ⟨hh1, hh2, hh3⟩ := houseOf_lt p hp
  obtain ⟨hr9, hc9, hb9, hrb, hcb, hbb⟩ := hst
  have hval : valOf (s.grid.getCell p) = Option.some v := by rw [hcell]; rfl
  refine ⟨wfB_set _ hwf _ _ (by rfl), statesWF_retract s p v ⟨hr9, hc9, hb9, hrb, hcb, hbb⟩,
    ?_, prefixOk_set_none _ hglen _ hp hok⟩
  have huniq : ∀ (hof : Nat → Nat),
      (∀ a b2, hof a = hof b2 → sameHouse a b2 = true) →
      ∀ j, j < 81 → j ≠ p → hof j = hof p → valOf (s.grid.getCell j) ≠ Option.some v := by
    intro hof hsame j hj hjp hje hjv
    exact hok p j hp hj (fun h => hjp h.symm) (hsame p j hje.symm) v hval hjv
  refine ⟨?_, ?_, ?_⟩
  · exact houseCorrespond_remove81 _ _ rowOf p v b0 hp hv9 hr9 hrb hh1 hglen hcell
      (huniq rowOf (fun a b2 h => by simp [sameHouse, h])) hcorr.1
  · exact houseCorrespond_remove81 _ _ colOf p v b0 hp hv9 hc9 hcb hh2 hglen hcell
      (huniq colOf (fun a b2 h => by simp [sameHouse, h])) hcorr.2.1
  · exact houseCorrespond_remove81 _ _ blkOf p v b0 hp hv9 hb9 hbb hh3 hglen hcell
      (huniq blkOf (fun a b2 h => by simp [sameHouse, h])) hcorr.2.2

/-- Committing a fresh value into an empty cell, provided no filled
cell of a shared house holds that value, preserves the core
invariant. -/
theorem coreInv_place (s : Solver) (p w : Nat) (c2 : Cursor) (hp : p < 81) (hw : w < 9)
    (hcell : s.grid.getCell p = Digit.none)
    (hnoconf : ∀ j, j < 81 → j ≠ p → sameHouse j p = true →
      valOf (s.grid.getCell j) ≠ Option.some w)
    (hinv : coreInv s) :
    coreInv (Solver.mk ⟨s.grid.cells.set p (Digit.some false w)⟩ c2
      (s.row_states.set (rowOf p) ((s.row_states.getD (rowOf p) BitSet.default).set w))
      (s.col_states.set (colOf p) ((s.col_states.getD (colOf p) BitSet.default).set w))
      (s.blk_states.set (blkOf p) ((s.blk_states.getD (blkOf p) BitSet.default).set w))) := by
  obtain ⟨hwf, hst, hcorr, hok⟩ := hinv
  have hglen : s.grid.cells.length = 81 := grid_wf_len _ hwf
  obtain ⟨hh1, hh2, hh3⟩ := houseOf_lt p hp
  obtain ⟨hr9, hc9, hb9, hrb, hcb, hbb⟩ := hst
  refine ⟨wfB_set _ hwf _ _ (by simp [Digit.wfB]; omega),
    statesWF_place s p w ⟨hr9, hc9, hb9, hrb, hcb, hbb⟩, ?_,
    prefixOk_set_place _ hglen _ _ hp hok hnoconf⟩
  refine ⟨?_, ?_, ?_⟩
  · exact houseCorrespond_place81 _ _ rowOf p w hp hw hr9 hrb hh1 hglen hcell hcorr.1
  · exact houseCorrespond_place81 _ _ colOf p w hp hw hc9 hcb hh2 hglen hcell hcorr.2.1
  · exact houseCorrespond_place81 _ _ blkOf p w hp hw hb9 hbb hh3 hglen hcell hcorr.2.2

/-! ## Transition lemmas: given cells -/

theorem eCode_mk (g : Grid) (c : Cursor) (rs cs bs : List BitSet) (i : Nat) :
    eCode ⟨g, c, rs, cs, bs⟩ i =
      (match g.getCell i with
       | Digit.some true _ => 0
       | d => if c.index < i ∧ c.forward = false then 10 else code d) := rfl

theorem trans_given_fwd (g : Grid) (p : Nat) (rs cs bs : List BitSet) (v : Nat) (b0 : Bool)
    (hcell : g.getCell p = Digit.some b0 v) (hp : p ≠ 80)
    (hinv : SInv ⟨g, ⟨p, true⟩, rs, cs, bs⟩) :
    SInv ⟨g, ⟨p + 1, true⟩, rs, cs, bs⟩ ∧
      nuMeasure ⟨g, ⟨p + 1, true⟩, rs, cs, bs⟩ < nuMeasure ⟨g, ⟨p, true⟩, rs, cs, bs⟩ := by
  obtain ⟨hcore, hcur, hbelow⟩ := hinv
  have hp80 : p ≤ 80 := hcur
  refine ⟨⟨hcore, show p + 1 ≤ 80 by omega, ?_⟩, ?_⟩
  · intro i hi
    have hi2 : i < p + 1 := hi
    rcases Nat.lt_succ_iff_lt_or_eq.mp hi2 with h | rfl
    · exact hbelow i h
    · rw [hcell]
      simp
  · have hL : Lmeasure ⟨g, ⟨p + 1, true⟩, rs, cs, bs⟩ =
        Lmeasure ⟨g, ⟨p, true⟩, rs, cs, bs⟩ := by
      apply Lmeasure_congr
      intro i _
      rw [eCode_mk, eCode_mk]
      rcases g.getCell i with _ | ⟨b, v2⟩
      · simp
      · rcases b <;> simp
    unfold nuMeasure flagMeasure Tmeasure
    rw [hL]
    simp only []
    norm_num
    omega

theorem trans_given_bwd (g : Grid) (p : Nat) (rs cs bs : List BitSet) (v : Nat)
    (hcell : g.getCell p = Digit.some true v) (hp : p ≠ 0)
    (hinv : SInv ⟨g, ⟨p, false⟩, rs, cs, bs⟩) :
    SInv ⟨g, ⟨p - 1, false⟩, rs, cs, bs⟩ ∧
      nuMeasure ⟨g, ⟨p - 1, false⟩, rs, cs, bs⟩ < nuMeasure ⟨g, ⟨p, false⟩, rs, cs, bs⟩ := by
  obtain ⟨hcore, hcur, hbelow⟩ := hinv
  have hp80 : p ≤ 80 := hcur
  refine ⟨⟨hcore, show p - 1 ≤ 80 by omega, ?_⟩, ?_⟩
  · intro i hi
    have hi2 : i < p - 1 := hi
    exact hbelow i (show i < p by omega)
  · have hL : Lmeasure ⟨g, ⟨p - 1, false⟩, rs, cs, bs⟩ =
        Lmeasure ⟨g, ⟨p, false⟩, rs, cs, bs⟩ := by
      apply Lmeasure_congr
      intro i _
      rw [eCode_mk, eCode_mk]
      by_cases hip : i = p
      · subst hip
        rw [hcell]
      · rcases g.getCell i with _ | ⟨b, v2⟩
        · show (if p - 1 < i ∧ false = false then 10 else code Digit.none) =
            (if p < i ∧ false = false then 10 else code Digit.none)
          by_cases hpi : p < i
          · rw [if_pos ⟨by omega, rfl⟩, if_pos ⟨hpi, rfl⟩]
          · rw [if_neg (by omega), if_neg (by simp [hpi])]
        · rcases b
          · show (if p - 1 < i ∧ false = false then 10 else code (Digit.some false v2)) =
              (if p < i ∧ false = false then 10 else code (Digit.some false v2))
            by_cases hpi : p < i
            · rw [if_pos ⟨by omega, rfl⟩, if_pos ⟨hpi, rfl⟩]
            · rw [if_neg (by omega), if_neg (by simp [hpi])]
          · rfl
    unfold nuMeasure flagMeasure Tmeasure
    rw [hL]
    simp only []
    norm_num
    omega

theorem trans_given_emit (g : Grid) (rs cs bs : List BitSet) (v : Nat)
    (hcell : g.getCell 80 = Digit.some true v)
    (hinv : SInv ⟨g, ⟨80, true⟩, rs, cs, bs⟩) :
    SInv ⟨g, ⟨80, false⟩, rs, cs, bs⟩ ∧
      nuMeasure ⟨g, ⟨80, false⟩, rs, cs, bs⟩ < nuMeasure ⟨g, ⟨80, true⟩, rs, cs, bs⟩ ∧
      Grid.wfB g = true ∧ Grid.complete g = true ∧ Grid.housesOk g := by
  obtain ⟨hcore, hcur, hbelow⟩ := hinv
  refine ⟨⟨hcore, show (80 : Nat) ≤ 80 by omega, fun i hi => hbelow i hi⟩, ?_, hcore.1, ?_, ?_⟩
  · have hL : Lmeasure ⟨g, ⟨80, false⟩, rs, cs, bs⟩ =
        Lmeasure ⟨g, ⟨80, true⟩, rs, cs, bs⟩ := by
      apply Lmeasure_congr
      intro i hi
      rw [eCode_mk, eCode_mk]
      rcases g.getCell i with _ | ⟨b, v2⟩
      · show (if 80 < i ∧ false = false then 10 else code Digit.none) = _
        rw [if_neg (by omega)]
        simp
      · rcases b
        · show (if 80 < i ∧ false = false then 10 else code (Digit.some false v2)) = _
          rw [if_neg (by omega)]
          simp
        · rfl
    unfold nuMeasure flagMeasure Tmeasure
    rw [hL]
    simp only []
    norm_num
  · apply complete_of_filled
    intro i hi
    rcases Nat.lt_or_ge i 80 with h | h
    · exact hbelow i h
    · have hi80 : i = 80 := by omega
      subst hi80
      rw [hcell]
      simp
  · exact hcore.2.2.2

theorem trans_given_done (g : Grid) (rs cs bs : List BitSet) (v : Nat)
    (hcell : g.getCell 0 = Digit.some true v)
    (hinv : SInv ⟨g, ⟨0, false⟩, rs, cs, bs⟩) :
    SInv ⟨g, ⟨0, true⟩, rs, cs, bs⟩ := by
  obtain ⟨hcore, hcur, hbelow⟩ := hinv
  exact ⟨hcore, show (0 : Nat) ≤ 80 by omega,
    fun i hi => absurd (show i < 0 from hi) (by omega)⟩

/-! ## Transition lemmas: free cells -/

theorem eCode_noboost (g : Grid) (c : Cursor) (rs cs bs : List BitSet) (i : Nat)
    (h : ¬(c.index < i ∧ c.forward = false)) :
    eCode ⟨g, c, rs, cs, bs⟩ i = gCode (g.getCell i) := by
  rw [eCode_mk]
  unfold gCode
  rcases g.getCell i with _ | ⟨b, v⟩
  · show (if c.index < i ∧ c.forward = false then 10 else code Digit.none) = code Digit.none
    exact if_neg h
  · rcases b
    · show (if c.index < i ∧ c.forward = false then 10 else code (Digit.some false v)) =
        code (Digit.some false v)
      exact if_neg h
    · rfl

theorem eCode_boost (g : Grid) (c : Cursor) (rs cs bs : List BitSet) (i : Nat)
    (h : c.index < i ∧ c.forward = false) (hfree : isFreeB (g.getCell i) = true) :
    eCode ⟨g, c, rs, cs, bs⟩ i = 10 := by
  rw [eCode_mk]
  rcases hgi : g.getCell i with _ | ⟨b, v⟩
  · show (if c.index < i ∧ c.forward = false then 10 else code Digit.none) = 10
    exact if_pos h
  · rcases b
    · show (if c.index < i ∧ c.forward = false then 10 else code (Digit.some false v)) = 10
      exact if_pos h
    · rw [hgi] at hfree
      simp [isFreeB] at hfree

/-- If a value is absent from the house union at a cell, no cell of a
shared house holds it. -/
theorem noconf_of_taken (s : Solver) (p w : Nat) (hp : p < 81) (hw : w < 9)
    (hst : s.statesWF) (hc : corresponds s 81)
    (ht : (s.takenAt (rowOf p) (colOf p) (blkOf p)).contains w = false) :
    ∀ j, j < 81 → sameHouse j p = true → valOf (s.grid.getCell j) ≠ Option.some w := by
  intro j hj hsame hv
  have hiff := taken_iff_conflict s p 81 w hp hw hst hc
  have hmem := hiff.mpr ⟨j, hj, hsame, hv⟩
  rw [ht] at hmem
  exact Bool.noConfusion hmem

/-- The measure strictly drops whenever the cell-contribution word
strictly grows at some position with an unchanged prefix. -/
theorem nu_lt_generic (s s2 : Solver) (p : Nat) (hp : p < 81)
    (hwf : Grid.wfB s.grid = true) (hwf2 : Grid.wfB s2.grid = true)
    (hq : s2.cursor.index ≤ 80)
    (hA : ∀ i, i < p → eCode s2 i = eCode s i)
    (hB : eCode s p + 1 ≤ eCode s2 p) :
    nuMeasure s2 < nuMeasure s := by
  have hL := Lmeasure_lt s s2 p hp hA hB (eCode_le s hwf)
  refine nu_lt_of_L_lt s s2 hL (Lmeasure_le_MAXL s2 (eCode_le s2 hwf2)) ?_ ?_
  · unfold Tmeasure
    split <;> omega
  · unfold flagMeasure
    split <;> omega

theorem removeDigit_eq (s : Solver) (p v : Nat) :
    s.removeDigit (rowOf p) (colOf p) (blkOf p) v =
      Solver.mk ⟨s.grid.cells.set p Digit.none⟩ s.cursor
        (s.row_states.set (rowOf p) ((s.row_states.getD (rowOf p) BitSet.default).reset v))
        (s.col_states.set (colOf p) ((s.col_states.getD (colOf p) BitSet.default).reset v))
        (s.blk_states.set (blkOf p) ((s.blk_states.getD (blkOf p) BitSet.default).reset v)) := by
  unfold Solver.removeDigit rowOf colOf
  rw [cell_idx_eq9]

/-- Backtracking from an empty cell (no candidate at all) preserves
the invariant and strictly decreases the measure. -/
theorem trans_pop_empty (g : Grid) (p : Nat) (fwd : Bool) (rs cs bs : List BitSet)
    (hd : g.getCell p = Digit.none) (hp0 : p ≠ 0)
    (hinv : SInv ⟨g, ⟨p, fwd⟩, rs, cs, bs⟩) :
    SInv ⟨g, ⟨p - 1, false⟩, rs, cs, bs⟩ ∧
      nuMeasure ⟨g, ⟨p - 1, false⟩, rs, cs, bs⟩ < nuMeasure ⟨g, ⟨p, fwd⟩, rs, cs, bs⟩ := by
  obtain ⟨hcore, hcur, hbelow⟩ := hinv
  have hp80 : p ≤ 80 := hcur
  have hwf : Grid.wfB g = true := hcore.1
  refine ⟨⟨hcore, show p - 1 ≤ 80 by omega, ?_⟩, ?_⟩
  · intro i hi
    have hi2 : i < p - 1 := hi
    exact hbelow i (show i < p by omega)
  · refine nu_lt_generic _ _ p (by omega) hwf hwf (show p - 1 ≤ 80 by omega) ?_ ?_
    · intro i hi
      rw [eCode_noboost g ⟨p - 1, false⟩ rs cs bs i
          (fun h => absurd h.1 (show ¬(p - 1 < i) by omega)),
        eCode_noboost g ⟨p, fwd⟩ rs cs bs i (fun h => absurd h.1 (show ¬(p < i) by omega))]
    · rw [eCode_noboost g ⟨p, fwd⟩ rs cs bs p (fun h => absurd h.1 (show ¬(p < p) by omega)),
        eCode_boost g ⟨p - 1, false⟩ rs cs bs p ⟨show p - 1 < p by omega, rfl⟩
          (by rw [hd]; rfl), hd]
      decide

/-- Retracting a guessed value with no higher candidate and moving
backward preserves the invariant and strictly decreases the measure. -/
theorem trans_pop_guess (g : Grid) (p : Nat) (fwd : Bool) (rs cs bs : List BitSet) (v : Nat)
    (hd : g.getCell p = Digit.some false v) (hp0 : p ≠ 0)
    (hinv : SInv ⟨g, ⟨p, fwd⟩, rs, cs, bs⟩) :
    SInv (Solver.mk ⟨g.cells.set p Digit.none⟩ ⟨p - 1, false⟩
        (rs.set (rowOf p) ((rs.getD (rowOf p) BitSet.default).reset v))
        (cs.set (colOf p) ((cs.getD (colOf p) BitSet.default).reset v))
        (bs.set (blkOf p) ((bs.getD (blkOf p) BitSet.default).reset v))) ∧
      nuMeasure (Solver.mk ⟨g.cells.set p Digit.none⟩ ⟨p - 1, false⟩
        (rs.set (rowOf p) ((rs.getD (rowOf p) BitSet.default).reset v))
        (cs.set (colOf p) ((cs.getD (colOf p) BitSet.default).reset v))
        (bs.set (blkOf p) ((bs.getD (blkOf p) BitSet.default).reset v))) <
        nuMeasure ⟨g, ⟨p, fwd⟩, rs, cs, bs⟩ := by
  obtain ⟨hcore, hcur, hbelow⟩ := hinv
  have hp80 : p ≤ 80 := hcur
  have hwf : Grid.wfB g = true := hcore.1
  have hglen : g.cells.length = 81 := grid_wf_len g hwf
  have hv9 : v < 9 := by
    have h := grid_wf_cell g hwf p
    rw [hd] at h
    simpa [Digit.wfB] using h
  have hgc := getCell_set g hglen p (by omega) Digit.none
  have hwf2 : Grid.wfB ⟨g.cells.set p Digit.none⟩ = true := wfB_set g hwf p Digit.none rfl
  have hcore2 := coreInv_retract ⟨g, ⟨p, fwd⟩, rs, cs, bs⟩ p v false ⟨p - 1, false⟩
    (by omega) hd hcore
  refine ⟨⟨hcore2, show p - 1 ≤ 80 by omega, ?_⟩, ?_⟩
  · intro i hi
    have hi2 : i < p - 1 := hi
    show Grid.getCell ⟨g.cells.set p Digit.none⟩ i ≠ Digit.none
    rw [hgc i, if_neg (show i ≠ p by omega)]
    exact hbelow i (show i < p by omega)
  · refine nu_lt_generic _ _ p (by omega) hwf hwf2 (show p - 1 ≤ 80 by omega) ?_ ?_
    · intro i hi
      rw [eCode_noboost _ ⟨p - 1, false⟩ _ _ _ i
          (fun h => absurd h.1 (show ¬(p - 1 < i) by omega)),
        eCode_noboost g ⟨p, fwd⟩ rs cs bs i (fun h => absurd h.1 (show ¬(p < i) by omega)),
        hgc i, if_neg (show i ≠ p by omega)]
    · rw [eCode_noboost g ⟨p, fwd⟩ rs cs bs p (fun h => absurd h.1 (show ¬(p < p) by omega)),
        eCode_boost _ ⟨p - 1, false⟩ _ _ _ p ⟨show p - 1 < p by omega, rfl⟩
          (by rw [hgc p, if_pos rfl]; rfl), hd]
      show v + 1 + 1 ≤ 10
      omega

/-- Exhaustion from an empty first cell: the terminal state keeps the
invariant. -/
theorem trans_done_empty (g : Grid) (fwd : Bool) (rs cs bs : List BitSet)
    (hinv : SInv ⟨g, ⟨0, fwd⟩, rs, cs, bs⟩) :
    SInv ⟨g, ⟨0, true⟩, rs, cs, bs⟩ := by
  obtain ⟨hcore, hcur, hbelow⟩ := hinv
  exact ⟨hcore, show (0 : Nat) ≤ 80 by omega,
    fun i hi => absurd (show i < 0 from hi) (by omega)⟩

/-- Exhaustion while retracting the guess in the first cell: the
terminal state keeps the invariant. -/
theorem trans_done_guess (g : Grid) (fwd : Bool) (rs cs bs : List BitSet) (v : Nat)
    (hd : g.getCell 0 = Digit.some false v)
    (hinv : SInv ⟨g, ⟨0, fwd⟩, rs, cs, bs⟩) :
    SInv (Solver.mk ⟨g.cells.set 0 Digit.none⟩ ⟨0, true⟩
        (rs.set (rowOf 0) ((rs.getD (rowOf 0) BitSet.default).reset v))
        (cs.set (colOf 0) ((cs.getD (colOf 0) BitSet.default).reset v))
        (bs.set (blkOf 0) ((bs.getD (blkOf 0) BitSet.default).reset v))) := by
  obtain ⟨hcore, hcur, hbelow⟩ := hinv
  have hcore2 := coreInv_retract ⟨g, ⟨0, fwd⟩, rs, cs, bs⟩ 0 v false ⟨0, true⟩
    (by omega) hd hcore
  exact ⟨hcore2, show (0 : Nat) ≤ 80 by omega,
    fun i hi => absurd (show i < 0 from hi) (by omega)⟩

/-- Committing the first candidate into an empty non-final cell
preserves the invariant and strictly decreases the measure. -/
theorem trans_commit_empty (g : Grid) (p : Nat) (fwd : Bool) (rs cs bs : List BitSet) (w : Nat)
    (hd : g.getCell p = Digit.none) (hp80 : p ≠ 80) (hp81 : p < 81) (hw9 : w < 9)
    (hnoconf : ∀ j, j < 81 → sameHouse j p = true → valOf (g.getCell j) ≠ Option.some w)
    (hinv : SInv ⟨g, ⟨p, fwd⟩, rs, cs, bs⟩) :
    SInv (Solver.mk ⟨g.cells.set p (Digit.some false w)⟩ ⟨p + 1, true⟩
        (rs.set (rowOf p) ((rs.getD (rowOf p) BitSet.default).set w))
        (cs.set (colOf p) ((cs.getD (colOf p) BitSet.default).set w))
        (bs.set (blkOf p) ((bs.getD (blkOf p) BitSet.default).set w))) ∧
      nuMeasure (Solver.mk ⟨g.cells.set p (Digit.some false w)⟩ ⟨p + 1, true⟩
        (rs.set (rowOf p) ((rs.getD (rowOf p) BitSet.default).set w))
        (cs.set (colOf p) ((cs.getD (colOf p) BitSet.default).set w))
        (bs.set (blkOf p) ((bs.getD (blkOf p) BitSet.default).set w))) <
        nuMeasure ⟨g, ⟨p, fwd⟩, rs, cs, bs⟩ := by
  obtain ⟨hcore, hcur, hbelow⟩ := hinv
  have hp : p ≤ 80 := hcur
  have hwf : Grid.wfB g = true := hcore.1
  have hglen : g.cells.length = 81 := grid_wf_len g hwf
  have hgc := getCell_set g hglen p (by omega) (Digit.some false w)
  have hwf2 : Grid.wfB ⟨g.cells.set p (Digit.some false w)⟩ = true :=
    wfB_set g hwf p _ (by simp [Digit.wfB]; omega)
  have hcore2 := coreInv_place ⟨g, ⟨p, fwd⟩, rs, cs, bs⟩ p w ⟨p + 1, true⟩
    (by omega) hw9 hd (fun j hj hjp hs => hnoconf j hj hs) hcore
  refine ⟨⟨hcore2, show p + 1 ≤ 80 by omega, ?_⟩, ?_⟩
  · intro i hi
    have hi2 : i < p + 1 := hi
    show Grid.getCell ⟨g.cells.set p (Digit.some false w)⟩ i ≠ Digit.none
    rw [hgc i]
    by_cases hip : i = p
    · rw [if_pos hip]
      exact fun h => Digit.noConfusion h
    · rw [if_neg hip]
      exact hbelow i (show i < p by omega)
  · refine nu_lt_generic _ _ p (by omega) hwf hwf2 (show p + 1 ≤ 80 by omega) ?_ ?_
    · intro i hi
      rw [eCode_noboost _ ⟨p + 1, true⟩ _ _ _ i (fun h => Bool.noConfusion h.2),
        eCode_noboost g ⟨p, fwd⟩ rs cs bs i (fun h => absurd h.1 (show ¬(p < i) by omega)),
        hgc i, if_neg (show i ≠ p by omega)]
    · rw [eCode_noboost g ⟨p, fwd⟩ rs cs bs p (fun h => absurd h.1 (show ¬(p < p) by omega)),
        eCode_noboost _ ⟨p + 1, true⟩ _ _ _ p (fun h => Bool.noConfusion h.2),
        hgc p, if_pos rfl, hd]
      show 0 + 1 ≤ w + 1
      omega

/-- Replacing a retracted guess by a strictly higher candidate in a
non-final cell preserves the invariant and strictly decreases the
measure. -/
theorem trans_commit_guess (g : Grid) (p : Nat) (fwd : Bool) (rs cs bs : List BitSet)
    (v w : Nat) (hd : g.getCell p = Digit.some false v) (hp80 : p ≠ 80) (hp81 : p < 81)
    (hw9 : w < 9) (hvw : v < w)
    (hnoconf : ∀ j, j < 81 → j ≠ p → sameHouse j p = true →
      valOf (g.getCell j) ≠ Option.some w)
    (hinv : SInv ⟨g, ⟨p, fwd⟩, rs, cs, bs⟩) :
    SInv (Solver.mk ⟨(g.cells.set p Digit.none).set p (Digit.some false w)⟩ ⟨p + 1, true⟩
        ((rs.set (rowOf p) ((rs.getD (rowOf p) BitSet.default).reset v)).set (rowOf p)
          (((rs.set (rowOf p) ((rs.getD (rowOf p) BitSet.default).reset v)).getD (rowOf p)
            BitSet.default).set w))
        ((cs.set (colOf p) ((cs.getD (colOf p) BitSet.default).reset v)).set (colOf p)
          (((cs.set (colOf p) ((cs.getD (colOf p) BitSet.default).reset v)).getD (colOf p)
            BitSet.default).set w))
        ((bs.set (blkOf p) ((bs.getD (blkOf p) BitSet.default).reset v)).set (blkOf p)
          (((bs.set (blkOf p) ((bs.getD (blkOf p) BitSet.default).reset v)).getD (blkOf p)
            BitSet.default).set w))) ∧
      nuMeasure (Solver.mk ⟨(g.cells.set p Digit.none).set p (Digit.some false w)⟩
        ⟨p + 1, true⟩
        ((rs.set (rowOf p) ((rs.getD (rowOf p) BitSet.default).reset v)).set (rowOf p)
          (((rs.set (rowOf p) ((rs.getD (rowOf p) BitSet.default).reset v)).getD (rowOf p)
            BitSet.default).set w))
        ((cs.set (colOf p) ((cs.getD (colOf p) BitSet.default).reset v)).set (colOf p)
          (((cs.set (colOf p) ((cs.getD (colOf p) BitSet.default).reset v)).getD (colOf p)
            BitSet.default).set w))
        ((bs.set (blkOf p) ((bs.getD (blkOf p) BitSet.default).reset v)).set (blkOf p)
          (((bs.set (blkOf p) ((bs.getD (blkOf p) BitSet.default).reset v)).getD (blkOf p)
            BitSet.default).set w))) <
        nuMeasure ⟨g, ⟨p, fwd⟩, rs, cs, bs⟩ := by
  obtain ⟨hcore, hcur, hbelow⟩ := hinv
  have hp : p ≤ 80 := hcur
  have hwf : Grid.wfB g = true := hcore.1
  have hglen : g.cells.length = 81 := grid_wf_len g hwf
  have hgc1 := getCell_set g hglen p (by omega) Digit.none
  have hwf1 : Grid.wfB ⟨g.cells.set p Digit.none⟩ = true := wfB_set g hwf p Digit.none rfl
  have hglen1 : (Grid.mk (g.cells.set p Digit.none)).cells.length = 81 := by
    show (g.cells.set p Digit.none).length = 81
    simp [hglen]
  have hgc2 : ∀ i, Grid.getCell ⟨(g.cells.set p Digit.none).set p (Digit.some false w)⟩ i =
      if i = p then Digit.some false w else Grid.getCell ⟨g.cells.set p Digit.none⟩ i :=
    getCell_set ⟨g.cells.set p Digit.none⟩ hglen1 p (by omega) (Digit.some false w)
  have hwf2 : Grid.wfB ⟨(g.cells.set p Digit.none).set p (Digit.some false w)⟩ = true :=
    wfB_set ⟨g.cells.set p Digit.none⟩ hwf1 p _ (by simp [Digit.wfB]; omega)
  have hcore1 := coreInv_retract ⟨g, ⟨p, fwd⟩, rs, cs, bs⟩ p v false ⟨p, fwd⟩
    (by omega) hd hcore
  have hcore2 := coreInv_place (Solver.mk ⟨g.cells.set p Digit.none⟩ ⟨p, fwd⟩
      (rs.set (rowOf p) ((rs.getD (rowOf p) BitSet.default).reset v))
      (cs.set (colOf p) ((cs.getD (colOf p) BitSet.default).reset v))
      (bs.set (blkOf p) ((bs.getD (blkOf p) BitSet.default).reset v)))
    p w ⟨p + 1, true⟩ (by omega) hw9
    (by show Grid.getCell ⟨g.cells.set p Digit.none⟩ p = Digit.none
        rw [hgc1 p, if_pos rfl])
    (by intro j hj hjp hs hv
        show False
        rw [show Grid.getCell ⟨g.cells.set p Digit.none⟩ j = g.getCell j from
          by rw [hgc1 j, if_neg hjp]] at hv
        exact hnoconf j hj hjp hs hv)
    hcore1
  refine ⟨⟨hcore2, show p + 1 ≤ 80 by omega, ?_⟩, ?_⟩
  · intro i hi
    have hi2 : i < p + 1 := hi
    show Grid.getCell ⟨(g.cells.set p Digit.none).set p (Digit.some false w)⟩ i ≠ Digit.none
    rw [hgc2 i]
    by_cases hip : i = p
    · rw [if_pos hip]
      exact fun h => Digit.noConfusion h
    · rw [if_neg hip, hgc1 i, if_neg hip]
      exact hbelow i (show i < p by omega)
  · refine nu_lt_generic _ _ p (by omega) hwf hwf2 (show p + 1 ≤ 80 by omega) ?_ ?_
    · intro i hi
      rw [eCode_noboost _ ⟨p + 1, true⟩ _ _ _ i (fun h => Bool.noConfusion h.2),
        eCode_noboost g ⟨p, fwd⟩ rs cs bs i (fun h => absurd h.1 (show ¬(p < i) by omega)),
        hgc2 i, if_neg (show i ≠ p by omega), hgc1 i, if_neg (show i ≠ p by omega)]
    · rw [eCode_noboost g ⟨p, fwd⟩ rs cs bs p (fun h => absurd h.1 (show ¬(p < p) by omega)),
        eCode_noboost _ ⟨p + 1, true⟩ _ _ _ p (fun h => Bool.noConfusion h.2),
        hgc2 p, if_pos rfl, hd]
      show v + 1 + 1 ≤ w + 1
      omega

/-- Committing the first candidate into an empty final cell completes
the grid: the emitted grid is a full conflict-free assignment, and the
measure strictly decreases. -/
theorem trans_emit_empty (g : Grid) (fwd : Bool) (rs cs bs : List BitSet) (w : Nat)
    (hd : g.getCell 80 = Digit.none) (hw9 : w < 9)
    (hnoconf : ∀ j, j < 81 → sameHouse j 80 = true → valOf (g.getCell j) ≠ Option.some w)
    (hinv : SInv ⟨g, ⟨80, fwd⟩, rs, cs, bs⟩) :
    SInv (Solver.mk ⟨g.cells.set 80 (Digit.some false w)⟩ ⟨80, false⟩
        (rs.set (rowOf 80) ((rs.getD (rowOf 80) BitSet.default).set w))
        (cs.set (colOf 80) ((cs.getD (colOf 80) BitSet.default).set w))
        (bs.set (blkOf 80) ((bs.getD (blkOf 80) BitSet.default).set w))) ∧
      nuMeasure (Solver.mk ⟨g.cells.set 80 (Digit.some false w)⟩ ⟨80, false⟩
        (rs.set (rowOf 80) ((rs.getD (rowOf 80) BitSet.default).set w))
        (cs.set (colOf 80) ((cs.getD (colOf 80) BitSet.default).set w))
        (bs.set (blkOf 80) ((bs.getD (blkOf 80) BitSet.default).set w))) <
        nuMeasure ⟨g, ⟨80, fwd⟩, rs, cs, bs⟩ ∧
      Grid.wfB ⟨g.cells.set 80 (Digit.some false w)⟩ = true ∧
      Grid.complete ⟨g.cells.set 80 (Digit.some false w)⟩ = true ∧
      Grid.housesOk ⟨g.cells.set 80 (Digit.some false w)⟩ := by
  obtain ⟨hcore, hcur, hbelow⟩ := hinv
  have hwf : Grid.wfB g = true := hcore.1
  have hglen : g.cells.length = 81 := grid_wf_len g hwf
  have hgc := getCell_set g hglen 80 (by omega) (Digit.some false w)
  have hwf2 : Grid.wfB ⟨g.cells.set 80 (Digit.some false w)⟩ = true :=
    wfB_set g hwf 80 _ (by simp [Digit.wfB]; omega)
  have hcore2 := coreInv_place ⟨g, ⟨80, fwd⟩, rs, cs, bs⟩ 80 w ⟨80, false⟩
    (by omega) hw9 hd (fun j hj hjp hs => hnoconf j hj hs) hcore
  have hfill : ∀ i, i < 81 →
      Grid.getCell ⟨g.cells.set 80 (Digit.some false w)⟩ i ≠ Digit.none := by
    intro i hi
    rw [hgc i]
    by_cases hip : i = 80
    · rw [if_pos hip]
      exact fun h => Digit.noConfusion h
    · rw [if_neg hip]
      exact hbelow i (show i < 80 by omega)
  refine ⟨⟨hcore2, show (80 : Nat) ≤ 80 by omega, fun i hi => hfill i (show i < 81 from
    by have h2 : i < 80 := hi; omega)⟩, ?_, hwf2, complete_of_filled _ hfill,
    hcore2.2.2.2⟩
  refine nu_lt_generic _ _ 80 (by omega) hwf hwf2 (show (80 : Nat) ≤ 80 by omega) ?_ ?_
  · intro i hi
    rw [eCode_noboost _ ⟨80, false⟩ _ _ _ i (fun h => absurd h.1 (show ¬(80 < i) by omega)),
      eCode_noboost g ⟨80, fwd⟩ rs cs bs i (fun h => absurd h.1 (show ¬(80 < i) by omega)),
      hgc i, if_neg (show i ≠ 80 by omega)]
  · rw [eCode_noboost g ⟨80, fwd⟩ rs cs bs 80 (fun h => absurd h.1 (show ¬(80 < 80) by omega)),
      eCode_noboost _ ⟨80, false⟩ _ _ _ 80 (fun h => absurd h.1 (show ¬(80 < 80) by omega)),
      hgc 80, if_pos rfl, hd]
    show 0 + 1 ≤ w + 1
    omega

/-- Replacing a retracted guess in the final cell by a strictly higher
candidate completes the grid again: the emitted grid is a full
conflict-free assignment, and the measure strictly decreases. -/
theorem trans_emit_guess (g : Grid) (fwd : Bool) (rs cs bs : List BitSet) (v w : Nat)
    (hd : g.getCell 80 = Digit.some false v) (hw9 : w < 9) (hvw : v < w)
    (hnoconf : ∀ j, j < 81 → j ≠ 80 → sameHouse j 80 = true →
      valOf (g.getCell j) ≠ Option.some w)
    (hinv : SInv ⟨g, ⟨80, fwd⟩, rs, cs, bs⟩) :
    SInv (Solver.mk ⟨(g.cells.set 80 Digit.none).set 80 (Digit.some false w)⟩ ⟨80, false⟩
        ((rs.set (rowOf 80) ((rs.getD (rowOf 80) BitSet.default).reset v)).set (rowOf 80)
          (((rs.set (rowOf 80) ((rs.getD (rowOf 80) BitSet.default).reset v)).getD (rowOf 80)
            BitSet.default).set w))
        ((cs.set (colOf 80) ((cs.getD (colOf 80) BitSet.default).reset v)).set (colOf 80)
          (((cs.set (colOf 80) ((cs.getD (colOf 80) BitSet.default).reset v)).getD (colOf 80)
            BitSet.default).set w))
        ((bs.set (blkOf 80) ((bs.getD (blkOf 80) BitSet.default).reset v)).set (blkOf 80)
          (((bs.set (blkOf 80) ((bs.getD (blkOf 80) BitSet.default).reset v)).getD (blkOf 80)
            BitSet.default).set w))) ∧
      nuMeasure (Solver.mk ⟨(g.cells.set 80 Digit.none).set 80 (Digit.some false w)⟩
        ⟨80, false⟩
        ((rs.set (rowOf 80) ((rs.getD (rowOf 80) BitSet.default).reset v)).set (rowOf 80)
          (((rs.set (rowOf 80) ((rs.getD (rowOf 80) BitSet.default).reset v)).getD (rowOf 80)
            BitSet.default).set w))
        ((cs.set (colOf 80) ((cs.getD (colOf 80) BitSet.default).reset v)).set (colOf 80)
          (((cs.set (colOf 80) ((cs.getD (colOf 80) BitSet.default).reset v)).getD (colOf 80)
            BitSet.default).set w))
        ((bs.set (blkOf 80) ((bs.getD (blkOf 80) BitSet.default).reset v)).set (blkOf 80)
          (((bs.set (blkOf 80) ((bs.getD (blkOf 80) BitSet.default).reset v)).getD (blkOf 80)
            BitSet.default).set w))) <
        nuMeasure ⟨g, ⟨80, fwd⟩, rs, cs, bs⟩ ∧
      Grid.wfB ⟨(g.cells.set 80 Digit.none).set 80 (Digit.some false w)⟩ = true ∧
      Grid.complete ⟨(g.cells.set 80 Digit.none).set 80 (Digit.some false w)⟩ = true ∧
      Grid.housesOk ⟨(g.cells.set 80 Digit.none).set 80 (Digit.some false w)⟩ := by
  obtain ⟨hcore, hcur, hbelow⟩ := hinv
  have hwf : Grid.wfB g = true := hcore.1
  have hglen : g.cells.length = 81 := grid_wf_len g hwf
  have hgc1 := getCell_set g hglen 80 (by omega) Digit.none
  have hwf1 : Grid.wfB ⟨g.cells.set 80 Digit.none⟩ = true := wfB_set g hwf 80 Digit.none rfl
  have hglen1 : (Grid.mk (g.cells.set 80 Digit.none)).cells.length = 81 := by
    show (g.cells.set 80 Digit.none).length = 81
    simp [hglen]
  have hgc2 : ∀ i, Grid.getCell ⟨(g.cells.set 80 Digit.none).set 80 (Digit.some false w)⟩ i =
      if i = 80 then Digit.some false w else Grid.getCell ⟨g.cells.set 80 Digit.none⟩ i :=
    getCell_set ⟨g.cells.set 80 Digit.none⟩ hglen1 80 (by omega) (Digit.some false w)
  have hwf2 : Grid.wfB ⟨(g.cells.set 80 Digit.none).set 80 (Digit.some false w)⟩ = true :=
    wfB_set ⟨g.cells.set 80 Digit.none⟩ hwf1 80 _ (by simp [Digit.wfB]; omega)
  have hcore1 := coreInv_retract ⟨g, ⟨80, fwd⟩, rs, cs, bs⟩ 80 v false ⟨80, fwd⟩
    (by omega) hd hcore
  have hcore2 := coreInv_place (Solver.mk ⟨g.cells.set 80 Digit.none⟩ ⟨80, fwd⟩
      (rs.set (rowOf 80) ((rs.getD (rowOf 80) BitSet.default).reset v))
      (cs.set (colOf 80) ((cs.getD (colOf 80) BitSet.default).reset v))
      (bs.set (blkOf 80) ((bs.getD (blkOf 80) BitSet.default).reset v)))
    80 w ⟨80, false⟩ (by omega) hw9
    (by show Grid.getCell ⟨g.cells.set 80 Digit.none⟩ 80 = Digit.none
        rw [hgc1 80, if_pos rfl])
    (by intro j hj hjp hs hv
        show False
        rw [show Grid.getCell ⟨g.cells.set 80 Digit.none⟩ j = g.getCell j from
          by rw [hgc1 j, if_neg hjp]] at hv
        exact hnoconf j hj hjp hs hv)
    hcore1
  have hfill : ∀ i, i < 81 →
      Grid.getCell ⟨(g.cells.set 80 Digit.none).set 80 (Digit.some false w)⟩ i ≠
        Digit.none := by
    intro i hi
    rw [hgc2 i]
    by_cases hip : i = 80
    · rw [if_pos hip]
      exact fun h => Digit.noConfusion h
    · rw [if_neg hip, hgc1 i, if_neg hip]
      exact hbelow i (show i < 80 by omega)
  refine ⟨⟨hcore2, show (80 : Nat) ≤ 80 by omega, fun i hi => hfill i (show i < 81 from
    by have h2 : i < 80 := hi; omega)⟩, ?_, hwf2, complete_of_filled _ hfill,
    hcore2.2.2.2⟩
  refine nu_lt_generic _ _ 80 (by omega) hwf hwf2 (show (80 : Nat) ≤ 80 by omega) ?_ ?_
  · intro i hi
    rw [eCode_noboost _ ⟨80, false⟩ _ _ _ i (fun h => absurd h.1 (show ¬(80 < i) by omega)),
      eCode_noboost g ⟨80, fwd⟩ rs cs bs i (fun h => absurd h.1 (show ¬(80 < i) by omega)),
      hgc2 i, if_neg (show i ≠ 80 by omega), hgc1 i, if_neg (show i ≠ 80 by omega)]
  · rw [eCode_noboost g ⟨80, fwd⟩ rs cs bs 80 (fun h => absurd h.1 (show ¬(80 < 80) by omega)),
      eCode_noboost _ ⟨80, false⟩ _ _ _ 80 (fun h => absurd h.1 (show ¬(80 < 80) by omega)),
      hgc2 80, if_pos rfl, hd]
    show v + 1 + 1 ≤ w + 1
    omega

/-- One loop iteration from an invariant state: a continuing step
keeps the invariant and strictly decreases the measure; an emission
keeps both and produces a complete conflict-free grid (the successor
state's working grid); exhaustion keeps the invariant. -/
theorem step_preserve (s : Solver) (hinv : SInv s) :
    (∀ s2, s.step = StepRes.cont s2 → SInv s2 ∧ nuMeasure s2 < nuMeasure s) ∧
    (∀ s2 gg, s.step = StepRes.emit s2 gg → SInv s2 ∧ nuMeasure s2 < nuMeasure s ∧
      gg = s2.grid ∧ Grid.wfB gg = true ∧ Grid.complete gg = true ∧ Grid.housesOk gg) ∧
    (∀ s2, s.step = StepRes.done s2 → SInv s2) := by
  obtain ⟨g, ⟨p, fwd⟩, rs, cs, bs⟩ := s
  have hp80 : p ≤ 80 := hinv.2.1
  have hwf : Grid.wfB g = true := hinv.1.1
  have hsw : Solver.statesWF ⟨g, ⟨p, fwd⟩, rs, cs, bs⟩ := hinv.1.2.1
  have hcorr : corresponds ⟨g, ⟨p, fwd⟩, rs, cs, bs⟩ 81 := hinv.1.2.2.1
  rcases hd : g.getCell p with _ | ⟨b, v⟩
  · -- the cursor cell is empty
    have hfree : isFreeB (g.getCell p) = true := by rw [hd]; rfl
    rw [step_free_eq g p fwd rs cs bs hfree]
    dsimp only
    rw [hd]
    dsimp only
    rcases hni : next_index Digit.none
        (Solver.takenAt ⟨g, ⟨p, fwd⟩, rs, cs, bs⟩ (rowOf p) (colOf p) (blkOf p)) with _ | w
    · dsimp only
      by_cases hp0 : p = 0
      · subst hp0
        rw [if_pos rfl]
        refine ⟨fun s2 h => StepRes.noConfusion h, fun s2 gg h => StepRes.noConfusion h, ?_⟩
        intro s2 h
        cases h
        exact trans_done_empty g fwd rs cs bs hinv
      · rw [if_neg hp0]
        refine ⟨?_, fun s2 gg h => StepRes.noConfusion h, fun s2 h => StepRes.noConfusion h⟩
        intro s2 h
        cases h
        exact trans_pop_empty g p fwd rs cs bs hd hp0 hinv
    · dsimp only
      have hfacts := next_index_some_facts _ _ w hni
      have hw9 : w < 9 := hfacts.1
      have hnoc := noconf_of_taken ⟨g, ⟨p, fwd⟩, rs, cs, bs⟩ p w (by omega) hw9 hsw hcorr
        hfacts.2.1
      by_cases hp80e : p = 80
      · subst hp80e
        rw [if_pos rfl, place_then_cursor, placeDigit_grid]
        dsimp only
        refine ⟨fun s2 h => StepRes.noConfusion h, ?_, fun s2 h => StepRes.noConfusion h⟩
        intro s2 gg h
        cases h
        obtain ⟨h1, h2, h3, h4, h5⟩ := trans_emit_empty g fwd rs cs bs w hd hw9 hnoc hinv
        exact ⟨h1, h2, rfl, h3, h4, h5⟩
      · rw [if_neg hp80e, place_then_cursor]
        dsimp only
        refine ⟨?_, fun s2 gg h => StepRes.noConfusion h, fun s2 h => StepRes.noConfusion h⟩
        intro s2 h
        cases h
        exact trans_commit_empty g p fwd rs cs bs w hd hp80e (by omega) hw9 hnoc hinv
  · rcases b
    · -- the cursor cell holds a retractable guess
      have hfree : isFreeB (g.getCell p) = true := by rw [hd]; rfl
      rw [step_free_eq g p fwd rs cs bs hfree]
      dsimp only
      rw [hd]
      dsimp only
      rcases hni : next_index (Digit.some false v)
          (Solver.takenAt ⟨g, ⟨p, fwd⟩, rs, cs, bs⟩ (rowOf p) (colOf p) (blkOf p)) with _ | w
      · dsimp only
        rw [remove_then_cursor, remove_then_cursor]
        dsimp only
        by_cases hp0 : p = 0
        · subst hp0
          rw [if_pos rfl]
          refine ⟨fun s2 h => StepRes.noConfusion h, fun s2 gg h => StepRes.noConfusion h, ?_⟩
          intro s2 h
          cases h
          exact trans_done_guess g fwd rs cs bs v hd hinv
        · rw [if_neg hp0]
          refine ⟨?_, fun s2 gg h => StepRes.noConfusion h, fun s2 h => StepRes.noConfusion h⟩
          intro s2 h
          cases h
          exact trans_pop_guess g p fwd rs cs bs v hd hp0 hinv
      · dsimp only
        have hfacts := next_index_some_facts _ _ w hni
        have hw9 : w < 9 := hfacts.1
        have hvw : v < w := hfacts.2.2 false v rfl
        have hnoc := noconf_of_taken ⟨g, ⟨p, fwd⟩, rs, cs, bs⟩ p w (by omega) hw9 hsw hcorr
          hfacts.2.1
        rw [removeDigit_eq]
        dsimp only
        by_cases hp80e : p = 80
        · subst hp80e
          rw [if_pos rfl, place_then_cursor, placeDigit_grid]
          dsimp only
          refine ⟨fun s2 h => StepRes.noConfusion h, ?_, fun s2 h => StepRes.noConfusion h⟩
          intro s2 gg h
          cases h
          obtain ⟨h1, h2, h3, h4, h5⟩ :=
            trans_emit_guess g fwd rs cs bs v w hd hw9 hvw (fun j hj hjp hs => hnoc j hj hs)
              hinv
          exact ⟨h1, h2, rfl, h3, h4, h5⟩
        · rw [if_neg hp80e, place_then_cursor]
          dsimp only
          refine ⟨?_, fun s2 gg h => StepRes.noConfusion h, fun s2 h => StepRes.noConfusion h⟩
          intro s2 h
          cases h
          exact trans_commit_guess g p fwd rs cs bs v w hd hp80e (by omega) hw9 hvw
            (fun j hj hjp hs => hnoc j hj hs) hinv
    · -- the cursor cell is a given: skip in the current direction
      rcases fwd
      · by_cases hp0 : p = 0
        · subst hp0
          rw [step_given_bwd0 g rs cs bs v hd]
          refine ⟨fun s2 h => StepRes.noConfusion h, fun s2 gg h => StepRes.noConfusion h, ?_⟩
          intro s2 h
          cases h
          exact trans_given_done g rs cs bs v hd hinv
        · rw [step_given_bwd g p rs cs bs v hd hp0]
          refine ⟨?_, fun s2 gg h => StepRes.noConfusion h, fun s2 h => StepRes.noConfusion h⟩
          intro s2 h
          cases h
          exact trans_given_bwd g p rs cs bs v hd hp0 hinv
      · by_cases hp80e : p = 80
        · subst hp80e
          rw [step_given_fwd80 g rs cs bs v hd]
          refine ⟨fun s2 h => StepRes.noConfusion h, ?_, fun s2 h => StepRes.noConfusion h⟩
          intro s2 gg h
          cases h
          obtain ⟨h1, h2, h3, h4, h5⟩ := trans_given_emit g rs cs bs v hd hinv
          exact ⟨h1, h2, rfl, h3, h4, h5⟩
        · rw [step_given_fwd g p rs cs bs v hd hp80e]
          refine ⟨?_, fun s2 gg h => StepRes.noConfusion h, fun s2 h => StepRes.noConfusion h⟩
          intro s2 h
          cases h
          exact trans_given_fwd g p rs cs bs v true hd hp80e hinv

/-! ## Driver lemmas: invariant at the start, along reachability, and
fueled termination -/

/-- Successful construction establishes the loop invariant. -/
theorem solve_SInv (g : Grid) (s0 : Solver) (hwf : Grid.wfB g = true)
    (hs : Grid.solve g = Except.ok s0) : SInv s0 := by
  have hspec := tryFromAux_spec 81 0 (Solver.new g) (by omega) hwf (new_statesWF g)
    (new_corresponds g) (fun i j hi => by omega)
  have hrw : Grid.solve g = tryFromAux (Solver.new g) (List.range' 0 81) := by
    unfold Grid.solve Solver.tryFrom
    rw [List.range_eq_range']
  rw [hrw] at hs
  obtain ⟨hg, hcur, hst, hcorr, hok⟩ := hspec.2 s0 hs
  refine ⟨⟨by rw [hg]; exact hwf, hst, hcorr, hok⟩, ?_, ?_⟩
  · rw [hcur]
    show (0 : Nat) ≤ 80
    omega
  · intro i hi
    rw [hcur] at hi
    have hi0 : i < 0 := hi
    omega

theorem SInv_advance (s : Solver) (h : SInv s) : SInv s.advance := by
  have hp := step_preserve s h
  unfold Solver.advance
  rcases hst : s.step with s2 | ⟨s2, gg⟩ | s2 <;> dsimp only
  · exact (hp.1 s2 hst).1
  · exact (hp.2.1 s2 gg hst).1
  · exact hp.2.2 s2 hst

theorem SInv_advanceN : ∀ (n : Nat) (s : Solver), SInv s → SInv (advanceN n s)
  | 0, _, h => h
  | n + 1, s, h => SInv_advanceN n s.advance (SInv_advance s h)

/-- The loop invariant holds at every reachable state. -/
theorem SInv_reach (s0 s : Solver) (h0 : SInv s0) (hr : SReach s0 s) : SInv s := by
  obtain ⟨n, hn⟩ := hr
  rw [← hn]
  exact SInv_advanceN n s0 h0

theorem nextF_succ (f : Nat) (s : Solver) :
    nextF (f + 1) s =
      match s.step with
      | StepRes.cont s2 => nextF f s2
      | StepRes.emit s2 g => Option.some (Option.some g, s2)
      | StepRes.done s2 => Option.some (Option.none, s2) := rfl

theorem enumF_succ (f : Nat) (s : Solver) :
    enumF (f + 1) s =
      match s.step with
      | StepRes.cont s2 => enumF f s2
      | StepRes.emit s2 g =>
        (match enumF f s2 with
         | Option.none => Option.none
         | Option.some gs => Option.some (g :: gs))
      | StepRes.done _ => Option.some [] := rfl

/-- With fuel one past the measure, a call of `Solver::next` finishes:
it reaches an emission or exhaustion, the invariant survives, and any
emitted grid is the successor's working grid, complete and
conflict-free. -/
theorem nextF_term : ∀ (N : Nat) (s : Solver), SInv s → nuMeasure s ≤ N →
    ∃ og s2, nextF (N + 1) s = Option.some (og, s2) ∧ SInv s2 ∧
      (∀ gg, og = Option.some gg → gg = s2.grid ∧ Grid.wfB gg = true ∧
        Grid.complete gg = true ∧ Grid.housesOk gg) := by
  intro N
  induction N with
  | zero =>
    intro s hs hnu
    have hp := step_preserve s hs
    rw [nextF_succ]
    rcases hst : s.step with s2 | ⟨s2, gg⟩ | s2 <;> dsimp only
    · exact absurd (Nat.lt_of_lt_of_le (hp.1 s2 hst).2 hnu) (Nat.not_lt_zero _)
    · obtain ⟨h1, _, h3, h4, h5, h6⟩ := hp.2.1 s2 gg hst
      exact ⟨Option.some gg, s2, rfl, h1, fun gg2 hg => by cases hg; exact ⟨h3, h4, h5, h6⟩⟩
    · exact ⟨Option.none, s2, rfl, hp.2.2 s2 hst, fun gg2 hg => Option.noConfusion hg⟩
  | succ N ih =>
    intro s hs hnu
    have hp := step_preserve s hs
    rw [nextF_succ]
    rcases hst : s.step with s2 | ⟨s2, gg⟩ | s2 <;> dsimp only
    · obtain ⟨h1, h2⟩ := hp.1 s2 hst
      exact ih s2 h1 (by omega)
    · obtain ⟨h1, _, h3, h4, h5, h6⟩ := hp.2.1 s2 gg hst
      exact ⟨Option.some gg, s2, rfl, h1, fun gg2 hg => by cases hg; exact ⟨h3, h4, h5, h6⟩⟩
    · exact ⟨Option.none, s2, rfl, hp.2.2 s2 hst, fun gg2 hg => Option.noConfusion hg⟩

/-- With fuel one past the measure, the whole enumeration finishes. -/
theorem enumF_term : ∀ (N : Nat) (s : Solver), SInv s → nuMeasure s ≤ N →
    ∃ gs, enumF (N + 1) s = Option.some gs := by
  intro N
  induction N with
  | zero =>
    intro s hs hnu
    have hp := step_preserve s hs
    rw [enumF_succ]
    rcases hst : s.step with s2 | ⟨s2, gg⟩ | s2 <;> dsimp only
    · exact absurd (Nat.lt_of_lt_of_le (hp.1 s2 hst).2 hnu) (Nat.not_lt_zero _)
    · exact absurd (Nat.lt_of_lt_of_le (hp.2.1 s2 gg hst).2.1 hnu) (Nat.not_lt_zero _)
    · exact ⟨[], rfl⟩
  | succ N ih =>
    intro s hs hnu
    have hp := step_preserve s hs
    rw [enumF_succ]
    rcases hst : s.step with s2 | ⟨s2, gg⟩ | s2 <;> dsimp only
    · obtain ⟨h1, h2⟩ := hp.1 s2 hst
      exact ih s2 h1 (by omega)
    · obtain ⟨h1, h2⟩ := (hp.2.1 s2 gg hst).1, (hp.2.1 s2 gg hst).2.1
      obtain ⟨gs, hgs⟩ := ih s2 h1 (by omega)
      exact ⟨gg :: gs, by rw [hgs]⟩
    · exact ⟨[], rfl⟩

/-! ## From pairwise distinctness to exact counts per house -/

theorem nodup_all_eq (xs : List Nat) (a : Nat) (hnd : xs.Nodup) (hmem : a ∈ xs)
    (hall : ∀ b ∈ xs, b = a) : xs.length = 1 := by
  rcases xs with _ | ⟨x, rest⟩
  · simp at hmem
  · have hx : x = a := hall x (by simp)
    subst hx
    rcases rest with _ | ⟨y, rest2⟩
    · rfl
    · have hy : y = x := hall y (by simp)
      rw [List.nodup_cons] at hnd
      have hxmem : x ∈ y :: rest2 := by
        rw [hy]
        exact List.mem_cons_self x rest2
      exact absurd hxmem hnd.1

theorem filter_len_one (l : List Nat) (q : Nat → Bool) (hnd : l.Nodup) (a : Nat)
    (ha : a ∈ l) (hqa : q a = true) (huniq : ∀ b ∈ l, q b = true → b = a) :
    (l.filter q).length = 1 := by
  refine nodup_all_eq (l.filter q) a (hnd.filter q) ?_ ?_
  · exact List.mem_filter.mpr ⟨ha, hqa⟩
  · intro b hb
    have hb2 := List.mem_filter.mp hb
    exact huniq b hb2.1 hb2.2

/-- A function from `0..9` to `0..9` that is injective is surjective. -/
theorem exists_of_inj (f : Nat → Nat) (hlt : ∀ i, i < 9 → f i < 9)
    (hinj : ∀ i j, i < 9 → j < 9 → i ≠ j → f i ≠ f j) :
    ∀ v, v < 9 → ∃ i, i < 9 ∧ f i = v := by
  intro v hv
  have hsurj := Finset.surj_on_of_inj_on_of_card_le
    (fun (a : Nat) (_ : a ∈ Finset.range 9) => f a)
    (fun a ha => Finset.mem_range.mpr (hlt a (Finset.mem_range.mp ha)))
    (fun a1 a2 ha1 ha2 he => by
      by_contra hne
      exact hinj a1 a2 (Finset.mem_range.mp ha1) (Finset.mem_range.mp ha2) hne he)
    (le_refl (Finset.range 9).card)
  obtain ⟨i, hi, he⟩ := hsurj v (Finset.mem_range.mpr hv)
  exact ⟨i, Finset.mem_range.mp hi, he.symm⟩

/-- A complete well-formed grid with no house conflict has each value
exactly once in every row, column and block. -/
theorem housesOk_houseExact (g : Grid) (hwf : Grid.wfB g = true)
    (hcomp : Grid.complete g = true) (hok : Grid.housesOk g) :
    Grid.houseExact g = true := by
  have hval : ∀ i, i < 81 → valOf (g.getCell i) =
      Option.some ((valOf (g.getCell i)).getD 0) ∧ (valOf (g.getCell i)).getD 0 < 9 := by
    intro i hi
    have hcwf := grid_wf_cell g hwf i
    have hcc : (valOf (g.getCell i)).isSome = true := by
      unfold Grid.complete at hcomp
      rw [List.all_eq_true] at hcomp
      exact hcomp i (List.mem_range.mpr hi)
    rcases hc : g.getCell i with _ | ⟨b, v⟩
    · rw [hc] at hcc
      simp [valOf] at hcc
    · rw [hc] at hcwf
      simp only [Digit.wfB, decide_eq_true_eq] at hcwf
      simp [valOf, hcwf]
  unfold Grid.houseExact
  rw [Bool.and_eq_true, Bool.and_eq_true]
  refine ⟨⟨?_, ?_⟩, ?_⟩
  · -- rows
    rw [List.all_eq_true]
    intro r hr
    rw [List.all_eq_true]
    intro v hv
    have hr9 := List.mem_range.mp hr
    have hv9 := List.mem_range.mp hv
    rw [beq_iff_eq]
    have hex := exists_of_inj (fun c => (valOf (g.getCell (r * 9 + c))).getD 0)
      (fun c hc => (hval (r * 9 + c) (by omega)).2)
      (fun c1 c2 hc1 hc2 hne heq => by
        dsimp only at heq
        exact hok (r * 9 + c1) (r * 9 + c2) (by omega) (by omega) (by omega)
          (by simp [sameHouse, rowOf]; omega)
          ((valOf (g.getCell (r * 9 + c1))).getD 0)
          (hval (r * 9 + c1) (by omega)).1 (by rw [heq]; exact (hval (r * 9 + c2) (by omega)).1))
      v hv9
    obtain ⟨c0, hc0, he0⟩ := hex
    dsimp only at he0
    refine filter_len_one _ _ (List.nodup_range 9) c0 (List.mem_range.mpr hc0) ?_ ?_
    · rw [beq_iff_eq, (hval (r * 9 + c0) (by omega)).1, he0]
    · intro c hc hqc
      have hc9 := List.mem_range.mp hc
      rw [beq_iff_eq] at hqc
      by_contra hne
      exact hok (r * 9 + c) (r * 9 + c0) (by omega) (by omega) (by omega)
        (by simp [sameHouse, rowOf]; omega) v hqc
        (by rw [(hval (r * 9 + c0) (by omega)).1, he0])
  · -- columns
    rw [List.all_eq_true]
    intro c hc
    rw [List.all_eq_true]
    intro v hv
    have hc9 := List.mem_range.mp hc
    have hv9 := List.mem_range.mp hv
    rw [beq_iff_eq]
    have hex := exists_of_inj (fun r => (valOf (g.getCell (r * 9 + c))).getD 0)
      (fun r hr => (hval (r * 9 + c) (by omega)).2)
      (fun r1 r2 hr1 hr2 hne heq => by
        dsimp only at heq
        exact hok (r1 * 9 + c) (r2 * 9 + c) (by omega) (by omega) (by omega)
          (by simp [sameHouse, colOf]; omega)
          ((valOf (g.getCell (r1 * 9 + c))).getD 0)
          (hval (r1 * 9 + c) (by omega)).1 (by rw [heq]; exact (hval (r2 * 9 + c) (by omega)).1))
      v hv9
    obtain ⟨r0, hr0, he0⟩ := hex
    dsimp only at he0
    refine filter_len_one _ _ (List.nodup_range 9) r0 (List.mem_range.mpr hr0) ?_ ?_
    · rw [beq_iff_eq, (hval (r0 * 9 + c) (by omega)).1, he0]
    · intro r hr hqr
      have hr9 := List.mem_range.mp hr
      rw [beq_iff_eq] at hqr
      by_contra hne
      exact hok (r * 9 + c) (r0 * 9 + c) (by omega) (by omega) (by omega)
        (by simp [sameHouse, colOf]; omega) v hqr
        (by rw [(hval (r0 * 9 + c) (by omega)).1, he0])
  · -- blocks
    rw [List.all_eq_true]
    intro b hb
    rw [List.all_eq_true]
    intro v hv
    have hb9 := List.mem_range.mp hb
    have hv9 := List.mem_range.mp hv
    rw [beq_iff_eq]
    have hex := exists_of_inj
      (fun k => (valOf (g.getCell ((b / 3 * 3 + k / 3) * 9 + (b % 3 * 3 + k % 3)))).getD 0)
      (fun k hk =>
        (hval ((b / 3 * 3 + k / 3) * 9 + (b % 3 * 3 + k % 3)) (by omega)).2)
      (fun k1 k2 hk1 hk2 hne heq => by
        dsimp only at heq
        exact hok ((b / 3 * 3 + k1 / 3) * 9 + (b % 3 * 3 + k1 % 3))
          ((b / 3 * 3 + k2 / 3) * 9 + (b % 3 * 3 + k2 % 3)) (by omega) (by omega) (by omega)
          (by simp [sameHouse, blkOf]; omega)
          ((valOf (g.getCell ((b / 3 * 3 + k1 / 3) * 9 + (b % 3 * 3 + k1 % 3)))).getD 0)
          (hval _ (by omega)).1 (by rw [heq]; exact (hval _ (by omega)).1))
      v hv9
    obtain ⟨k0, hk0, he0⟩ := hex
    dsimp only at he0
    have hidx : (b / 3 * 3 + k0 / 3) * 9 + (b % 3 * 3 + k0 % 3) < 81 := by omega
    have hblk : blkOf ((b / 3 * 3 + k0 / 3) * 9 + (b % 3 * 3 + k0 % 3)) = b := by
      unfold blkOf
      omega
    refine filter_len_one _ _ (List.Nodup.filter _ (List.nodup_range 81))
      ((b / 3 * 3 + k0 / 3) * 9 + (b % 3 * 3 + k0 % 3)) ?_ ?_ ?_
    · rw [List.mem_filter]
      exact ⟨List.mem_range.mpr hidx, by rw [beq_iff_eq]; exact hblk⟩
    · rw [beq_iff_eq, (hval _ hidx).1, he0]
    · intro j hj hqj
      have hj2 := List.mem_filter.mp hj
      have hj81 := List.mem_range.mp hj2.1
      have hjb : blkOf j = b := by
        have := hj2.2
        rwa [beq_iff_eq] at this
      rw [beq_iff_eq] at hqj
      by_contra hne
      exact hok j ((b / 3 * 3 + k0 / 3) * 9 + (b % 3 * 3 + k0 % 3)) hj81 hidx hne
        (by simp [sameHouse]
            refine Or.inr ?_
            rw [hjb, hblk])
        v hqj (by rw [(hval _ hidx).1, he0])

/-- Whatever the fuel, a successful `next` call from an invariant
state keeps the invariant, and an emitted grid is the successor's
working grid, complete and conflict-free. -/
theorem nextF_sound : ∀ (f : Nat) (s : Solver), SInv s → ∀ og s2,
    nextF f s = Option.some (og, s2) → SInv s2 ∧
      (∀ gg, og = Option.some gg → gg = s2.grid ∧ Grid.wfB gg = true ∧
        Grid.complete gg = true ∧ Grid.housesOk gg) := by
  intro f
  induction f with
  | zero =>
    intro s hs og s2 h
    exact Option.noConfusion h
  | succ f ih =>
    intro s hs og s2 h
    have hp := step_preserve s hs
    rw [nextF_succ] at h
    rcases hst : s.step with s3 | ⟨s3, gg⟩ | s3 <;> rw [hst] at h <;> dsimp only at h
    · exact ih s3 (hp.1 s3 hst).1 og s2 h
    · obtain ⟨h1, _, h3, h4, h5, h6⟩ := hp.2.1 s3 gg hst
      cases h
      exact ⟨h1, fun gg2 hg => by cases hg; exact ⟨h3, h4, h5, h6⟩⟩
    · cases h
      exact ⟨hp.2.2 _ hst, fun gg2 hg => Option.noConfusion hg⟩

/-- Claim C1: every grid emitted by a `next` call of a solver built
from a validated grid — from any state the enumeration can have
reached — has no empty cell, and every row, column and block contains
each of the nine values exactly once. -/
theorem claim_C1_soundness (g0 : Grid) (s0 : Solver) (hwf : Grid.wfB g0 = true)
    (hs : Grid.solve g0 = Except.ok s0) (s : Solver) (hr : SReach s0 s) (f : Nat) (gg : Grid)
    (he : (nextF f s).map Prod.fst = Option.some (Option.some gg)) :
    Grid.complete gg = true ∧ Grid.houseExact gg = true := by
  have hsi := SInv_reach s0 s (solve_SInv g0 s0 hwf hs) hr
  rcases hn : nextF f s with _ | ⟨og, s2⟩
  · rw [hn] at he
    exact Option.noConfusion he
  · rw [hn] at he
    have hog : og = Option.some gg := Option.some.inj he
    obtain ⟨h1, h2⟩ := nextF_sound f s hsi og s2 hn
    obtain ⟨h3, h4, h5, h6⟩ := h2 gg hog
    exact ⟨h5, housesOk_houseExact gg h4 h5 h6⟩

theorem claim_C1_soundness_witness :
    Grid.solve wSolved = Except.ok wSolvedSolver ∧
      Grid.complete wSolved = true ∧ Grid.houseExact wSolved = true :=
  ⟨by rfl, claim_C1_soundness wSolved wSolvedSolver (by decide) (by rfl) wSolvedSolver
    ⟨0, rfl⟩ 82 wSolved (by rfl)⟩

/-- Claim C4: for every validated starting grid the enumeration
terminates: some finite fuel completes the whole run (finitely many
emissions followed by `None`), and each individual `next` call from
any reachable state finishes within some finite fuel. -/
theorem claim_C4_termination (g0 : Grid) (s0 : Solver) (hwf : Grid.wfB g0 = true)
    (hs : Grid.solve g0 = Except.ok s0) :
    (∃ fuel gs, enumF fuel s0 = Option.some gs) ∧
    (∀ s, SReach s0 s → ∃ f r, nextF f s = Option.some r) := by
  have h0 := solve_SInv g0 s0 hwf hs
  constructor
  · obtain ⟨gs, hgs⟩ := enumF_term (nuMeasure s0) s0 h0 (le_refl _)
    exact ⟨nuMeasure s0 + 1, gs, hgs⟩
  · intro s hr
    have hsi := SInv_reach s0 s h0 hr
    obtain ⟨og, s2, h, _, _⟩ := nextF_term (nuMeasure s) s hsi (le_refl _)
    exact ⟨nuMeasure s + 1, (og, s2), h⟩

theorem claim_C4_termination_witness :
    Grid.wfB Grid.default = true ∧
      ((∃ fuel gs, enumF fuel (unwrapSolver (Grid.solve Grid.default)) = Option.some gs) ∧
       (∀ s, SReach (unwrapSolver (Grid.solve Grid.default)) s →
         ∃ f r, nextF f s = Option.some r)) :=
  ⟨by decide, claim_C4_termination Grid.default (unwrapSolver (Grid.solve Grid.default))
    (by decide) (by rfl)⟩

/-! ## Completeness: small structural lemmas -/

theorem code_eq_of_valOf (a b : Digit) (h : valOf a = valOf b) : code a = code b := by
  rcases a with _ | ⟨ba, va⟩ <;> rcases b with _ | ⟨bb, vb⟩
  · rfl
  · exact absurd h (by simp [valOf])
  · exact absurd h (by simp [valOf])
  · simp only [valOf, Option.some.injEq] at h
    simp [code, h]

theorem valEqP_refl (a : Grid) : valEqP a a := fun i hi => rfl

theorem agreeBelow_mono (g0 gr h : Grid) (a b : Nat) (hab : a ≤ b)
    (hb : agreeBelow g0 gr h b) : agreeBelow g0 gr h a :=
  fun k hk hf => hb k (by omega) hf

theorem agreeBelow_set (g0 gr h : Grid) (hlen : gr.cells.length = 81) (p : Nat) (hp : p < 81)
    (x : Digit) (j : Nat) (hj : j ≤ p) :
    agreeBelow g0 ⟨gr.cells.set p x⟩ h j ↔ agreeBelow g0 gr h j := by
  have hgc := getCell_set gr hlen p hp x
  constructor <;> intro ha k hk hf
  · have hk2 := ha k hk hf
    rwa [hgc k, if_neg (show k ≠ p by omega)] at hk2
  · rw [hgc k, if_neg (show k ≠ p by omega)]
    exact ha k hk hf

theorem excessAt_set (g0 gr h : Grid) (hlen : gr.cells.length = 81) (p : Nat) (hp : p < 81)
    (x : Digit) (j : Nat) (hj : j < p) :
    excessAt g0 ⟨gr.cells.set p x⟩ h j ↔ excessAt g0 gr h j := by
  have hgc := getCell_set gr hlen p hp x
  unfold excessAt
  rw [agreeBelow_set g0 gr h hlen p hp x j (by omega), hgc j,
    if_neg (show j ≠ p by omega)]

theorem sol_val (g0 h : Grid) (hsol : IsSolutionOf g0 h) (i : Nat) (hi : i < 81) :
    ∃ w, w < 9 ∧ valOf (h.getCell i) = Option.some w := by
  obtain ⟨hwf, hcomp, _, _⟩ := hsol
  have hcwf := grid_wf_cell h hwf i
  have hcc : (valOf (h.getCell i)).isSome = true := by
    unfold Grid.complete at hcomp
    rw [List.all_eq_true] at hcomp
    exact hcomp i (List.mem_range.mpr hi)
  rcases hc : h.getCell i with _ | ⟨b, v⟩
  · rw [hc] at hcc
    simp [valOf] at hcc
  · rw [hc] at hcwf
    simp only [Digit.wfB, decide_eq_true_eq] at hcwf
    exact ⟨v, hcwf, rfl⟩

/-- `next_index` returns the least legal candidate. -/
theorem next_index_le (d : Digit) (t : BitSet) (w0 : Nat)
    (hni : next_index d t = Option.some w0) (w : Nat) (hcand : isCandidate d t w = true) :
    w0 ≤ w := by
  rw [next_index_eq_find] at hni
  have hf := (find_range_some (isCandidate d t) 9 w0).mp hni
  by_contra hlt
  have hfw := hf.2.2 w (by omega)
  rw [hcand] at hfw
  exact Bool.noConfusion hfw

/-- If a candidate solution matches the search prefix, its value at
the cursor cell is not in the house union: the committed cells carry
the candidate's own values, givens included, and those cannot clash
with it. -/
theorem cand_false (g0 : Grid) (s : Solver) (h : Grid) (p w : Nat) (hp : p < 81)
    (hw9 : w < 9) (hsw : s.statesWF) (hcorr : corresponds s 81)
    (hsol : IsSolutionOf g0 h)
    (hgiven : ∀ i, i < 81 → g0.getCell i ≠ Digit.none → s.grid.getCell i = g0.getCell i)
    (hup : ∀ i, i < 81 → g0.getCell i = Digit.none → p < i → s.grid.getCell i = Digit.none)
    (hagree : agreeBelow g0 s.grid h p)
    (hhw : valOf (h.getCell p) = Option.some w)
    (hself : ∀ u, valOf (s.grid.getCell p) = Option.some u → u < w) :
    (s.takenAt (rowOf p) (colOf p) (blkOf p)).contains w = false := by
  by_contra hcon
  rw [Bool.not_eq_false] at hcon
  obtain ⟨j, hj81, hsame, hjval⟩ := (taken_iff_conflict s p 81 w hp hw9 hsw hcorr).mp hcon
  have hokh := hsol.2.2.1
  by_cases hjp : j = p
  · subst hjp
    exact absurd (hself w hjval) (lt_irrefl w)
  · by_cases hfj : g0.getCell j = Digit.none
    · rcases Nat.lt_or_ge j p with hlt | hge
      · have hhj : valOf (h.getCell j) = valOf (s.grid.getCell j) := hagree j hlt hfj
        rw [hjval] at hhj
        exact hokh j p hj81 hp hjp hsame w hhj hhw
      · rw [hup j hj81 hfj (by omega)] at hjval
        simp [valOf] at hjval
    · have hgj := hgiven j hj81 hfj
      rw [hgj] at hjval
      have hhj : valOf (h.getCell j) = valOf (g0.getCell j) :=
        hsol.2.2.2 j hj81 (by rw [hjval]; exact fun hx => Option.noConfusion hx)
      rw [hjval] at hhj
      exact hokh j p hj81 hp hjp hsame w hhj hhw

theorem housesOkB_ok (g : Grid) (hb : housesOkB g = true) : Grid.housesOk g := by
  intro i j hi hj hne hsame v hvi hvj
  unfold housesOkB at hb
  rw [List.all_eq_true] at hb
  have h1 := hb i (List.mem_range.mpr hi)
  rw [List.all_eq_true] at h1
  have h2 := h1 j (List.mem_range.mpr hj)
  have hc : (decide (i ≠ j) && sameHouse i j && (valOf (g.getCell i)).isSome &&
      (valOf (g.getCell i) == valOf (g.getCell j))) = true := by
    rw [hvi, hvj]
    simp [hne, hsame]
  rw [hc] at h2
  exact Bool.noConfusion h2

/-- Counterexample to claim C2: the fully guessed solved test grid is
accepted by `solve`, is a solution of itself, yet the enumeration ends
immediately with no emission — the solver treats the pre-filled
non-given cells as retractable state it has already enumerated past. -/
theorem claim_C2_cex :
    Grid.solve wGuessed = Except.ok wGuessedSolver ∧
      enumF 1 wGuessedSolver = Option.some [] ∧
      IsSolutionOf wGuessed wGuessed := by
  refine ⟨by rfl, by rfl, by decide, by decide, housesOkB_ok wGuessed (by decide), ?_⟩
  intro i hi hne
  rfl

theorem pendBound_fwd (g : Grid) (idx : Nat) (rs cs bs : List BitSet) :
    pendBound ⟨g, ⟨idx, true⟩, rs, cs, bs⟩ = idx := rfl

theorem pendBound_bwd (g : Grid) (idx : Nat) (rs cs bs : List BitSet) :
    pendBound ⟨g, ⟨idx, false⟩, rs, cs, bs⟩ = idx + 1 := rfl

theorem pending_fwd_iff (g0 g h : Grid) (idx : Nat) (rs cs bs : List BitSet) :
    pending g0 ⟨g, ⟨idx, true⟩, rs, cs, bs⟩ h ↔
      (agreeBelow g0 g h idx ∨ ∃ j, j < idx ∧ excessAt g0 g h j) := by
  unfold pending
  rw [pendBound_fwd]
  constructor
  · rintro (⟨-, ha⟩ | hex)
    · exact Or.inl ha
    · exact Or.inr hex
  · rintro (ha | hex)
    · exact Or.inl ⟨rfl, ha⟩
    · exact Or.inr hex

theorem pending_bwd_iff (g0 g h : Grid) (idx : Nat) (rs cs bs : List BitSet) :
    pending g0 ⟨g, ⟨idx, false⟩, rs, cs, bs⟩ h ↔
      ∃ j, j < idx + 1 ∧ excessAt g0 g h j := by
  unfold pending
  rw [pendBound_bwd]
  constructor
  · rintro (⟨hf, -⟩ | hex)
    · exact Bool.noConfusion hf
    · exact hex
  · exact fun hex => Or.inr hex

/-- Skipping over a non-free cell moves the matching bound without
changing the candidates ahead. -/
theorem shift_notfree (g0 g h : Grid) (p : Nat) (hngf : g0.getCell p ≠ Digit.none) :
    (agreeBelow g0 g h (p + 1) ↔ agreeBelow g0 g h p) ∧
    ((∃ j, j < p + 1 ∧ excessAt g0 g h j) ↔ (∃ j, j < p ∧ excessAt g0 g h j)) := by
  constructor
  · constructor
    · exact agreeBelow_mono g0 g h p (p + 1) (by omega)
    · intro ha k hk hf
      by_cases hkp : k = p
      · subst hkp
        exact absurd hf hngf
      · exact ha k (by omega) hf
  · constructor
    · rintro ⟨j, hj, hex⟩
      rcases Nat.lt_or_ge j p with h1 | h1
      · exact ⟨j, h1, hex⟩
      · have hjp : j = p := by omega
        subst hjp
        exact absurd hex.1 hngf
    · rintro ⟨j, hj, hex⟩
      exact ⟨j, by omega, hex⟩

/-- In a grid with no guessed cell, each cell is empty or a given. -/
theorem noGuess_char (g0 : Grid) (hng : Grid.noGuessB g0 = true) (p : Nat) (hp : p < 81) :
    g0.getCell p = Digit.none ∨ ∃ u, g0.getCell p = Digit.some true u := by
  unfold Grid.noGuessB at hng
  rw [List.all_eq_true] at hng
  have hm := hng p (List.mem_range.mpr hp)
  rcases hc : g0.getCell p with _ | ⟨b, u⟩
  · exact Or.inl rfl
  · rcases b
    · rw [hc] at hm
      exact Bool.noConfusion hm
    · exact Or.inr ⟨u, rfl⟩

theorem code_of_val (d : Digit) (w : Nat) (h : valOf d = Option.some w) : code d = w + 1 := by
  rcases d with _ | ⟨b, v⟩
  · simp [valOf] at h
  · simp only [valOf, Option.some.injEq] at h
    simp [code, h]

theorem valOf_ne_none (d : Digit) (h : d ≠ Digit.none) : valOf d ≠ Option.none := by
  rcases d with _ | ⟨b, v⟩
  · exact absurd rfl h
  · simp [valOf]

/-- A candidate matching all free cells agrees with the working grid
everywhere (value-wise), givens included. -/
theorem valEq_of_agree (g0 g h : Grid) (hsol : IsSolutionOf g0 h)
    (hgiven : ∀ i, i < 81 → g0.getCell i ≠ Digit.none → g.getCell i = g0.getCell i)
    (hagree : agreeBelow g0 g h 81) : valEqP g h := by
  intro i hi
  by_cases hf : g0.getCell i = Digit.none
  · exact (hagree i (by omega) hf).symm
  · rw [hgiven i hi hf]
    exact (hsol.2.2.2 i hi (valOf_ne_none _ hf)).symm

/-- The just-emitted grid is no longer pending: a backward cursor only
keeps strict excesses pending, and a value-equal candidate has none. -/
theorem not_pending_bwd_of_valEq (g0 g h : Grid) (idx : Nat) (rs cs bs : List BitSet)
    (hidx : idx ≤ 80) (hv : valEqP g h) :
    ¬ pending g0 ⟨g, ⟨idx, false⟩, rs, cs, bs⟩ h := by
  rw [pending_bwd_iff]
  rintro ⟨j, hj, hfree, hag, hcode⟩
  have hce := code_eq_of_valOf _ _ (hv j (by omega))
  omega

/-- When every value is taken at an empty cursor cell, no solution can
match the committed prefix. -/
theorem pop_empty_no_agree (g0 g h : Grid) (p : Nat) (fwd : Bool) (rs cs bs : List BitSet)
    (hp : p < 81)
    (hsw : Solver.statesWF ⟨g, ⟨p, fwd⟩, rs, cs, bs⟩)
    (hcorr : corresponds ⟨g, ⟨p, fwd⟩, rs, cs, bs⟩ 81)
    (hsol : IsSolutionOf g0 h)
    (hgiven : ∀ i, i < 81 → g0.getCell i ≠ Digit.none → g.getCell i = g0.getCell i)
    (hup : ∀ i, i < 81 → g0.getCell i = Digit.none → p < i → g.getCell i = Digit.none)
    (hcell : g.getCell p = Digit.none)
    (hagree : agreeBelow g0 g h p)
    (hni : next_index Digit.none
      (Solver.takenAt ⟨g, ⟨p, fwd⟩, rs, cs, bs⟩ (rowOf p) (colOf p) (blkOf p)) =
        Option.none) : False := by
  obtain ⟨w, hw9, hhw⟩ := sol_val g0 h hsol p hp
  have hcf := cand_false g0 ⟨g, ⟨p, fwd⟩, rs, cs, bs⟩ h p w hp hw9 hsw hcorr hsol hgiven hup
    hagree hhw (fun u hu => by rw [hcell] at hu; exact absurd hu (by simp [valOf]))
  have hall := next_index_none_facts _ _ hni w
  unfold isCandidate at hall
  rw [hcf] at hall
  simp [hw9] at hall

/-- When no value above the retracted guess fits at the cursor cell,
no solution exceeding the guess can match the prefix below it. -/
theorem pop_guess_no_excess (g0 g h : Grid) (p : Nat) (fwd : Bool) (rs cs bs : List BitSet)
    (v : Nat) (hp : p < 81)
    (hsw : Solver.statesWF ⟨g, ⟨p, fwd⟩, rs, cs, bs⟩)
    (hcorr : corresponds ⟨g, ⟨p, fwd⟩, rs, cs, bs⟩ 81)
    (hsol : IsSolutionOf g0 h)
    (hgiven : ∀ i, i < 81 → g0.getCell i ≠ Digit.none → g.getCell i = g0.getCell i)
    (hup : ∀ i, i < 81 → g0.getCell i = Digit.none → p < i → g.getCell i = Digit.none)
    (hcell : g.getCell p = Digit.some false v)
    (hagree : agreeBelow g0 g h p)
    (hcode : code (g.getCell p) < code (h.getCell p))
    (hni : next_index (Digit.some false v)
      (Solver.takenAt ⟨g, ⟨p, fwd⟩, rs, cs, bs⟩ (rowOf p) (colOf p) (blkOf p)) =
        Option.none) : False := by
  obtain ⟨w, hw9, hhw⟩ := sol_val g0 h hsol p hp
  have hvw : v < w := by
    rw [hcell, code_of_val (h.getCell p) w hhw] at hcode
    simpa [code] using hcode
  have hcf := cand_false g0 ⟨g, ⟨p, fwd⟩, rs, cs, bs⟩ h p w hp hw9 hsw hcorr hsol hgiven hup
    hagree hhw
    (fun u hu => by
      rw [hcell] at hu
      simp only [valOf, Option.some.injEq] at hu
      omega)
  have hall := next_index_none_facts _ _ hni w
  unfold isCandidate at hall
  rw [hcf] at hall
  simp [hw9, hvw] at hall

/-- The committed candidate is at most the matching solution's value
at an empty cursor cell. -/
theorem commit_le_empty (g0 g h : Grid) (p w w0 : Nat) (fwd : Bool)
    (rs cs bs : List BitSet) (hp : p < 81) (hw9 : w < 9)
    (hsw : Solver.statesWF ⟨g, ⟨p, fwd⟩, rs, cs, bs⟩)
    (hcorr : corresponds ⟨g, ⟨p, fwd⟩, rs, cs, bs⟩ 81)
    (hsol : IsSolutionOf g0 h)
    (hgiven : ∀ i, i < 81 → g0.getCell i ≠ Digit.none → g.getCell i = g0.getCell i)
    (hup : ∀ i, i < 81 → g0.getCell i = Digit.none → p < i → g.getCell i = Digit.none)
    (hcell : g.getCell p = Digit.none)
    (hagree : agreeBelow g0 g h p)
    (hhw : valOf (h.getCell p) = Option.some w)
    (hni : next_index Digit.none
      (Solver.takenAt ⟨g, ⟨p, fwd⟩, rs, cs, bs⟩ (rowOf p) (colOf p) (blkOf p)) =
        Option.some w0) : w0 ≤ w := by
  have hcf := cand_false g0 ⟨g, ⟨p, fwd⟩, rs, cs, bs⟩ h p w hp hw9 hsw hcorr hsol hgiven hup
    hagree hhw (fun u hu => by rw [hcell] at hu; exact absurd hu (by simp [valOf]))
  refine next_index_le _ _ w0 hni w ?_
  unfold isCandidate
  rw [hcf]
  simp [hw9]

/-- The committed candidate is at most the matching solution's value
when retrying above a retracted guess it exceeds. -/
theorem commit_le_guess (g0 g h : Grid) (p v w w0 : Nat) (fwd : Bool)
    (rs cs bs : List BitSet) (hp : p < 81) (hw9 : w < 9) (hvw : v < w)
    (hsw : Solver.statesWF ⟨g, ⟨p, fwd⟩, rs, cs, bs⟩)
    (hcorr : corresponds ⟨g, ⟨p, fwd⟩, rs, cs, bs⟩ 81)
    (hsol : IsSolutionOf g0 h)
    (hgiven : ∀ i, i < 81 → g0.getCell i ≠ Digit.none → g.getCell i = g0.getCell i)
    (hup : ∀ i, i < 81 → g0.getCell i = Digit.none → p < i → g.getCell i = Digit.none)
    (hcell : g.getCell p = Digit.some false v)
    (hagree : agreeBelow g0 g h p)
    (hhw : valOf (h.getCell p) = Option.some w)
    (hni : next_index (Digit.some false v)
      (Solver.takenAt ⟨g, ⟨p, fwd⟩, rs, cs, bs⟩ (rowOf p) (colOf p) (blkOf p)) =
        Option.some w0) : w0 ≤ w := by
  have hcf := cand_false g0 ⟨g, ⟨p, fwd⟩, rs, cs, bs⟩ h p w hp hw9 hsw hcorr hsol hgiven hup
    hagree hhw
    (fun u hu => by
      rw [hcell] at hu
      simp only [valOf, Option.some.injEq] at hu
      omega)
  refine next_index_le _ _ w0 hni w ?_
  unfold isCandidate
  rw [hcf]
  simp [hw9, hvw]

/-- Backtracking from an empty cell keeps exactly the same candidates
pending. -/
theorem pend_pop_empty (g0 g h : Grid) (p : Nat) (rs cs bs : List BitSet)
    (hp : p < 81) (hp0 : p ≠ 0)
    (hsw : Solver.statesWF ⟨g, ⟨p, true⟩, rs, cs, bs⟩)
    (hcorr : corresponds ⟨g, ⟨p, true⟩, rs, cs, bs⟩ 81)
    (hsol : IsSolutionOf g0 h)
    (hgiven : ∀ i, i < 81 → g0.getCell i ≠ Digit.none → g.getCell i = g0.getCell i)
    (hup : ∀ i, i < 81 → g0.getCell i = Digit.none → p < i → g.getCell i = Digit.none)
    (hcell : g.getCell p = Digit.none)
    (hni : next_index Digit.none
      (Solver.takenAt ⟨g, ⟨p, true⟩, rs, cs, bs⟩ (rowOf p) (colOf p) (blkOf p)) =
        Option.none) :
    pending g0 ⟨g, ⟨p, true⟩, rs, cs, bs⟩ h ↔
      pending g0 ⟨g, ⟨p - 1, false⟩, rs, cs, bs⟩ h := by
  rw [pending_fwd_iff, pending_bwd_iff, show p - 1 + 1 = p from by omega]
  constructor
  · rintro (ha | hex)
    · exact (pop_empty_no_agree g0 g h p true rs cs bs hp hsw hcorr hsol hgiven hup hcell
        ha hni).elim
    · exact hex
  · exact fun hex => Or.inr hex

/-- Exhaustion from an empty first cell leaves nothing pending. -/
theorem pend_done_empty (g0 g h : Grid) (rs cs bs : List BitSet)
    (hsw : Solver.statesWF ⟨g, ⟨0, true⟩, rs, cs, bs⟩)
    (hcorr : corresponds ⟨g, ⟨0, true⟩, rs, cs, bs⟩ 81)
    (hsol : IsSolutionOf g0 h)
    (hgiven : ∀ i, i < 81 → g0.getCell i ≠ Digit.none → g.getCell i = g0.getCell i)
    (hup : ∀ i, i < 81 → g0.getCell i = Digit.none → 0 < i → g.getCell i = Digit.none)
    (hcell : g.getCell 0 = Digit.none)
    (hni : next_index Digit.none
      (Solver.takenAt ⟨g, ⟨0, true⟩, rs, cs, bs⟩ (rowOf 0) (colOf 0) (blkOf 0)) =
        Option.none)
    (hpend : pending g0 ⟨g, ⟨0, true⟩, rs, cs, bs⟩ h) : False := by
  rw [pending_fwd_iff] at hpend
  rcases hpend with ha | ⟨j, hj, -⟩
  · exact pop_empty_no_agree g0 g h 0 true rs cs bs (by omega) hsw hcorr hsol hgiven hup
      hcell ha hni
  · omega

/-- Retracting an exhausted guess keeps exactly the same candidates
pending. -/
theorem pend_pop_guess (g0 g h : Grid) (p v : Nat) (rs cs bs : List BitSet)
    (hp : p < 81) (hp0 : p ≠ 0) (hglen : g.cells.length = 81)
    (hsw : Solver.statesWF ⟨g, ⟨p, false⟩, rs, cs, bs⟩)
    (hcorr : corresponds ⟨g, ⟨p, false⟩, rs, cs, bs⟩ 81)
    (hsol : IsSolutionOf g0 h)
    (hgiven : ∀ i, i < 81 → g0.getCell i ≠ Digit.none → g.getCell i = g0.getCell i)
    (hup : ∀ i, i < 81 → g0.getCell i = Digit.none → p < i → g.getCell i = Digit.none)
    (hcell : g.getCell p = Digit.some false v)
    (hni : next_index (Digit.some false v)
      (Solver.takenAt ⟨g, ⟨p, false⟩, rs, cs, bs⟩ (rowOf p) (colOf p) (blkOf p)) =
        Option.none) :
    pending g0 ⟨g, ⟨p, false⟩, rs, cs, bs⟩ h ↔
      pending g0 ⟨⟨g.cells.set p Digit.none⟩, ⟨p - 1, false⟩, rs, cs, bs⟩ h := by
  rw [pending_bwd_iff, pending_bwd_iff, show p - 1 + 1 = p from by omega]
  constructor
  · rintro ⟨j, hj, hex⟩
    rcases Nat.lt_or_ge j p with h1 | h1
    · exact ⟨j, h1, (excessAt_set g0 g h hglen p hp Digit.none j h1).mpr hex⟩
    · have hjp : j = p := by omega
      subst hjp
      exact (pop_guess_no_excess g0 g h j false rs cs bs v (by omega) hsw hcorr hsol hgiven
        hup hcell hex.2.1 hex.2.2 hni).elim
  · rintro ⟨j, hj, hex⟩
    exact ⟨j, by omega, (excessAt_set g0 g h hglen p hp Digit.none j (by omega)).mp hex⟩

/-- Exhaustion while retracting the first cell's guess leaves nothing
pending. -/
theorem pend_done_guess (g0 g h : Grid) (v : Nat) (rs cs bs : List BitSet)
    (hsw : Solver.statesWF ⟨g, ⟨0, false⟩, rs, cs, bs⟩)
    (hcorr : corresponds ⟨g, ⟨0, false⟩, rs, cs, bs⟩ 81)
    (hsol : IsSolutionOf g0 h)
    (hgiven : ∀ i, i < 81 → g0.getCell i ≠ Digit.none → g.getCell i = g0.getCell i)
    (hup : ∀ i, i < 81 → g0.getCell i = Digit.none → 0 < i → g.getCell i = Digit.none)
    (hcell : g.getCell 0 = Digit.some false v)
    (hni : next_index (Digit.some false v)
      (Solver.takenAt ⟨g, ⟨0, false⟩, rs, cs, bs⟩ (rowOf 0) (colOf 0) (blkOf 0)) =
        Option.none)
    (hpend : pending g0 ⟨g, ⟨0, false⟩, rs, cs, bs⟩ h) : False := by
  rw [pending_bwd_iff] at hpend
  obtain ⟨j, hj, hex⟩ := hpend
  have hj0 : j = 0 := by omega
  subst hj0
  exact pop_guess_no_excess g0 g h 0 false rs cs bs v (by omega) hsw hcorr hsol hgiven hup
    hcell hex.2.1 hex.2.2 hni

/-- Committing the least candidate into an empty cell keeps exactly
the same candidates pending. -/
theorem pend_commit_empty (g0 g h : Grid) (p w0 : Nat) (rs cs bs : List BitSet)
    (hp : p < 81) (hglen : g.cells.length = 81)
    (hsw : Solver.statesWF ⟨g, ⟨p, true⟩, rs, cs, bs⟩)
    (hcorr : corresponds ⟨g, ⟨p, true⟩, rs, cs, bs⟩ 81)
    (hsol : IsSolutionOf g0 h)
    (hgiven : ∀ i, i < 81 → g0.getCell i ≠ Digit.none → g.getCell i = g0.getCell i)
    (hup : ∀ i, i < 81 → g0.getCell i = Digit.none → p < i → g.getCell i = Digit.none)
    (hcell : g.getCell p = Digit.none) (hfree : g0.getCell p = Digit.none)
    (hni : next_index Digit.none
      (Solver.takenAt ⟨g, ⟨p, true⟩, rs, cs, bs⟩ (rowOf p) (colOf p) (blkOf p)) =
        Option.some w0) :
    pending g0 ⟨g, ⟨p, true⟩, rs, cs, bs⟩ h ↔
      pending g0 ⟨⟨g.cells.set p (Digit.some false w0)⟩, ⟨p + 1, true⟩, rs, cs, bs⟩ h := by
  have hgc := getCell_set g hglen p hp (Digit.some false w0)
  rw [pending_fwd_iff, pending_fwd_iff]
  constructor
  · rintro (ha | ⟨j, hj, hex⟩)
    · obtain ⟨w, hw9, hhw⟩ := sol_val g0 h hsol p hp
      have hle := commit_le_empty g0 g h p w w0 true rs cs bs hp hw9 hsw hcorr hsol hgiven
        hup hcell ha hhw hni
      rcases Nat.lt_or_ge w0 w with hlt | hge
      · refine Or.inr ⟨p, by omega, hfree,
          (agreeBelow_set g0 g h hglen p hp _ p (le_refl p)).mpr ha, ?_⟩
        rw [hgc p, if_pos rfl, code_of_val (h.getCell p) w hhw]
        simp only [code]
        omega
      · have hww : w0 = w := by omega
        subst hww
        left
        intro k hk hf
        by_cases hkp : k = p
        · subst hkp
          rw [hgc k, if_pos rfl, hhw]
          rfl
        · rw [hgc k, if_neg hkp]
          exact ha k (by omega) hf
    · exact Or.inr ⟨j, by omega, (excessAt_set g0 g h hglen p hp _ j (by omega)).mpr hex⟩
  · rintro (ha | ⟨j, hj, hex⟩)
    · left
      exact (agreeBelow_set g0 g h hglen p hp _ p (le_refl p)).mp
        (agreeBelow_mono g0 _ h p (p + 1) (by omega) ha)
    · rcases Nat.lt_or_ge j p with h1 | h1
      · exact Or.inr ⟨j, h1, (excessAt_set g0 g h hglen p hp _ j h1).mp hex⟩
      · have hjp : j = p := by omega
        subst hjp
        left
        exact (agreeBelow_set g0 g h hglen j hp _ j (le_refl j)).mp hex.2.1

/-- Replacing a retracted guess by the least higher candidate keeps
exactly the same candidates pending. -/
theorem pend_commit_guess (g0 g h : Grid) (p v w0 : Nat) (rs cs bs : List BitSet)
    (hp : p < 81) (hglen : g.cells.length = 81) (hvw0 : v < w0)
    (hsw : Solver.statesWF ⟨g, ⟨p, false⟩, rs, cs, bs⟩)
    (hcorr : corresponds ⟨g, ⟨p, false⟩, rs, cs, bs⟩ 81)
    (hsol : IsSolutionOf g0 h)
    (hgiven : ∀ i, i < 81 → g0.getCell i ≠ Digit.none → g.getCell i = g0.getCell i)
    (hup : ∀ i, i < 81 → g0.getCell i = Digit.none → p < i → g.getCell i = Digit.none)
    (hcell : g.getCell p = Digit.some false v) (hfree : g0.getCell p = Digit.none)
    (hni : next_index (Digit.some false v)
      (Solver.takenAt ⟨g, ⟨p, false⟩, rs, cs, bs⟩ (rowOf p) (colOf p) (blkOf p)) =
        Option.some w0) :
    pending g0 ⟨g, ⟨p, false⟩, rs, cs, bs⟩ h ↔
      pending g0 ⟨⟨(g.cells.set p Digit.none).set p (Digit.some false w0)⟩, ⟨p + 1, true⟩,
        rs, cs, bs⟩ h := by
  have hglen1 : (Grid.mk (g.cells.set p Digit.none)).cells.length = 81 := by
    show (g.cells.set p Digit.none).length = 81
    simp [hglen]
  have hgc1 := getCell_set g hglen p hp Digit.none
  have hgc2 : ∀ i, Grid.getCell ⟨(g.cells.set p Digit.none).set p (Digit.some false w0)⟩ i =
      if i = p then Digit.some false w0 else Grid.getCell ⟨g.cells.set p Digit.none⟩ i :=
    getCell_set ⟨g.cells.set p Digit.none⟩ hglen1 p hp (Digit.some false w0)
  have hgcc : ∀ i, i ≠ p →
      Grid.getCell ⟨(g.cells.set p Digit.none).set p (Digit.some false w0)⟩ i =
        g.getCell i := by
    intro i hip
    rw [hgc2 i, if_neg hip, hgc1 i, if_neg hip]
  have hagd : ∀ j, j ≤ p →
      (agreeBelow g0 ⟨(g.cells.set p Digit.none).set p (Digit.some false w0)⟩ h j ↔
        agreeBelow g0 g h j) := by
    intro j hj
    exact Iff.trans
      (agreeBelow_set g0 ⟨g.cells.set p Digit.none⟩ h hglen1 p hp (Digit.some false w0) j hj)
      (agreeBelow_set g0 g h hglen p hp Digit.none j hj)
  have hexd : ∀ j, j < p →
      (excessAt g0 ⟨(g.cells.set p Digit.none).set p (Digit.some false w0)⟩ h j ↔
        excessAt g0 g h j) := by
    intro j hj
    exact Iff.trans
      (excessAt_set g0 ⟨g.cells.set p Digit.none⟩ h hglen1 p hp (Digit.some false w0) j hj)
      (excessAt_set g0 g h hglen p hp Digit.none j hj)
  rw [pending_bwd_iff, pending_fwd_iff]
  constructor
  · rintro ⟨j, hj, hex⟩
    rcases Nat.lt_or_ge j p with h1 | h1
    · exact Or.inr ⟨j, by omega, (hexd j h1).mpr hex⟩
    · have hjp : j = p := by omega
      subst hjp
      obtain ⟨w, hw9, hhw⟩ := sol_val g0 h hsol j (by omega)
      have hvw : v < w := by
        have hc := hex.2.2
        rw [hcell, code_of_val (h.getCell j) w hhw] at hc
        simpa [code] using hc
      have hle := commit_le_guess g0 g h j v w w0 false rs cs bs (by omega) hw9 hvw hsw
        hcorr hsol hgiven hup hcell hex.2.1 hhw hni
      rcases Nat.lt_or_ge w0 w with hlt | hge
      · refine Or.inr ⟨j, by omega, hfree, (hagd j (le_refl j)).mpr hex.2.1, ?_⟩
        rw [hgc2 j, if_pos rfl, code_of_val (h.getCell j) w hhw]
        simp only [code]
        omega
      · have hww : w0 = w := by omega
        subst hww
        left
        intro k hk hf
        by_cases hkp : k = j
        · subst hkp
          rw [hgc2 k, if_pos rfl, hhw]
          rfl
        · rw [hgcc k hkp]
          exact hex.2.1 k (by omega) hf
  · rintro (ha | ⟨j, hj, hex⟩)
    · have hhp : valOf (h.getCell p) = Option.some w0 := by
        have hap := ha p (by omega) hfree
        rwa [hgc2 p, if_pos rfl] at hap
      refine ⟨p, by omega, hfree, ?_, ?_⟩
      · exact (hagd p (le_refl p)).mp (agreeBelow_mono g0 _ h p (p + 1) (by omega) ha)
      · rw [hcell, code_of_val (h.getCell p) w0 hhp]
        simp only [code]
        omega
    · rcases Nat.lt_or_ge j p with h1 | h1
      · exact ⟨j, by omega, (hexd j h1).mp hex⟩
      · have hjp : j = p := by omega
        subst hjp
        refine ⟨j, by omega, hfree, (hagd j (le_refl j)).mp hex.2.1, ?_⟩
        have hcd := hex.2.2
        rw [hgc2 j, if_pos rfl] at hcd
        rw [hcell]
        simp only [code] at hcd ⊢
        omega

/-- Completing the grid through an empty final cell: the candidates
pending before are the emitted grid itself plus those still pending
after. -/
theorem pend_emit_empty (g0 g h : Grid) (w0 : Nat) (rs cs bs : List BitSet)
    (hglen : g.cells.length = 81)
    (hsw : Solver.statesWF ⟨g, ⟨80, true⟩, rs, cs, bs⟩)
    (hcorr : corresponds ⟨g, ⟨80, true⟩, rs, cs, bs⟩ 81)
    (hsol : IsSolutionOf g0 h)
    (hgiven : ∀ i, i < 81 → g0.getCell i ≠ Digit.none → g.getCell i = g0.getCell i)
    (hup : ∀ i, i < 81 → g0.getCell i = Digit.none → 80 < i → g.getCell i = Digit.none)
    (hcell : g.getCell 80 = Digit.none) (hfree : g0.getCell 80 = Digit.none)
    (hni : next_index Digit.none
      (Solver.takenAt ⟨g, ⟨80, true⟩, rs, cs, bs⟩ (rowOf 80) (colOf 80) (blkOf 80)) =
        Option.some w0) :
    pending g0 ⟨g, ⟨80, true⟩, rs, cs, bs⟩ h ↔
      (valEqP ⟨g.cells.set 80 (Digit.some false w0)⟩ h ∨
        pending g0 ⟨⟨g.cells.set 80 (Digit.some false w0)⟩, ⟨80, false⟩, rs, cs, bs⟩ h) := by
  have hgc := getCell_set g hglen 80 (by omega) (Digit.some false w0)
  rw [pending_fwd_iff, pending_bwd_iff]
  constructor
  · rintro (ha | ⟨j, hj, hex⟩)
    · obtain ⟨w, hw9, hhw⟩ := sol_val g0 h hsol 80 (by omega)
      have hle := commit_le_empty g0 g h 80 w w0 true rs cs bs (by omega) hw9 hsw hcorr
        hsol hgiven hup hcell ha hhw hni
      rcases Nat.lt_or_ge w0 w with hlt | hge
      · refine Or.inr ⟨80, by omega, hfree,
          (agreeBelow_set g0 g h hglen 80 (by omega) _ 80 (le_refl 80)).mpr ha, ?_⟩
        rw [hgc 80, if_pos rfl, code_of_val (h.getCell 80) w hhw]
        simp only [code]
        omega
      · have hww : w0 = w := by omega
        subst hww
        left
        refine valEq_of_agree g0 _ h hsol ?_ ?_
        · intro i hi hgf
          rw [hgc i, if_neg ?_]
          · exact hgiven i hi hgf
          · intro hip
            subst hip
            exact absurd hfree hgf
        · intro k hk hf
          by_cases hkp : k = 80
          · subst hkp
            rw [hgc 80, if_pos rfl, hhw]
            rfl
          · rw [hgc k, if_neg hkp]
            exact ha k (by omega) hf
    · exact Or.inr ⟨j, by omega,
        (excessAt_set g0 g h hglen 80 (by omega) _ j (by omega)).mpr hex⟩
  · rintro (hv | ⟨j, hj, hex⟩)
    · left
      intro k hk hf
      have hvk := (hv k (by omega)).symm
      rwa [hgc k, if_neg (show k ≠ 80 by omega)] at hvk
    · rcases Nat.lt_or_ge j 80 with h1 | h1
      · exact Or.inr ⟨j, h1, (excessAt_set g0 g h hglen 80 (by omega) _ j h1).mp hex⟩
      · have hj80 : j = 80 := by omega
        subst hj80
        left
        exact (agreeBelow_set g0 g h hglen 80 (by omega) _ 80 (le_refl 80)).mp hex.2.1

/-- Completing the grid by raising the guess in the final cell: the
candidates pending before are the emitted grid itself plus those
still pending after. -/
theorem pend_emit_guess (g0 g h : Grid) (v w0 : Nat) (rs cs bs : List BitSet)
    (hglen : g.cells.length = 81) (hvw0 : v < w0)
    (hsw : Solver.statesWF ⟨g, ⟨80, false⟩, rs, cs, bs⟩)
    (hcorr : corresponds ⟨g, ⟨80, false⟩, rs, cs, bs⟩ 81)
    (hsol : IsSolutionOf g0 h)
    (hgiven : ∀ i, i < 81 → g0.getCell i ≠ Digit.none → g.getCell i = g0.getCell i)
    (hup : ∀ i, i < 81 → g0.getCell i = Digit.none → 80 < i → g.getCell i = Digit.none)
    (hcell : g.getCell 80 = Digit.some false v) (hfree : g0.getCell 80 = Digit.none)
    (hni : next_index (Digit.some false v)
      (Solver.takenAt ⟨g, ⟨80, false⟩, rs, cs, bs⟩ (rowOf 80) (colOf 80) (blkOf 80)) =
        Option.some w0) :
    pending g0 ⟨g, ⟨80, false⟩, rs, cs, bs⟩ h ↔
      (valEqP ⟨(g.cells.set 80 Digit.none).set 80 (Digit.some false w0)⟩ h ∨
        pending g0 ⟨⟨(g.cells.set 80 Digit.none).set 80 (Digit.some false w0)⟩, ⟨80, false⟩,
          rs, cs, bs⟩ h) := by
  have hglen1 : (Grid.mk (g.cells.set 80 Digit.none)).cells.length = 81 := by
    show (g.cells.set 80 Digit.none).length = 81
    simp [hglen]
  have hgc1 := getCell_set g hglen 80 (by omega) Digit.none
  have hgc2 : ∀ i, Grid.getCell ⟨(g.cells.set 80 Digit.none).set 80 (Digit.some false w0)⟩ i =
      if i = 80 then Digit.some false w0 else Grid.getCell ⟨g.cells.set 80 Digit.none⟩ i :=
    getCell_set ⟨g.cells.set 80 Digit.none⟩ hglen1 80 (by omega) (Digit.some false w0)
  have hgcc : ∀ i, i ≠ 80 →
      Grid.getCell ⟨(g.cells.set 80 Digit.none).set 80 (Digit.some false w0)⟩ i =
        g.getCell i := by
    intro i hip
    rw [hgc2 i, if_neg hip, hgc1 i, if_neg hip]
  have hagd : ∀ j, j ≤ 80 →
      (agreeBelow g0 ⟨(g.cells.set 80 Digit.none).set 80 (Digit.some false w0)⟩ h j ↔
        agreeBelow g0 g h j) := by
    intro j hj
    exact Iff.trans
      (agreeBelow_set g0 ⟨g.cells.set 80 Digit.none⟩ h hglen1 80 (by omega)
        (Digit.some false w0) j hj)
      (agreeBelow_set g0 g h hglen 80 (by omega) Digit.none j hj)
  have hexd : ∀ j, j < 80 →
      (excessAt g0 ⟨(g.cells.set 80 Digit.none).set 80 (Digit.some false w0)⟩ h j ↔
        excessAt g0 g h j) := by
    intro j hj
    exact Iff.trans
      (excessAt_set g0 ⟨g.cells.set 80 Digit.none⟩ h hglen1 80 (by omega)
        (Digit.some false w0) j hj)
      (excessAt_set g0 g h hglen 80 (by omega) Digit.none j hj)
  rw [pending_bwd_iff, pending_bwd_iff]
  constructor
  · rintro ⟨j, hj, hex⟩
    rcases Nat.lt_or_ge j 80 with h1 | h1
    · exact Or.inr ⟨j, by omega, (hexd j h1).mpr hex⟩
    · have hj80 : j = 80 := by omega
      subst hj80
      obtain ⟨w, hw9, hhw⟩ := sol_val g0 h hsol 80 (by omega)
      have hvw : v < w := by
        have hc := hex.2.2
        rw [hcell, code_of_val (h.getCell 80) w hhw] at hc
        simpa [code] using hc
      have hle := commit_le_guess g0 g h 80 v w w0 false rs cs bs (by omega) hw9 hvw hsw
        hcorr hsol hgiven hup hcell hex.2.1 hhw hni
      rcases Nat.lt_or_ge w0 w with hlt | hge
      · refine Or.inr ⟨80, by omega, hfree, (hagd 80 (by omega)).mpr hex.2.1, ?_⟩
        rw [hgc2 80, if_pos rfl, code_of_val (h.getCell 80) w hhw]
        simp only [code]
        omega
      · have hww : w0 = w := by omega
        subst hww
        refine Or.inl (valEq_of_agree g0 _ h hsol ?_ ?_)
        · intro i hi hgf
          rw [hgcc i ?_]
          · exact hgiven i hi hgf
          · intro hip
            subst hip
            exact absurd hfree hgf
        · intro k hk hf
          by_cases hkp : k = 80
          · subst hkp
            rw [hgc2 80, if_pos rfl, hhw]
            rfl
          · rw [hgcc k hkp]
            exact hex.2.1 k (by omega) hf
  · rintro (hv | ⟨j, hj, hex⟩)
    · have hhp : valOf (h.getCell 80) = Option.some w0 := by
        have hv80 := (hv 80 (by omega)).symm
        rw [hgc2 80, if_pos rfl] at hv80
        exact hv80
      refine ⟨80, by omega, hfree, ?_, ?_⟩
      · intro k hk hf
        have hvk := (hv k (by omega)).symm
        rwa [hgcc k (show k ≠ 80 by omega)] at hvk
      · rw [hcell, code_of_val (h.getCell 80) w0 hhp]
        simp only [code]
        omega
    · rcases Nat.lt_or_ge j 80 with h1 | h1
      · exact ⟨j, by omega, (hexd j h1).mp hex⟩
      · have hj80 : j = 80 := by omega
        subst hj80
        refine ⟨80, by omega, hfree, (hagd 80 (by omega)).mp hex.2.1, ?_⟩
        have hcd := hex.2.2
        rw [hgc2 80, if_pos rfl] at hcd
        rw [hcell]
        simp only [code] at hcd ⊢
        omega

/-- One loop iteration preserves the extended invariant and the
pending set: a continuing step keeps both; an emission removes exactly
the emitted grid (a solution of the start) from the pending set;
exhaustion happens only with nothing pending. -/
theorem step_preserve2 (g0 : Grid) (s : Solver) (hng : Grid.noGuessB g0 = true)
    (hinv : CInv g0 s) :
    (∀ s2, s.step = StepRes.cont s2 → CInv g0 s2 ∧
      (∀ h, IsSolutionOf g0 h → (pending g0 s h ↔ pending g0 s2 h))) ∧
    (∀ s2 gg, s.step = StepRes.emit s2 gg → CInv g0 s2 ∧ IsSolutionOf g0 gg ∧
      (∀ h, IsSolutionOf g0 h → (pending g0 s h ↔ (valEqP gg h ∨ pending g0 s2 h))) ∧
      (∀ h, valEqP gg h → ¬ pending g0 s2 h)) ∧
    (∀ s2, s.step = StepRes.done s2 → ∀ h, IsSolutionOf g0 h → ¬ pending g0 s h) := by
  obtain ⟨g, ⟨p, fwd⟩, rs, cs, bs⟩ := s
  obtain ⟨hSInv, hgiven0, hnogv, hfront, hbwdf⟩ := hinv
  have hgiven : ∀ i, i < 81 → g0.getCell i ≠ Digit.none → g.getCell i = g0.getCell i :=
    hgiven0
  have hp80 : p ≤ 80 := hSInv.2.1
  have hwf : Grid.wfB g = true := hSInv.1.1
  have hglen : g.cells.length = 81 := grid_wf_len g hwf
  have hsw : Solver.statesWF ⟨g, ⟨p, fwd⟩, rs, cs, bs⟩ := hSInv.1.2.1
  have hcorr : corresponds ⟨g, ⟨p, fwd⟩, rs, cs, bs⟩ 81 := hSInv.1.2.2.1
  have hbelow : ∀ i, i < p → g.getCell i ≠ Digit.none := hSInv.2.2
  have hpb : pendBound ⟨g, ⟨p, fwd⟩, rs, cs, bs⟩ ≤ p + 1 := by
    unfold pendBound
    dsimp only
    split <;> omega
  have hup : ∀ i, i < 81 → g0.getCell i = Digit.none → p < i → g.getCell i = Digit.none :=
    fun i hi hf hpi => hfront i hi hf (le_trans hpb (by omega))
  rcases hd : g.getCell p with _ | ⟨b, v⟩
  · -- cursor cell empty
    have hfree : g0.getCell p = Digit.none := by
      by_contra hno
      have hgp := hgiven p (by omega) hno
      rw [hd] at hgp
      exact hno hgp.symm
    have hfreeB : isFreeB (g.getCell p) = true := by rw [hd]; rfl
    rw [step_free_eq g p fwd rs cs bs hfreeB]
    dsimp only
    rw [hd]
    dsimp only
    rcases hni : next_index Digit.none
        (Solver.takenAt ⟨g, ⟨p, fwd⟩, rs, cs, bs⟩ (rowOf p) (colOf p) (blkOf p)) with _ | w0
    · dsimp only
      rcases fwd
      · exact absurd hd (hbwdf rfl)
      · by_cases hp0 : p = 0
        · subst hp0
          rw [if_pos rfl]
          refine ⟨fun s2 hcontra => StepRes.noConfusion hcontra,
            fun s2 gg hcontra => StepRes.noConfusion hcontra, ?_⟩
          intro s2 hcontra h hsol hpend
          exact pend_done_empty g0 g h rs cs bs hsw hcorr hsol hgiven hup hd hni hpend
        · rw [if_neg hp0]
          refine ⟨?_, fun s2 gg hcontra => StepRes.noConfusion hcontra,
            fun s2 hcontra => StepRes.noConfusion hcontra⟩
          intro s2 hcont
          cases hcont
          refine ⟨⟨(trans_pop_empty g p true rs cs bs hd hp0 ⟨hSInv.1, hp80, hbelow⟩).1,
            hgiven, hnogv, ?_, ?_⟩, ?_⟩
          · intro i hi hf hb
            rw [pendBound_bwd, show p - 1 + 1 = p from by omega] at hb
            by_cases hip : i = p
            · subst hip
              exact hd
            · exact hup i hi hf (by omega)
          · intro hcontra
            exact hbelow (p - 1) (by omega)
          · intro h hsol
            exact pend_pop_empty g0 g h p rs cs bs (by omega) hp0 hsw hcorr hsol hgiven hup
              hd hni
    · dsimp only
      have hfacts := next_index_some_facts _ _ w0 hni
      have hw9 : w0 < 9 := hfacts.1
      have hnoc := noconf_of_taken ⟨g, ⟨p, fwd⟩, rs, cs, bs⟩ p w0 (by omega) hw9 hsw hcorr
        hfacts.2.1
      rcases fwd
      · exact absurd hd (hbwdf rfl)
      · have hgc := getCell_set g hglen p (by omega) (Digit.some false w0)
        by_cases hp80e : p = 80
        · subst hp80e
          rw [if_pos rfl, place_then_cursor, placeDigit_grid]
          dsimp only
          refine ⟨fun s2 hcontra => StepRes.noConfusion hcontra, ?_,
            fun s2 hcontra => StepRes.noConfusion hcontra⟩
          intro s2 gg hemit
          cases hemit
          obtain ⟨hS2, -, hwf2, hcomp2, hok2⟩ :=
            trans_emit_empty g true rs cs bs w0 hd hw9 hnoc ⟨hSInv.1, hp80, hbelow⟩
          have hgiven2 : ∀ i, i < 81 → g0.getCell i ≠ Digit.none →
              Grid.getCell ⟨g.cells.set 80 (Digit.some false w0)⟩ i = g0.getCell i := by
            intro i hi hgf
            rw [hgc i, if_neg ?_]
            · exact hgiven i hi hgf
            · intro hip
              subst hip
              exact absurd hfree hgf
          refine ⟨⟨hS2, hgiven2, ?_, ?_, ?_⟩, ?_, ?_, ?_⟩
          · intro i v2 hi hf
            rw [hgc i]
            by_cases hip : i = 80
            · rw [if_pos hip]
              intro hcontra
              cases hcontra
            · rw [if_neg hip]
              exact hnogv i v2 hi hf
          · intro i hi hf hb
            rw [pendBound_bwd] at hb
            omega
          · intro hcontra
            rw [hgc 80, if_pos rfl]
            exact fun hx => Digit.noConfusion hx
          · refine ⟨hwf2, hcomp2, hok2, ?_⟩
            intro i hi hgf
            rw [hgiven2 i hi (fun hx => hgf (by rw [hx]; rfl))]
          · intro h hsol
            exact pend_emit_empty g0 g h w0 rs cs bs hglen hsw hcorr hsol hgiven hup hd
              hfree hni
          · intro h hv
            exact not_pending_bwd_of_valEq g0 _ h 80 _ _ _ (by omega) hv
        · rw [if_neg hp80e, place_then_cursor]
          dsimp only
          refine ⟨?_, fun s2 gg hcontra => StepRes.noConfusion hcontra,
            fun s2 hcontra => StepRes.noConfusion hcontra⟩
          intro s2 hcont
          cases hcont
          obtain ⟨hS2, -⟩ := trans_commit_empty g p true rs cs bs w0 hd hp80e (by omega) hw9
            hnoc ⟨hSInv.1, hp80, hbelow⟩
          refine ⟨⟨hS2, ?_, ?_, ?_, ?_⟩, ?_⟩
          · intro i hi hgf
            rw [hgc i, if_neg ?_]
            · exact hgiven i hi hgf
            · intro hip
              subst hip
              exact absurd hfree hgf
          · intro i v2 hi hf
            rw [hgc i]
            by_cases hip : i = p
            · rw [if_pos hip]
              intro hcontra
              cases hcontra
            · rw [if_neg hip]
              exact hnogv i v2 hi hf
          · intro i hi hf hb
            rw [pendBound_fwd] at hb
            rw [hgc i, if_neg (show i ≠ p by omega)]
            exact hup i hi hf (by omega)
          · intro hcontra
            exact Bool.noConfusion hcontra
          · intro h hsol
            exact pend_commit_empty g0 g h p w0 rs cs bs (by omega) hglen hsw hcorr hsol
              hgiven hup hd hfree hni
  · rcases b
    · -- cursor cell holds a guess
      have hfree : g0.getCell p = Digit.none := by
        rcases noGuess_char g0 hng p (by omega) with hn | ⟨u, hu⟩
        · exact hn
        · have hgp := hgiven p (by omega) (by rw [hu]; exact fun hx => Digit.noConfusion hx)
          rw [hd, hu] at hgp
          simp at hgp
      have hfwd_imp : fwd = true → False := by
        intro hft
        subst hft
        have hcell0 := hfront p (by omega) hfree (by rw [pendBound_fwd])
        rw [hd] at hcell0
        exact Digit.noConfusion hcell0
      have hfreeB : isFreeB (g.getCell p) = true := by rw [hd]; rfl
      rw [step_free_eq g p fwd rs cs bs hfreeB]
      dsimp only
      rw [hd]
      dsimp only
      rcases hni : next_index (Digit.some false v)
          (Solver.takenAt ⟨g, ⟨p, fwd⟩, rs, cs, bs⟩ (rowOf p) (colOf p) (blkOf p)) with _ | w0
      · dsimp only
        rw [remove_then_cursor, remove_then_cursor]
        dsimp only
        rcases fwd
        · by_cases hp0 : p = 0
          · subst hp0
            rw [if_pos rfl]
            refine ⟨fun s2 hcontra => StepRes.noConfusion hcontra,
              fun s2 gg hcontra => StepRes.noConfusion hcontra, ?_⟩
            intro s2 hcontra h hsol hpend
            exact pend_done_guess g0 g h v rs cs bs hsw hcorr hsol hgiven hup hd hni hpend
          · rw [if_neg hp0]
            refine ⟨?_, fun s2 gg hcontra => StepRes.noConfusion hcontra,
              fun s2 hcontra => StepRes.noConfusion hcontra⟩
            intro s2 hcont
            cases hcont
            have hgc1 := getCell_set g hglen p (by omega) Digit.none
            obtain ⟨hS2, -⟩ := trans_pop_guess g p false rs cs bs v hd hp0
              ⟨hSInv.1, hp80, hbelow⟩
            refine ⟨⟨hS2, ?_, ?_, ?_, ?_⟩, ?_⟩
            · intro i hi hgf
              rw [hgc1 i, if_neg ?_]
              · exact hgiven i hi hgf
              · intro hip
                subst hip
                exact absurd hfree hgf
            · intro i v2 hi hf
              rw [hgc1 i]
              by_cases hip : i = p
              · rw [if_pos hip]
                exact fun hx => Digit.noConfusion hx
              · rw [if_neg hip]
                exact hnogv i v2 hi hf
            · intro i hi hf hb
              rw [pendBound_bwd, show p - 1 + 1 = p from by omega] at hb
              rw [hgc1 i]
              by_cases hip : i = p
              · rw [if_pos hip]
              · rw [if_neg hip]
                exact hup i hi hf (by omega)
            · intro hcontra
              rw [hgc1 (p - 1), if_neg (show p - 1 ≠ p by omega)]
              exact hbelow (p - 1) (by omega)
            · intro h hsol
              exact pend_pop_guess g0 g h p v rs cs bs (by omega) hp0 hglen hsw hcorr hsol
                hgiven hup hd hni
        · exact absurd rfl hfwd_imp
      · dsimp only
        have hfacts := next_index_some_facts _ _ w0 hni
        have hw9 : w0 < 9 := hfacts.1
        have hvw0 : v < w0 := hfacts.2.2 false v rfl
        have hnoc := noconf_of_taken ⟨g, ⟨p, fwd⟩, rs, cs, bs⟩ p w0 (by omega) hw9 hsw hcorr
          hfacts.2.1
        rcases fwd
        · rw [removeDigit_eq]
          dsimp only
          have hglen1 : (Grid.mk (g.cells.set p Digit.none)).cells.length = 81 := by
            show (g.cells.set p Digit.none).length = 81
            simp [hglen]
          have hgc1 := getCell_set g hglen p (by omega) Digit.none
          have hgc2 : ∀ i,
              Grid.getCell ⟨(g.cells.set p Digit.none).set p (Digit.some false w0)⟩ i =
                if i = p then Digit.some false w0
                else Grid.getCell ⟨g.cells.set p Digit.none⟩ i :=
            getCell_set ⟨g.cells.set p Digit.none⟩ hglen1 p (by omega) (Digit.some false w0)
          have hgcc : ∀ i, i ≠ p →
              Grid.getCell ⟨(g.cells.set p Digit.none).set p (Digit.some false w0)⟩ i =
                g.getCell i := by
            intro i hip
            rw [hgc2 i, if_neg hip, hgc1 i, if_neg hip]
          by_cases hp80e : p = 80
          · subst hp80e
            rw [if_pos rfl, place_then_cursor, placeDigit_grid]
            dsimp only
            refine ⟨fun s2 hcontra => StepRes.noConfusion hcontra, ?_,
              fun s2 hcontra => StepRes.noConfusion hcontra⟩
            intro s2 gg hemit
            cases hemit
            obtain ⟨hS2, -, hwf2, hcomp2, hok2⟩ :=
              trans_emit_guess g false rs cs bs v w0 hd hw9 hvw0
                (fun j hj hjp hx => hnoc j hj hx) ⟨hSInv.1, hp80, hbelow⟩
            have hgiven2 : ∀ i, i < 81 → g0.getCell i ≠ Digit.none →
                Grid.getCell ⟨(g.cells.set 80 Digit.none).set 80 (Digit.some false w0)⟩ i =
                  g0.getCell i := by
              intro i hi hgf
              rw [hgcc i ?_]
              · exact hgiven i hi hgf
              · intro hip
                subst hip
                exact absurd hfree hgf
            refine ⟨⟨hS2, hgiven2, ?_, ?_, ?_⟩, ?_, ?_, ?_⟩
            · intro i v2 hi hf
              by_cases hip : i = 80
              · subst hip
                rw [hgc2 80, if_pos rfl]
                intro hcontra
                cases hcontra
              · rw [hgcc i hip]
                exact hnogv i v2 hi hf
            · intro i hi hf hb
              rw [pendBound_bwd] at hb
              omega
            · intro hcontra
              rw [hgc2 80, if_pos rfl]
              exact fun hx => Digit.noConfusion hx
            · refine ⟨hwf2, hcomp2, hok2, ?_⟩
              intro i hi hgf
              rw [hgiven2 i hi (fun hx => hgf (by rw [hx]; rfl))]
            · intro h hsol
              exact pend_emit_guess g0 g h v w0 rs cs bs hglen hvw0 hsw hcorr hsol hgiven
                hup hd hfree hni
            · intro h hv
              exact not_pending_bwd_of_valEq g0 _ h 80 _ _ _ (by omega) hv
          · rw [if_neg hp80e, place_then_cursor]
            dsimp only
            refine ⟨?_, fun s2 gg hcontra => StepRes.noConfusion hcontra,
              fun s2 hcontra => StepRes.noConfusion hcontra⟩
            intro s2 hcont
            cases hcont
            obtain ⟨hS2, -⟩ := trans_commit_guess g p false rs cs bs v w0 hd hp80e (by omega)
              hw9 hvw0 (fun j hj hjp hx => hnoc j hj hx) ⟨hSInv.1, hp80, hbelow⟩
            refine ⟨⟨hS2, ?_, ?_, ?_, ?_⟩, ?_⟩
            · intro i hi hgf
              rw [hgcc i ?_]
              · exact hgiven i hi hgf
              · intro hip
                subst hip
                exact absurd hfree hgf
            · intro i v2 hi hf
              by_cases hip : i = p
              · subst hip
                rw [hgc2 i, if_pos rfl]
                intro hcontra
                cases hcontra
              · rw [hgcc i hip]
                exact hnogv i v2 hi hf
            · intro i hi hf hb
              rw [pendBound_fwd] at hb
              rw [hgcc i (show i ≠ p by omega)]
              exact hup i hi hf (by omega)
            · intro hcontra
              exact Bool.noConfusion hcontra
            · intro h hsol
              exact pend_commit_guess g0 g h p v w0 rs cs bs (by omega) hglen hvw0 hsw hcorr
                hsol hgiven hup hd hfree hni
        · exact absurd rfl hfwd_imp
    · -- cursor cell is a given: skip
      have hngf : g0.getCell p ≠ Digit.none := by
        intro hzero
        exact hnogv p v (by omega) hzero hd
      rcases fwd
      · by_cases hp0 : p = 0
        · subst hp0
          rw [step_given_bwd0 g rs cs bs v hd]
          refine ⟨fun s2 hcontra => StepRes.noConfusion hcontra,
            fun s2 gg hcontra => StepRes.noConfusion hcontra, ?_⟩
          intro s2 hcontra h hsol hpend
          rw [pending_bwd_iff] at hpend
          obtain ⟨j, hj, hex⟩ := hpend
          have hj0 : j = 0 := by omega
          subst hj0
          exact absurd hex.1 hngf
        · rw [step_given_bwd g p rs cs bs v hd hp0]
          refine ⟨?_, fun s2 gg hcontra => StepRes.noConfusion hcontra,
            fun s2 hcontra => StepRes.noConfusion hcontra⟩
          intro s2 hcont
          cases hcont
          refine ⟨⟨(trans_given_bwd g p rs cs bs v hd hp0 ⟨hSInv.1, hp80, hbelow⟩).1,
            hgiven, hnogv, ?_, ?_⟩, ?_⟩
          · intro i hi hf hb
            rw [pendBound_bwd, show p - 1 + 1 = p from by omega] at hb
            by_cases hip : i = p
            · subst hip
              exact absurd hf hngf
            · exact hup i hi hf (by omega)
          · intro hcontra
            exact hbelow (p - 1) (by omega)
          · intro h hsol
            rw [pending_bwd_iff, pending_bwd_iff, show p - 1 + 1 = p from by omega]
            exact (shift_notfree g0 g h p hngf).2
      · by_cases hp80e : p = 80
        · subst hp80e
          rw [step_given_fwd80 g rs cs bs v hd]
          refine ⟨fun s2 hcontra => StepRes.noConfusion hcontra, ?_,
            fun s2 hcontra => StepRes.noConfusion hcontra⟩
          intro s2 gg hemit
          cases hemit
          obtain ⟨hS2, -, hwf2, hcomp2, hok2⟩ := trans_given_emit g rs cs bs v hd
            ⟨hSInv.1, hp80, hbelow⟩
          have hsolg : IsSolutionOf g0 g := by
            refine ⟨hwf2, hcomp2, hok2, ?_⟩
            intro i hi hgf
            rw [hgiven i hi (fun hx => hgf (by rw [hx]; rfl))]
          refine ⟨⟨hS2, hgiven, hnogv, ?_, ?_⟩, hsolg, ?_, ?_⟩
          · intro i hi hf hb
            rw [pendBound_bwd] at hb
            omega
          · intro hcontra
            rw [hd]
            exact fun hx => Digit.noConfusion hx
          · intro h hsol
            rw [pending_fwd_iff, pending_bwd_iff]
            constructor
            · rintro (ha | hex)
              · refine Or.inl (valEq_of_agree g0 g h hsol hgiven ?_)
                intro k hk hf
                by_cases hkp : k = 80
                · subst hkp
                  exact absurd hf hngf
                · exact ha k (by omega) hf
              · exact Or.inr ((shift_notfree g0 g h 80 hngf).2.mpr hex)
            · rintro (hv | hex)
              · refine Or.inl ?_
                intro k hk hf
                exact (hv k (by omega)).symm
              · exact Or.inr ((shift_notfree g0 g h 80 hngf).2.mp hex)
          · intro h hv
            exact not_pending_bwd_of_valEq g0 g h 80 rs cs bs (by omega) hv
        · rw [step_given_fwd g p rs cs bs v hd hp80e]
          refine ⟨?_, fun s2 gg hcontra => StepRes.noConfusion hcontra,
            fun s2 hcontra => StepRes.noConfusion hcontra⟩
          intro s2 hcont
          cases hcont
          refine ⟨⟨(trans_given_fwd g p rs cs bs v true hd hp80e
            ⟨hSInv.1, hp80, hbelow⟩).1, hgiven, hnogv, ?_, ?_⟩, ?_⟩
          · intro i hi hf hb
            rw [pendBound_fwd] at hb
            by_cases hip : i = p
            · subst hip
              exact absurd hf hngf
            · exact hup i hi hf (by omega)
          · intro hcontra
            exact Bool.noConfusion hcontra
          · intro h hsol
            rw [pending_fwd_iff, pending_fwd_iff]
            exact or_congr (shift_notfree g0 g h p hngf).1.symm
              (shift_notfree g0 g h p hngf).2.symm

/-- With fuel one past the measure, the enumeration from an invariant
state emits, in order and without repetition, exactly the solutions
still pending at that state. -/
theorem enum_exact : ∀ (N : Nat) (g0 : Grid) (s : Solver), Grid.noGuessB g0 = true →
    CInv g0 s → nuMeasure s ≤ N →
    ∃ gs, enumF (N + 1) s = Option.some gs ∧
      (∀ h, IsSolutionOf g0 h → (pending g0 s h ↔ ∃ g2 ∈ gs, valEqP g2 h)) ∧
      (∀ g2 ∈ gs, IsSolutionOf g0 g2) ∧
      List.Pairwise (fun a b2 => ¬ valEqP a b2) gs := by
  intro N
  induction N with
  | zero =>
    intro g0 s hng hinv hnu
    have hsp := step_preserve s hinv.1
    have hsp2 := step_preserve2 g0 s hng hinv
    rw [enumF_succ]
    rcases hst : s.step with s2 | ⟨s2, gg⟩ | s2 <;> dsimp only
    · exact absurd (Nat.lt_of_lt_of_le (hsp.1 s2 hst).2 hnu) (Nat.not_lt_zero _)
    · exact absurd (Nat.lt_of_lt_of_le (hsp.2.1 s2 gg hst).2.1 hnu) (Nat.not_lt_zero _)
    · refine ⟨[], rfl, ?_, ?_, List.Pairwise.nil⟩
      · intro h hsol
        constructor
        · intro hpend
          exact absurd hpend (hsp2.2.2 s2 hst h hsol)
        · rintro ⟨g2, hg2, -⟩
          simp at hg2
      · intro g2 hg2
        simp at hg2
  | succ N ih =>
    intro g0 s hng hinv hnu
    have hsp := step_preserve s hinv.1
    have hsp2 := step_preserve2 g0 s hng hinv
    rw [enumF_succ]
    rcases hst : s.step with s2 | ⟨s2, gg⟩ | s2 <;> dsimp only
    · obtain ⟨hC2, hiff⟩ := hsp2.1 s2 hst
      have hless : nuMeasure s2 ≤ N := by
        have hlt := (hsp.1 s2 hst).2
        omega
      obtain ⟨gs, hgs, hiff2, hsols, hpw⟩ := ih g0 s2 hng hC2 hless
      refine ⟨gs, hgs, ?_, hsols, hpw⟩
      intro h hsol
      rw [hiff h hsol]
      exact hiff2 h hsol
    · obtain ⟨hC2, hsolg, hiff, hdisj⟩ := hsp2.2.1 s2 gg hst
      have hless : nuMeasure s2 ≤ N := by
        have hlt := (hsp.2.1 s2 gg hst).2.1
        omega
      obtain ⟨gs, hgs, hiff2, hsols, hpw⟩ := ih g0 s2 hng hC2 hless
      refine ⟨gg :: gs, by rw [hgs], ?_, ?_, ?_⟩
      · intro h hsol
        rw [hiff h hsol]
        constructor
        · rintro (hv | hpend)
          · exact ⟨gg, by simp, hv⟩
          · obtain ⟨g2, hg2, hv2⟩ := (hiff2 h hsol).mp hpend
            exact ⟨g2, by simp [hg2], hv2⟩
        · rintro ⟨g2, hg2, hv2⟩
          rcases List.mem_cons.mp hg2 with rfl | hg2m
          · exact Or.inl hv2
          · exact Or.inr ((hiff2 h hsol).mpr ⟨g2, hg2m, hv2⟩)
      · intro g2 hg2
        rcases List.mem_cons.mp hg2 with rfl | hg2m
        · exact hsolg
        · exact hsols g2 hg2m
      · refine List.Pairwise.cons ?_ hpw
        intro g2 hg2 hv
        have hg2sol := hsols g2 hg2
        have hpend2 : pending g0 s2 g2 := (hiff2 g2 hg2sol).mpr ⟨g2, hg2, valEqP_refl g2⟩
        exact hdisj g2 hv hpend2
    · refine ⟨[], rfl, ?_, ?_, List.Pairwise.nil⟩
      · intro h hsol
        constructor
        · intro hpend
          exact absurd hpend (hsp2.2.2 s2 hst h hsol)
        · rintro ⟨g2, hg2, -⟩
          simp at hg2
      · intro g2 hg2
        simp at hg2

/-- Successful construction establishes the extended invariant. -/
theorem solve_CInv (g0 : Grid) (s0 : Solver) (hwf : Grid.wfB g0 = true)
    (hs : Grid.solve g0 = Except.ok s0) : CInv g0 s0 := by
  have hSI := solve_SInv g0 s0 hwf hs
  obtain ⟨hg, hcur⟩ := solve_grid_cursor g0 s0 hs
  refine ⟨hSI, ?_, ?_, ?_, ?_⟩
  · intro i hi hgf
    rw [hg]
  · intro i v2 hi hf
    rw [hg, hf]
    exact fun hx => Digit.noConfusion hx
  · intro i hi hf hb
    rw [hg]
    exact hf
  · intro hcontra
    rw [hcur] at hcontra
    exact Bool.noConfusion hcontra

/-- At the initial cursor every solution is pending. -/
theorem pending_init (g0 : Grid) (s0 : Solver) (hcur : s0.cursor = Cursor.init) (h : Grid) :
    pending g0 s0 h := by
  left
  constructor
  · rw [hcur]
    rfl
  · intro k hk hf
    rw [hcur] at hk
    have hk0 : k < 0 := hk
    exact absurd hk0 (by omega)

/-- Amended claim C2: for a validated starting grid whose filled
cells are all given, the sequence of grids produced by repeatedly
calling `next` until the first `None` is exactly the set of complete
valid completions of the start — every solution appears (value-wise),
every emitted grid is such a completion, and no grid appears twice. -/
theorem claim_C2_enumeration (g0 : Grid) (s0 : Solver) (hwf : Grid.wfB g0 = true)
    (hng : Grid.noGuessB g0 = true) (hs : Grid.solve g0 = Except.ok s0) :
    ∃ fuel gs, enumF fuel s0 = Option.some gs ∧
      (∀ h, IsSolutionOf g0 h → ∃ g2 ∈ gs, valEqP g2 h) ∧
      (∀ g2 ∈ gs, IsSolutionOf g0 g2) ∧
      List.Pairwise (fun a b2 => ¬ valEqP a b2) gs := by
  have hC := solve_CInv g0 s0 hwf hs
  obtain ⟨gs, hgs, hiff, hsols, hpw⟩ := enum_exact (nuMeasure s0) g0 s0 hng hC (le_refl _)
  refine ⟨nuMeasure s0 + 1, gs, hgs, ?_, hsols, hpw⟩
  intro h hsol
  exact (hiff h hsol).mp (pending_init g0 s0 (solve_grid_cursor g0 s0 hs).2 h)

theorem claim_C2_enumeration_witness :
    Grid.wfB wSolved = true ∧ Grid.noGuessB wSolved = true ∧
      (∃ fuel gs, enumF fuel wSolvedSolver = Option.some gs ∧
        (∀ h, IsSolutionOf wSolved h → ∃ g2 ∈ gs, valEqP g2 h) ∧
        (∀ g2 ∈ gs, IsSolutionOf wSolved g2) ∧
        List.Pairwise (fun a b2 => ¬ valEqP a b2) gs) :=
  ⟨by decide, by decide, claim_C2_enumeration wSolved wSolvedSolver (by decide) (by decide)
    (by rfl)⟩

end Sudoku
